import Mathlib

/-!
Verification of the link-resolution and product-attribute-extraction pipeline
implemented in `app.py` (functions `strip_affiliate_tags`, `unshorten_url`,
`scrape_product_info`, `scrape_and_format_deal`).

The embedding models Python strings as `List Char`.  The parts of the Python
standard library the program relies on (`urllib.parse.urlparse`, `urlunparse`,
`parse_qs`, `urlencode`, percent-quoting and UTF-8 coding) are embedded after
the CPython 3.11 sources, since the program runs on a modern CPython
(`str | None` annotations).  Network effects (`requests.head`, `requests.get`)
are modelled by explicit parameters: `net : String → Except Unit String` for
redirect resolution and `Option PageData` for the fetched page, where
`PageData` abstracts the BeautifulSoup queries the scraper performs.
Python exceptions are modelled with `Except Unit`.

Deliberate approximations, which no theorem below depends on: `str.lower` /
`str.upper`, whitespace classes and the regex classes `\w`, `\s`, `\d` are
modelled on ASCII (CPython additionally handles non-ASCII case mappings and
Unicode categories); `urlsplit`'s `_checknetloc` NFKC check and
`_check_bracketed_host` validation (which only reject exotic authorities) are
not modelled, while its documented `ValueError "Invalid IPv6 URL"` for an
unbalanced square bracket in the authority is.
-/

namespace DealBot

abbrev Chars := List Char

deriving instance DecidableEq for Except

/-- Case-insensitive-relevant ASCII lowering of a character (Python `str.lower`
restricted to ASCII). -/
def lowerS (l : Chars) : Chars := l.map Char.toLower

/-- ASCII uppering of a string (Python `str.upper` restricted to ASCII). -/
def upperS (l : Chars) : Chars := l.map Char.toUpper

/-- Python `sub in s` substring containment test: `isPrefixL n h` is `n`
being a literal prefix of `h`. -/
def isPrefixL : Chars → Chars → Bool
  | [], _ => true
  | _ :: _, [] => false
  | a :: as, b :: bs => a == b && isPrefixL as bs

/-- Python `needle in hay` (substring containment). -/
def containsSub (needle : Chars) : Chars → Bool
  | [] => isPrefixL needle []
  | c :: r => isPrefixL needle (c :: r) || containsSub needle r

/-- Split a list at the first occurrence of `c` (the occurrence removed),
`none` when `c` does not occur.  Models `str.split(c, 1)` / `str.find(c)`. -/
def breakAt (c : Char) : Chars → Option (Chars × Chars)
  | [] => none
  | a :: as =>
    if a == c then some ([], as)
    else (breakAt c as).map fun p => (a :: p.1, p.2)

/-- Split at the last occurrence of `c`: `l = before ++ c :: after` with
`after` free of `c`. -/
def breakAtLast (c : Char) (l : Chars) : Option (Chars × Chars) :=
  match breakAt c l.reverse with
  | none => none
  | some (ra, rb) => some (rb.reverse, ra.reverse)

/-- Python `str.split(sep)` for a one-character separator (keeps empty
fields, `"".split(sep) = [""]`). -/
def splitAll (sep : Char) : Chars → List Chars
  | [] => [[]]
  | c :: r =>
    let rest := splitAll sep r
    if c == sep then [] :: rest
    else
      match rest with
      | h :: t => (c :: h) :: t
      | [] => [[c]]

/-- List-of-lists join with a one-character separator (Python `sep.join`). -/
def joinWith (sep : Char) : List Chars → Chars
  | [] => []
  | [x] => x
  | x :: y :: r => x ++ sep :: joinWith sep (y :: r)

/-- List-of-lists join with a string separator. -/
def joinWithSep (sep : Chars) : List Chars → Chars
  | [] => []
  | [x] => x
  | x :: y :: r => x ++ sep ++ joinWithSep sep (y :: r)

/-- ASCII whitespace, modelling Python's `str.split()` class and the regex
class `\s` (restricted to ASCII). -/
def isSpaceCh (c : Char) : Bool :=
  c == ' ' || c == '\t' || c == '\n' || c == '\r' || c == '\x0b' || c == '\x0c'

/-- Python `str.strip()` (ASCII whitespace). -/
def pyStrip (l : Chars) : Chars :=
  ((l.dropWhile isSpaceCh).reverse.dropWhile isSpaceCh).reverse

/-- Worker for `pySplitWs`: `cur` is the reversed current word. -/
def pySplitWsAux : Chars → Chars → List Chars
  | cur, [] => if cur.isEmpty then [] else [cur.reverse]
  | cur, c :: r =>
    if isSpaceCh c then
      if cur.isEmpty then pySplitWsAux [] r
      else cur.reverse :: pySplitWsAux [] r
    else pySplitWsAux (c :: cur) r

/-- Python `str.split()` with no argument: split on whitespace runs,
dropping empty fields. -/
def pySplitWs (l : Chars) : List Chars := pySplitWsAux [] l

/-- Python `str.capitalize()`: first character uppered, the rest lowered. -/
def pyCapitalize : Chars → Chars
  | [] => []
  | c :: r => c.toUpper :: lowerS r

/-! ### UTF-8 coding and percent-quoting (`urllib.parse.quote_plus` /
`unquote`), after CPython `Lib/urllib/parse.py`. -/

/-- UTF-8 encoding of one code point, as a list of byte values. -/
def utf8Bytes (c : Char) : List Nat :=
  let v := c.toNat
  if v < 0x80 then [v]
  else if v < 0x800 then [0xC0 + v / 64, 0x80 + v % 64]
  else if v < 0x10000 then
    [0xE0 + v / 4096, 0x80 + v / 64 % 64, 0x80 + v % 64]
  else
    [0xF0 + v / 262144, 0x80 + v / 4096 % 64, 0x80 + v / 64 % 64, 0x80 + v % 64]

/-- UTF-8 encoding of a string (Python `str.encode('utf-8')`). -/
def utf8Str (l : Chars) : List Nat := l.flatMap utf8Bytes

/-- The U+FFFD replacement character used by `errors='replace'` decoding. -/
def replChar : Char := Char.ofNat 0xFFFD

/-- Classification of a byte as a UTF-8 lead: a complete ASCII character, a
decoder state `(continuations needed, accumulated bits, low, high)` where
`[low, high]` bounds the next continuation byte (tight bounds on the first
continuation exclude overlongs and surrogates, per WHATWG/CPython), or an
invalid lead. -/
def utf8Lead (b : Nat) : Sum Char (Option (Nat × Nat × Nat × Nat)) :=
  if b < 0x80 then .inl (Char.ofNat b)
  else if 0xC2 ≤ b && b ≤ 0xDF then .inr (some (1, b - 0xC0, 0x80, 0xBF))
  else if b = 0xE0 then .inr (some (2, 0, 0xA0, 0xBF))
  else if b = 0xED then .inr (some (2, 0xD, 0x80, 0x9F))
  else if 0xE1 ≤ b && b ≤ 0xEF then .inr (some (2, b - 0xE0, 0x80, 0xBF))
  else if b = 0xF0 then .inr (some (3, 0, 0x90, 0xBF))
  else if b = 0xF4 then .inr (some (3, 4, 0x80, 0x8F))
  else if 0xF1 ≤ b && b ≤ 0xF3 then .inr (some (3, b - 0xF0, 0x80, 0xBF))
  else .inr none

/-- UTF-8 decoding automaton with `errors='replace'` semantics (the maximal
valid subpart of an ill-formed sequence is replaced by one U+FFFD and the
offending byte is reconsidered as a lead). -/
def utf8DecGo : Option (Nat × Nat × Nat × Nat) → List Nat → Chars
  | none, [] => []
  | some _, [] => [replChar]
  | none, b :: r =>
    match utf8Lead b with
    | .inl ch => ch :: utf8DecGo none r
    | .inr (some s) => utf8DecGo (some s) r
    | .inr none => replChar :: utf8DecGo none r
  | some (need, acc, lo, hi), b :: r =>
    if lo ≤ b && b ≤ hi then
      if need = 1 then Char.ofNat (acc * 64 + (b - 0x80)) :: utf8DecGo none r
      else utf8DecGo (some (need - 1, acc * 64 + (b - 0x80), 0x80, 0xBF)) r
    else
      replChar ::
        (match utf8Lead b with
         | .inl ch => ch :: utf8DecGo none r
         | .inr (some s) => utf8DecGo (some s) r
         | .inr none => replChar :: utf8DecGo none r)

/-- UTF-8 decoding with `errors='replace'` (Python
`bytes.decode('utf-8', 'replace')`). -/
def utf8Dec (l : List Nat) : Chars := utf8DecGo none l

/-- Byte value of a hexadecimal digit character, case-insensitive. -/
def hexVal? (c : Char) : Option Nat :=
  if '0' ≤ c && c ≤ '9' then some (c.toNat - 48)
  else if 'a' ≤ c && c ≤ 'f' then some (c.toNat - 87)
  else if 'A' ≤ c && c ≤ 'F' then some (c.toNat - 55)
  else none

/-- Uppercase hexadecimal digit for a value below 16 (the quoter's
`'%{:02X}'`). -/
def hexUp (n : Nat) : Char :=
  if n < 10 then Char.ofNat (48 + n) else Char.ofNat (55 + n)

/-- Flush of `bexGo`'s pending state at the end of input: a trailing `%` or
`%h` is literal. -/
def bexFlush : Option (Option Char) → List Nat
  | none => []
  | some none => [0x25]
  | some (some a) => [0x25, a.toNat]

/-- Worker for `byteExpand`: the state holds nothing, a pending `%`, or a
pending `%` with one following character.  A `%HH` pair with two hex digits
becomes one byte; otherwise the `%` is literal and scanning resumes at the
character after it. -/
def bexGo : Option (Option Char) → Chars → List Nat
  | st, [] => bexFlush st
  | none, c :: r =>
    if c == '%' then bexGo (some none) r
    else c.toNat :: bexGo none r
  | some none, a :: r => bexGo (some (some a)) r
  | some (some a), b :: r =>
    match hexVal? a, hexVal? b with
    | some x, some y => (16 * x + y) :: bexGo none r
    | _, _ =>
      0x25 ::
        (if a == '%' then bexGo (some (some b)) r
         else
           a.toNat ::
             (if b == '%' then bexGo (some none) r else b.toNat :: bexGo none r))

/-- Percent-unescaping to bytes (CPython `unquote_to_bytes` on an ASCII run):
`%HH` pairs become bytes, anything else contributes its own byte. -/
def byteExpand (l : Chars) : List Nat := bexGo none l

/-- ASCII test used by `unquote`'s `_asciire` run splitting. -/
def isAsciiCh (c : Char) : Bool := c.toNat ≤ 0x7F

/-- Worker for `unquoteCore`: `acc` is the reversed current ASCII run;
maximal runs are byte-expanded and decoded as UTF-8 with replacement, while
non-ASCII characters pass through. -/
def unquoteAux (acc : Chars) : Chars → Chars
  | [] => utf8Dec (byteExpand acc.reverse)
  | c :: r =>
    if isAsciiCh c then unquoteAux (c :: acc) r
    else utf8Dec (byteExpand acc.reverse) ++ c :: unquoteAux [] r

/-- Run-splitting worker of `unquote` (`_asciire` in CPython). -/
def unquoteCore (l : Chars) : Chars := unquoteAux [] l

/-- Python `urllib.parse.unquote` (with default UTF-8 / replace handling). -/
def unquotePy (s : Chars) : Chars :=
  if s.contains '%' then unquoteCore s else s

/-- Python `urllib.parse.unquote_plus`: `+` becomes a space, then unquoting. -/
def unquotePlus (s : Chars) : Chars :=
  unquotePy (s.map fun c => if c == '+' then ' ' else c)

/-- Characters never quoted by `quote` (CPython `_ALWAYS_SAFE` with the
default empty `safe` argument). -/
def isSafeChar (c : Char) : Bool :=
  c.isAlpha || c.isDigit || c == '_' || c == '.' || c == '-' || c == '~'

/-- Python `urllib.parse.quote_plus` with default arguments: safe characters
kept, space becomes `+`, everything else percent-escaped per UTF-8 byte. -/
def quotePlus (s : Chars) : Chars :=
  s.flatMap fun c =>
    if isSafeChar c then [c]
    else if c == ' ' then ['+']
    else (utf8Bytes c).flatMap fun b => ['%', hexUp (b / 16), hexUp (b % 16)]

/-- The per-character expansion of `quote_plus` (so that
`quotePlus s = s.flatMap encPlus` definitionally). -/
def encPlus (c : Char) : Chars :=
  if isSafeChar c then [c]
  else if c == ' ' then ['+']
  else (utf8Bytes c).flatMap fun b => ['%', hexUp (b / 16), hexUp (b % 16)]

/-- `encPlus` after `unquote_plus`'s `+`-to-space substitution: the space
comes back, everything else is untouched. -/
def encSp (c : Char) : Chars :=
  if isSafeChar c then [c]
  else if c == ' ' then [' ']
  else (utf8Bytes c).flatMap fun b => ['%', hexUp (b / 16), hexUp (b % 16)]

/-- The characters that can appear in `urlencode` output: safe characters,
`+`, `%`, and the separators `&` and `=` (hexadecimal digits are safe). -/
def okQueryChar (c : Char) : Bool :=
  isSafeChar c || c == '+' || c == '%' || c == '&' || c == '='

/-! ### `urllib.parse.parse_qs` and `urlencode` (CPython defaults:
`keep_blank_values=False`, `separator='&'`, `doseq=True` at the call site). -/

/-- Python `parse_qsl` with default arguments: split on `&`, skip empty
fields and fields without `=` or with an empty value, unquote names and
values. -/
def parse_qsl (qs : Chars) : List (Chars × Chars) :=
  (splitAll '&' qs).filterMap fun nv =>
    if nv.isEmpty then none
    else
      match breakAt '=' nv with
      | none => none
      | some (n, v) => if v.isEmpty then none else some (unquotePlus n, unquotePlus v)

/-- The per-field treatment of `parse_qsl`, as a named function. -/
def qsField (nv : Chars) : Option (Chars × Chars) :=
  if nv.isEmpty then none
  else
    match breakAt '=' nv with
    | none => none
    | some (n, v) => if v.isEmpty then none else some (unquotePlus n, unquotePlus v)

/-- Append a value under a key in an association list, preserving
first-occurrence key order (Python dict insertion semantics). -/
def addPair (k v : Chars) : List (Chars × List Chars) → List (Chars × List Chars)
  | [] => [(k, [v])]
  | (k', vs) :: rest =>
    if k' = k then (k', vs ++ [v]) :: rest else (k', vs) :: addPair k v rest

/-- Python `parse_qs`: grouped `parse_qsl` result. -/
def parse_qsC (qs : Chars) : List (Chars × List Chars) :=
  (parse_qsl qs).foldl (fun acc p => addPair p.1 p.2 acc) []

/-- Python `urlencode(d, doseq=True)` on a dict of string lists. -/
def urlencodeC (d : List (Chars × List Chars)) : Chars :=
  joinWith '&' (d.flatMap fun kv => kv.2.map fun v => quotePlus kv.1 ++ '=' :: quotePlus v)

/-! ### `urllib.parse.urlparse` / `urlunparse` (CPython 3.11). -/

/-- CPython `uses_params` (schemes whose path may carry `;parameters`). -/
def uses_paramsC : List Chars :=
  ["", "ftp", "hdl", "prospero", "http", "imap", "https", "shttp", "rtsp",
   "rtsps", "rtspu", "sip", "sips", "mms", "sftp", "tel"].map String.data

/-- CPython `uses_netloc` (schemes that use a `//authority` part). -/
def uses_netlocC : List Chars :=
  ["", "ftp", "http", "gopher", "nntp", "telnet", "imap", "wais", "file",
   "mms", "https", "shttp", "snews", "prospero", "rtsp", "rtsps", "rtspu",
   "rsync", "svn", "svn+ssh", "sftp", "nfs", "git", "git+ssh", "ws",
   "wss"].map String.data

/-- CPython `scheme_chars` membership. -/
def isSchemeChar (c : Char) : Bool :=
  c.isAlpha || c.isDigit || c == '+' || c == '-' || c == '.'

/-- The six-component result of `urlparse`. -/
structure PyUrl where
  scheme : Chars
  netloc : Chars
  path : Chars
  params : Chars
  query : Chars
  fragment : Chars
deriving DecidableEq, Repr

/-- Input sanitation at the head of `urlsplit`: left-strip C0 controls and
space, then delete every tab, carriage return and newline. -/
def sanitizeUrl (l : Chars) : Chars :=
  (l.dropWhile fun c => c.toNat ≤ 0x20).filter fun c =>
    !(c == '\t' || c == '\r' || c == '\n')

/-- Scheme detection of `urlsplit`: at the first `:`, a nonempty prefix whose
head is an ASCII letter and whose characters are scheme characters is the
(lowercased) scheme. -/
def splitSchemeC (url : Chars) : Chars × Chars :=
  match breakAt ':' url with
  | none => ([], url)
  | some (pre, post) =>
    match pre with
    | [] => ([], url)
    | c :: _ => if c.isAlpha && pre.all isSchemeChar then (lowerS pre, post) else ([], url)

/-- CPython `_splitnetloc` from position 0: the authority runs up to the
first `/`, `?` or `#`. -/
def splitNetlocC (url : Chars) : Chars × Chars :=
  (url.takeWhile fun c => !(c == '/' || c == '?' || c == '#'),
   url.dropWhile fun c => !(c == '/' || c == '?' || c == '#'))

/-- CPython `_splitparams`: parameters start at the first `;` of the last
path segment. -/
def splitParamsC (url : Chars) : Chars × Chars :=
  if url.contains '/' then
    match breakAtLast '/' url with
    | some (before, after) =>
      match breakAt ';' after with
      | some (a, b) => (before ++ '/' :: a, b)
      | none => (url, [])
    | none => (url, [])
  else
    match breakAt ';' url with
    | some (a, b) => (a, b)
    | none => (url, [])

/-- `urlparse` on an already-sanitized character list (total; the
`ValueError`s of the authority checks are tracked separately by
`parseRaises`). -/
def urlparseCore (url0 : Chars) : PyUrl :=
  let sp := splitSchemeC url0
  let scheme := sp.1
  let rest1 := sp.2
  let nl :=
    if isPrefixL "//".data rest1 then splitNetlocC (rest1.drop 2) else ([], rest1)
  let netloc := nl.1
  let rest2 := nl.2
  let fr :=
    match breakAt '#' rest2 with
    | some p => p
    | none => (rest2, [])
  let rest3 := fr.1
  let fragment := fr.2
  let qu :=
    match breakAt '?' rest3 with
    | some p => p
    | none => (rest3, [])
  let rest4 := qu.1
  let query := qu.2
  let pp :=
    if scheme ∈ uses_paramsC && rest4.contains ';' then splitParamsC rest4
    else (rest4, [])
  ⟨scheme, netloc, pp.1, pp.2, query, fragment⟩

/-- The tail of `urlparseCore` after the scheme and authority have been
resolved (fragment, query and parameter splitting). -/
def parseTail2 (scheme netloc rest2 : Chars) : PyUrl :=
  let fr :=
    match breakAt '#' rest2 with
    | some p => p
    | none => (rest2, [])
  let qu :=
    match breakAt '?' fr.1 with
    | some p => p
    | none => (fr.1, [])
  let pp :=
    if scheme ∈ uses_paramsC && qu.1.contains ';' then splitParamsC qu.1
    else (qu.1, [])
  ⟨scheme, netloc, pp.1, pp.2, qu.2, fr.2⟩

/-- The tail of `urlparseCore` after the scheme has been resolved. -/
def parseTail (scheme rest1 : Chars) : PyUrl :=
  if isPrefixL "//".data rest1 then
    parseTail2 scheme (splitNetlocC (rest1.drop 2)).1 (splitNetlocC (rest1.drop 2)).2
  else parseTail2 scheme [] rest1

/-- Python `urlparse` of a string (sanitation plus `urlparseCore`). -/
def urlparseC (url : String) : PyUrl := urlparseCore (sanitizeUrl url.data)

/-- Hexadecimal digits accepted by `ipaddress`'s `_parse_hextet`
(`_HEX_DIGITS = frozenset('0123456789ABCDEFabcdef')`). -/
def isHexDigitPy (c : Char) : Bool :=
  (decide (48 ≤ c.toNat) && decide (c.toNat ≤ 57)) ||
  (decide (97 ≤ c.toNat) && decide (c.toNat ≤ 102)) ||
  (decide (65 ≤ c.toNat) && decide (c.toNat ≤ 70))

/-- `_parse_hextet` succeeds: only hex digits, at most 4 characters, and
nonempty (`int("", 16)` raises). -/
def hextetOK (p : Chars) : Bool :=
  p.all isHexDigitPy && decide (p.length ≤ 4) && !p.isEmpty

/-- Value of a decimal digit string. -/
def decValue : Chars → Nat → Nat
  | [], acc => acc
  | c :: r, acc => decValue r (acc * 10 + (c.toNat - 48))

/-- `IPv4Address._parse_octet` succeeds: nonempty, ASCII decimal digits,
at most 3 characters, no leading zero except `"0"` itself, value at most
255. -/
def ipv4OctetOK (p : Chars) : Bool :=
  !p.isEmpty && p.all Char.isDigit && decide (p.length ≤ 3) &&
    (match p with
     | '0' :: r => r.isEmpty
     | _ => true) &&
    decide (decValue p 0 ≤ 255)

/-- `IPv4Address._ip_int_from_string` succeeds: exactly four valid
octets. -/
def ipv4StrOK (s : Chars) : Bool :=
  let octs := splitAll '.' s
  decide (octs.length = 4) && octs.all ipv4OctetOK

/-- The `'::'` bookkeeping of `IPv6Address._ip_int_from_string` on the
colon-separated parts (the dotted IPv4 suffix, when present, has already
been replaced by two nonempty hextets): at most nine parts, at most one
empty inner part, an empty endpoint only next to the skip, at least one
zero group skipped, and every parsed part a valid hextet. -/
def ipv6PartsOK (parts : List Chars) : Bool :=
  if decide (9 < parts.length) then false
  else
    let inner := (parts.drop 1).dropLast
    if decide (2 ≤ inner.countP (fun p => p.isEmpty)) then false
    else if inner.any (fun p => p.isEmpty) then
      let skip := 1 + inner.findIdx (fun p => p.isEmpty)
      let headEmpty := (parts.headD ['x']).isEmpty
      let lastEmpty := (parts.getLastD ['x']).isEmpty
      if headEmpty && decide (2 ≤ skip) then false
      else if lastEmpty && decide (skip + 3 ≤ parts.length) then false
      else
        let hi := skip - (if headEmpty then 1 else 0)
        let lo := (parts.length - skip - 1) - (if lastEmpty then 1 else 0)
        if decide (8 ≤ hi + lo) then false
        else (parts.take hi).all hextetOK &&
          (parts.drop (parts.length - lo)).all hextetOK
    else
      if decide (parts.length ≠ 8) then false
      else if (parts.headD ['x']).isEmpty then false
      else if (parts.getLastD ['x']).isEmpty then false
      else parts.all hextetOK

/-- `IPv6Address(s)` succeeds on a string (CPython `ipaddress`): no `/`,
an optional `%scope` that is nonempty and `%`-free, a nonempty address
with at least two colons, a dotted IPv4 suffix converted to two hextets,
and a valid hextet layout. -/
def ipv6StrOK (s : Chars) : Bool :=
  if s.contains '/' then false
  else
    let sc := breakAt '%' s
    let core := match sc with
      | none => s
      | some p => p.1
    let scopeOK := match sc with
      | none => true
      | some p => !p.2.isEmpty && !p.2.contains '%'
    if !scopeOK then false
    else if core.isEmpty then false
    else
      let parts := splitAll ':' core
      if decide (parts.length < 3) then false
      else
        let lastp := parts.getLastD []
        if lastp.contains '.' then
          if ipv4StrOK lastp then ipv6PartsOK (parts.dropLast ++ [['0'], ['0']])
          else false
        else ipv6PartsOK parts

/-- The shape test `re.match(r"\Av[a-fA-F0-9]+\..+\Z", host)` applied by
`_check_bracketed_host` to a `v`-initial bracketed host; `t` is the host
after the leading `v`: one or more hex digits, a dot, then a nonempty
remainder free of newlines. -/
def vfutureOK (t : Chars) : Bool :=
  let hexs := t.takeWhile isHexDigitPy
  !hexs.isEmpty &&
    (match t.drop hexs.length with
     | '.' :: r => !r.isEmpty && r.all (fun c => !(c == '\n'))
     | _ => false)

/-- `netloc.partition('[')[2].partition(']')[0]`: the text between the
first `[` and the next `]` after it (to the end of the authority when no
`]` follows). -/
def bracketedHostC (netloc : Chars) : Chars :=
  let t := match breakAt '[' netloc with
    | none => []
    | some p => p.2
  match breakAt ']' t with
  | none => t
  | some p => p.1

/-- `_check_bracketed_host` succeeds: a `v`-initial host must have the
IPvFuture shape; any other host must be accepted by `ip_address` and not
be an IPv4 address, i.e. it must be a valid IPv6 address (a valid IPv4
host raises `An IPv4 address cannot be in brackets`, and no string is
both). -/
def bracketedHostOK (h : Chars) : Bool :=
  match h with
  | 'v' :: t => vfutureOK t
  | _ => ipv6StrOK h

/-- The `ValueError`s `urlsplit` raises from the authority of a sanitized
URL (CPython 3.11.6): `Invalid IPv6 URL` when the authority has `[` or
`]` but not both, and the `_check_bracketed_host` validation when it has
both.  (`_checknetloc` returns immediately for an empty or ASCII
authority, so on ASCII authorities this predicate is exact; its NFKC
check on non-ASCII authorities is outside the model.) -/
def netlocRaises (netloc : Chars) : Bool :=
  if (netloc.contains '[') != (netloc.contains ']') then true
  else if netloc.contains '[' then !bracketedHostOK (bracketedHostC netloc)
  else false

/-- `urlsplit` raises a `ValueError` while parsing this URL's authority. -/
def parseRaises (url : String) : Bool := netlocRaises (urlparseC url).netloc

/-- CPython 3.11 `urlunsplit` on character lists. -/
def urlunsplitC (scheme netloc url query fragment : Chars) : Chars :=
  let url :=
    if !netloc.isEmpty ||
        (!scheme.isEmpty && scheme ∈ uses_netlocC && !isPrefixL "//".data url) then
      let url := if !url.isEmpty && !isPrefixL "/".data url then '/' :: url else url
      '/' :: '/' :: (netloc ++ url)
    else url
  let url := if scheme.isEmpty then url else scheme ++ ':' :: url
  let url := if query.isEmpty then url else url ++ '?' :: query
  if fragment.isEmpty then url else url ++ '#' :: fragment

/-- CPython `urlunparse`: re-attach `;params` to the path, then `urlunsplit`. -/
def urlunparseC (p : PyUrl) : Chars :=
  urlunsplitC p.scheme p.netloc
    (if p.params.isEmpty then p.path else p.path ++ ';' :: p.params)
    p.query p.fragment

/-- The path with its `;parameters` re-attached, as `urlunparse` rebuilds
it before calling `urlunsplit`. -/
def paramBlob (p : PyUrl) : Chars :=
  if p.params.isEmpty then p.path else p.path ++ ';' :: p.params

/-- No prefix of `l` up to its first `:` forms a valid scheme, so
`urlsplit` detects no scheme in `l` (nor in `l` extended by a `?`- or
`#`-headed tail). -/
def schemeFreeB (l : Chars) : Bool :=
  match breakAt ':' l with
  | none => true
  | some ([], _) => true
  | some (c :: cs, _) => !(c.isAlpha && (c :: cs).all isSchemeChar)

/-- The last `/`-segment of `l` contains no `;`, so `_splitparams` finds
nothing to split off. -/
def lastSegOK (l : Chars) : Bool :=
  match breakAtLast '/' l with
  | some (_, a) => !a.contains ';'
  | none => !l.contains ';'

/-- No tab, carriage return or newline: such lists pass the character
filter of `urlsplit`'s input sanitation unchanged. -/
def noTRN (l : Chars) : Bool := l.all fun c => !(c == '\t' || c == '\r' || c == '\n')

/-- An empty list, or one whose head is above the C0-control/space range,
so that sanitation's leading strip removes nothing. -/
def headGt (l : Chars) : Bool :=
  match l with
  | [] => true
  | c :: _ => decide (0x20 < c.toNat)

/-- Invariants of a `urlparse` result (on sanitized input) that make the
`urlunparse` reconstruction re-parse to compatible components. -/
structure ParseFacts (p : PyUrl) : Prop where
  scheme_shape : p.scheme = [] ∨ ∃ c cs, p.scheme = c :: cs ∧ c.isAlpha = true ∧
    p.scheme.all isSchemeChar = true ∧ lowerS p.scheme = p.scheme
  scheme_free : p.scheme = [] → schemeFreeB (paramBlob p) = true
  netloc_ok : ∀ c ∈ p.netloc, (!(c == '/' || c == '?' || c == '#')) = true
  path_no_q : '?' ∉ p.path
  path_no_h : '#' ∉ p.path
  params_no_q : '?' ∉ p.params
  params_no_h : '#' ∉ p.params
  params_no_s : '/' ∉ p.params
  netloc_path : p.netloc ≠ [] → p.path = [] ∨ ∃ r, p.path = '/' :: r
  netloc_params : p.netloc ≠ [] → p.path = [] → p.params = []
  params_scheme : p.params ≠ [] → p.scheme ∈ uses_paramsC
  params_seg : p.scheme ∈ uses_paramsC → lastSegOK p.path = true
  head_ok : p.scheme = [] → p.netloc = [] → headGt p.path = true
  trn_scheme : noTRN p.scheme = true
  trn_netloc : noTRN p.netloc = true
  trn_path : noTRN p.path = true
  trn_params : noTRN p.params = true
  trn_frag : noTRN p.fragment = true

/-! ### Word-boundary literal search and removal, modelling
`re.search(rf'\b{tag}\b', s, re.IGNORECASE)` and the corresponding `re.sub`
with empty replacement.  All needles used by `app.py` begin and end with a
word character, which the boundary tests below assume. -/

/-- Regex `\w` (ASCII). -/
def isWordChar (c : Char) : Bool := c.isAlphanum || c == '_'

/-- Case-insensitive literal match at the head of a list, returning the
rest. -/
def ciMatch : Chars → Chars → Option Chars
  | [], h => some h
  | _ :: _, [] => none
  | n :: ns, h :: hs => if n.toLower == h.toLower then ciMatch ns hs else none

/-- A `\b` immediately before a word character holds when the previous
character is absent or not a word character. -/
def boundaryBefore : Option Char → Bool
  | none => true
  | some p => !isWordChar p

/-- A `\b` immediately after a word character holds when the next character
is absent or not a word character. -/
def boundaryAfter : Chars → Bool
  | [] => true
  | r :: _ => !isWordChar r

/-- Worker for `wordSearch`, carrying the previous character. -/
def wordSearchAux (needle : Chars) : Option Char → Chars → Bool
  | _, [] => false
  | prev, h :: t =>
    (boundaryBefore prev &&
      (match ciMatch needle (h :: t) with
       | some rest => boundaryAfter rest
       | none => false)) || wordSearchAux needle (some h) t

/-- Whether `re.search(rf'\b{needle}\b', hay, re.IGNORECASE)` finds a match
(nonempty word-delimited needles). -/
def wordSearch (needle hay : Chars) : Bool := wordSearchAux needle none hay

/-- Length of the rest of a successful case-insensitive literal match. -/
def ciMatchLen : ∀ n h r, ciMatch n h = some r → r.length + n.length = h.length := by
  intro n
  induction n with
  | nil => intro h r hr; simp [ciMatch] at hr; simp [hr]
  | cons a as ih =>
    intro h r hr
    match h with
    | [] => simp [ciMatch] at hr
    | b :: bs =>
      simp only [ciMatch] at hr
      split at hr
      · have := ih bs r hr
        simp only [List.length_cons]
        omega
      · exact absurd hr (by simp)

/-- dropWhile never lengthens a list. -/
def dropWhileLen : ∀ (p : Char → Bool) (l : Chars), (l.dropWhile p).length ≤ l.length := by
  intro p l
  induction l with
  | nil => simp [List.dropWhile]
  | cons c r ih =>
    simp only [List.dropWhile]
    split
    · exact Nat.le_succ_of_le ih
    · simp

/-- Fuelled worker for `wordRemove`; a fuel of the hay's length suffices
since every step consumes at least one character. -/
def wordRemoveF (needle : Chars) : Nat → Option Char → Chars → Chars
  | 0, _, hay => hay
  | _, _, [] => []
  | fuel + 1, prev, h :: t =>
    if needle = [] then h :: t
    else if boundaryBefore prev then
      match ciMatch needle (h :: t) with
      | some rest =>
        if boundaryAfter rest then
          wordRemoveF needle fuel ((h :: t).take needle.length).getLast? rest
        else h :: wordRemoveF needle fuel (some h) t
      | none => h :: wordRemoveF needle fuel (some h) t
    else h :: wordRemoveF needle fuel (some h) t

/-- The `re.sub(rf'\b{needle}\b', '', hay, flags=re.IGNORECASE)` of a
nonempty word-delimited literal: every non-overlapping occurrence removed,
boundaries judged on the original text. -/
def wordRemove (needle : Chars) (prev : Option Char) (hay : Chars) : Chars :=
  wordRemoveF needle hay.length prev hay

/-! ### Title heuristics of `scrape_product_info` and the formatter. -/

/-- Keyword tables from `app.py`. -/
def GENDER_TAGS : List String := ["men", "women", "kids", "unisex"]

/-- Quantity keyword table from `app.py`. -/
def QUANTITY_TAGS : List String := ["pack of", "set of", "pcs", "kg", "ml", "g", "quantity"]

/-- The caption branch's tag loop (lines 176–185): on the first tag found,
prefix its capitalization unless the lowered title already starts with it,
then break. -/
def captionPrefixTags (tags : List String) (title : Chars) : Chars :=
  match tags with
  | [] => title
  | tag :: rest =>
    if wordSearch tag.data title then
      if isPrefixL tag.data (lowerS title) then title
      else pyCapitalize tag.data ++ ' ' :: title
    else captionPrefixTags rest title

/-- Title derived from a message caption (lines 171–185): whitespace
normalisation then gender and quantity prefixing. -/
def caption_title (caption : Chars) : Chars :=
  let t := joinWith ' ' (pySplitWs caption)
  let t := captionPrefixTags GENDER_TAGS t
  captionPrefixTags QUANTITY_TAGS t

/-- First alternative of the scraped-title cleaning pattern:
`\|\s*Amazon\.in`. -/
def cleanBranch1 : Chars → Option Chars
  | '|' :: r => ciMatch "amazon.in".data (r.dropWhile isSpaceCh)
  | _ => none

/-- Second alternative: `\s*Online at Best Price`. -/
def cleanBranch2 (l : Chars) : Option Chars :=
  ciMatch "online at best price".data (l.dropWhile isSpaceCh)

/-- Third alternative: `\s*-\s*Buy Online.*` (`.*` consumes up to a
newline). -/
def cleanBranch3 (l : Chars) : Option Chars :=
  match l.dropWhile isSpaceCh with
  | '-' :: r2 =>
    match ciMatch "buy online".data (r2.dropWhile isSpaceCh) with
    | some rest => some (rest.dropWhile fun c => !(c == '\n'))
    | none => none
  | _ => none

/-- One attempt of the cleaning pattern of line 212 at the head of the list,
alternatives tried in order. -/
def titleCleanAt (l : Chars) : Option Chars :=
  match cleanBranch1 l with
  | some rest => some rest
  | none =>
    match cleanBranch2 l with
    | some rest => some rest
    | none => cleanBranch3 l

/-- Fuelled worker for the cleaning `re.sub` of line 212: scan left to
right, removing each match and continuing after it.  Every successful
`titleCleanAt` consumes at least one character, so a fuel of the input
length suffices. -/
def titleCleanSubF : Nat → Chars → Chars
  | 0, l => l
  | _, [] => []
  | fuel + 1, c :: t =>
    match titleCleanAt (c :: t) with
    | some rest => titleCleanSubF fuel rest
    | none => c :: titleCleanSubF fuel t

/-- The cleaning `re.sub` of line 212. -/
def titleCleanSub (l : Chars) : Chars := titleCleanSubF l.length l

/-- Remove all occurrences of each tag, stripping after each substitution
(lines 220–222 / 230–232). -/
def removeAllTags (tags : List String) (t : Chars) : Chars :=
  tags.foldl (fun acc tag => pyStrip (wordRemove tag.data none acc)) t

/-- Scraped-title post-processing (lines 210–232): cleaning regex, strip,
then gender and quantity prefix-and-remove passes. -/
def pageTitleProcess (t : Chars) : Chars :=
  let t := pyStrip (titleCleanSub t)
  let tg :=
    match GENDER_TAGS.find? (fun tag => wordSearch tag.data t) with
    | some tag => (pyCapitalize tag.data ++ ' ' :: t, true)
    | none => (t, false)
  let t := if tg.2 then removeAllTags GENDER_TAGS tg.1 else tg.1
  let tq :=
    match QUANTITY_TAGS.find? (fun tag => wordSearch tag.data t) with
    | some tag => (pyCapitalize tag.data ++ ' ' :: t, true)
    | none => (t, false)
  if tq.2 then removeAllTags QUANTITY_TAGS tq.1 else tq.1

/-! ### `app.py` constants. -/

/-- Supported URL shorteners (line 29). -/
def SUPPORTED_SHORTENERS : List String :=
  ["cutt.ly", "spoo.me", "amzn-to.co", "fkrt.cc", "bitli.in", "da.gd", "wishlink.com"]

/-- Affiliate parameters to strip (lines 34–38), exactly as spelled in the
source (note the mixed-case entries `linkCode` and `creativeASIN`). -/
def AFFILIATE_PARAMS : List String :=
  ["tag", "ref", "aff_id", "partner_id", "linkCode", "camp", "creative",
   "creativeASIN", "ascsubtag", "utm_source", "utm_medium", "utm_campaign",
   "fbclid", "_encoding", "psc", "coliid", "colid", "sr_p_7"]

/-- Fallback pin code for meesho.com links (line 48). -/
def MEESHO_FALLBACK_PIN : String := "110001"

/-- Size labels looked for by the scraper (line 257). -/
def size_labels_list : List String :=
  ["S", "M", "L", "XL", "XXL", "XXXL", "Free Size", "One Size"]

/-! ### `strip_affiliate_tags` and `unshorten_url`. -/

/-- `AFFILIATE_PARAMS` as character lists. -/
def affiliateKeysC : List Chars := AFFILIATE_PARAMS.map String.data

/-- The dict comprehension of lines 115–118: keep a pair when its lowered
key is not in `AFFILIATE_PARAMS`. -/
def filterAffiliate (d : List (Chars × List Chars)) : List (Chars × List Chars) :=
  d.filter fun kv => !(affiliateKeysC.contains (lowerS kv.1))

/-- The query-string transformation of `strip_affiliate_tags`:
`urlencode({k: v for k, v in parse_qs(q).items() if ...}, doseq=True)`. -/
def cleanedQuery (q : Chars) : Chars := urlencodeC (filterAffiliate (parse_qsC q))

/-- `strip_affiliate_tags` (lines 107–124).  The `Except` error is the
`ValueError` that `urlparse` raises for an unbalanced bracket in the
authority; it propagates, uncaught, to the caller. -/
def strip_affiliate_tags (url : String) : Except Unit String :=
  if parseRaises url then .error ()
  else
    let p := urlparseC url
    .ok (String.mk (urlunparseC { p with query := cleanedQuery p.query }))

/-- `unshorten_url` (lines 80–105).  `net` models
`requests.head(url, allow_redirects=True).url` after `raise_for_status`:
`.ok` is the final URL, `.error` any `requests.exceptions.RequestException`
(timeout, DNS or TLS failure, non-2xx status), which the function swallows,
returning the original URL. -/
def unshorten_url (net : String → Except Unit String) (short_url : String) :
    Except Unit String :=
  if parseRaises short_url then .error ()
  else
    let netloc := (urlparseC short_url).netloc
    if netloc.isEmpty then .ok short_url
    else if !(SUPPORTED_SHORTENERS.any fun s => containsSub s.data netloc) then
      .ok short_url
    else
      match net short_url with
      | .ok final => .ok final
      | .error _ => .ok short_url

/-! ### Price extraction: `PRICE_PATTERN` (line 41) is
`[₹Rs]{1,2}\s*(\d{1,3}(?:,\d{3})*(?:\.\d{2})?)` with `re.IGNORECASE`;
the scraper takes group 1 of the first matching candidate and deletes
commas (lines 242–249). -/

/-- The character class `[₹Rs]` under `re.IGNORECASE`. -/
def currencyCh (c : Char) : Bool :=
  c == '₹' || c == 'R' || c == 'r' || c == 'S' || c == 's'

/-- Greedy `\d{1,n}`: up to `n` leading ASCII digits. -/
def takeDigitsUpTo : Nat → Chars → Chars × Chars
  | 0, l => ([], l)
  | _ + 1, [] => ([], [])
  | n + 1, c :: r =>
    if c.isDigit then
      let p := takeDigitsUpTo n r
      (c :: p.1, p.2)
    else ([], c :: r)

/-- Fuelled worker for `commaGroups`; each group consumes four characters,
so a fuel of the input length suffices. -/
def commaGroupsF : Nat → Chars → Chars × Chars
  | 0, l => ([], l)
  | fuel + 1, l =>
    match l with
    | ',' :: a :: b :: c :: r =>
      if a.isDigit && b.isDigit && c.isDigit then
        let p := commaGroupsF fuel r
        (',' :: a :: b :: c :: p.1, p.2)
      else ([], l)
    | _ => ([], l)

/-- Greedy `(?:,\d{3})*`. -/
def commaGroups (l : Chars) : Chars × Chars := commaGroupsF l.length l

/-- Optional `(?:\.\d{2})?`. -/
def decimalPart : Chars → Chars × Chars
  | '.' :: a :: b :: r =>
    if a.isDigit && b.isDigit then (['.', a, b], r) else ([], '.' :: a :: b :: r)
  | l => ([], l)

/-- Group 1 of `PRICE_PATTERN` matched at the head of the list. -/
def priceNum (l : Chars) : Option Chars :=
  let d := takeDigitsUpTo 3 l
  if d.1.isEmpty then none
  else
    let cg := commaGroups d.2
    let dp := decimalPart cg.2
    some (d.1 ++ cg.1 ++ dp.1)

/-- `\s*` then the numeric group. -/
def afterCurrency (l : Chars) : Option Chars := priceNum (l.dropWhile isSpaceCh)

/-- `PRICE_PATTERN` matched at the head of the list: one or two currency
class characters (greedy, with backtracking), whitespace, then the group. -/
def priceMatchAt : Chars → Option Chars
  | [] => none
  | c1 :: rest =>
    if currencyCh c1 then
      match rest with
      | [] => none
      | c2 :: rest2 =>
        if currencyCh c2 then
          match afterCurrency rest2 with
          | some g => some g
          | none => afterCurrency rest
        else afterCurrency rest
    else none

/-- `PRICE_PATTERN.search`: leftmost match, returning group 1. -/
def priceSearch : Chars → Option Chars
  | [] => none
  | c :: t =>
    match priceMatchAt (c :: t) with
    | some g => some g
    | none => priceSearch t

/-- The price loop of lines 242–249: first candidate with a match wins;
group 1 with commas removed. -/
def scrape_price : List String → Option String
  | [] => none
  | c :: rest =>
    match priceSearch c.data with
    | some g => some (String.mk (g.filter fun ch => !(ch == ',')))
    | none => scrape_price rest

/-! ### Size extraction (lines 255–283). -/

/-- `size_labels_list` as character lists. -/
def sizeLabelsC : List Chars := size_labels_list.map String.data

/-- `[s.upper() for s in size_labels_list]`. -/
def upperLabelsC : List Chars := sizeLabelsC.map upperS

/-- The collection loop of lines 264–270: texts of size elements whose
uppercase form is a size label and that are not marked
unavailable/disabled. -/
def available_sizes (els : List (String × List String)) : List Chars :=
  els.filterMap fun el =>
    if upperLabelsC.contains (upperS el.1.data) &&
        !(el.2.contains "unavailable") && !(el.2.contains "disabled") then
      some el.1.data
    else none

/-- Python `list.index` (an absent element raises `ValueError`). -/
def idxOfC (x : Chars) : List Chars → Option Nat
  | [] => none
  | y :: r => if y = x then some 0 else (idxOfC x r).map (· + 1)

/-- The sort key of line 274:
`size_labels_list.index(x.upper()) if x.upper() in [s.upper() for s in
size_labels_list] else len(size_labels_list)`.  Note `.index` searches the
original, mixed-case list, so for example `"Free Size".upper()` raises
`ValueError`. -/
def sizeKey (x : Chars) : Except Unit Nat :=
  if upperLabelsC.contains (upperS x) then
    match idxOfC (upperS x) sizeLabelsC with
    | some i => .ok i
    | none => .error ()
  else .ok sizeLabelsC.length

/-- Canonical position of a size text: the index of its uppercase form in
`size_labels_list` (the list's length when absent). -/
def sizeIdx (x : Chars) : Nat :=
  (idxOfC (upperS x) sizeLabelsC).getD sizeLabelsC.length

/-- Deduplication of `list(set(...))`.  CPython's set iteration order is
unspecified (hash-randomised); the embedding fixes first-occurrence order,
on which no theorem below depends. -/
def dedupFirst : List Chars → List Chars
  | [] => []
  | x :: r => x :: (dedupFirst r).filter fun y => y ≠ x

/-- Keys for all elements, propagating the `ValueError` of `sizeKey`. -/
def sizeKeyed : List Chars → Except Unit (List (Chars × Nat))
  | [] => .ok []
  | x :: r =>
    match sizeKey x, sizeKeyed r with
    | .ok k, .ok rest => .ok ((x, k) :: rest)
    | .error e, _ => .error e
    | .ok _, .error e => .error e

/-- Stable insertion by key (Python `sorted` is a stable sort). -/
def insertByKey (x : Chars × Nat) : List (Chars × Nat) → List (Chars × Nat)
  | [] => [x]
  | y :: r => if x.2 < y.2 then x :: y :: r else y :: insertByKey x r

/-- Stable sort by key. -/
def sortByKey (l : List (Chars × Nat)) : List (Chars × Nat) := l.foldr insertByKey []

/-- Lines 272–281: the sizes attribute computed from the collected size
texts (`"Not Found"` when none; dedup, key-sort — which may raise — then
`"All"` when at least `len(size_labels_list) - 2` distinct texts, else the
`", "` join in canonical order). -/
def sizes_result (avail : List Chars) : Except Unit String :=
  if avail.isEmpty then .ok "Not Found"
  else
    let uniq := dedupFirst avail
    match sizeKeyed uniq with
    | .error e => .error e
    | .ok kl =>
      let sorted := (sortByKey kl).map Prod.fst
      if sizeLabelsC.length - 2 ≤ uniq.length then .ok "All"
      else .ok (String.mk (joinWithSep ", ".data sorted))

/-! ### `scrape_product_info` (lines 144–293). -/

/-- Abstraction of the BeautifulSoup queries the scraper performs on the
fetched page: `og:title` content, `<title>` string and `<h1>` string (is
`none` when the element or attribute is missing, `some ""` when present but
empty — both falsy in Python), the stringified price candidates of lines
238–240 in document order, and the size elements of lines 260–262 as
(stripped text, class list) pairs. -/
structure PageData where
  og_title : Option String
  title_tag : Option String
  h1 : Option String
  price_candidates : List String
  size_elements : List (String × List String)
deriving Repr

/-- The scraped attribute record of lines 161–167. -/
structure ProductInfo where
  title : String
  price : String
  sizes : String
  pin : String
  link : String
deriving DecidableEq, Repr

/-- Truthiness-respecting extraction chain for the page title
(lines 196–208): `og:title` content, else `<title>` string, else `<h1>`. -/
def nonEmptyOpt : Option String → Option Chars
  | some s => if s.isEmpty then none else some s.data
  | none => none

/-- First truthy page-title source. -/
def page_title (pg : PageData) : Option Chars :=
  match nonEmptyOpt pg.og_title with
  | some t => some t
  | none =>
    match nonEmptyOpt pg.title_tag with
    | some t => some t
    | none => nonEmptyOpt pg.h1

/-- `scrape_product_info` (lines 144–293) with the fetch modelled by
`page : Option PageData` (`none` is a failed `fetch_page_content`).  The
`Except` error is the `ValueError` the size sort of line 274 can raise; it
propagates, uncaught, to the caller. -/
def scrape_product_info (url : String) (message_caption : Option String)
    (page : Option PageData) : Except Unit ProductInfo :=
  let title1 : Chars :=
    match message_caption with
    | some c => if c.isEmpty then "N/A".data else caption_title c.data
    | none => "N/A".data
  match page with
  | none => .ok ⟨String.mk title1, "N/A", "N/A", "N/A", url⟩
  | some pg =>
    let title2 : Chars :=
      if title1 = "N/A".data then
        let t := match page_title pg with | some x => x | none => title1
        if t ≠ "N/A".data then pageTitleProcess t else t
      else title1
    let price : String :=
      match scrape_price pg.price_candidates with
      | some p => p
      | none => "N/A"
    match sizes_result (available_sizes pg.size_elements) with
    | .error e => .error e
    | .ok sz =>
      let pin : String :=
        if containsSub "meesho.com".data url.data then MEESHO_FALLBACK_PIN
        else "N/A"
      .ok ⟨String.mk title2, price, sz, pin, url⟩

/-! ### The formatter and orchestrator `scrape_and_format_deal`
(lines 363–428). -/

/-- Bracketed tag alternatives of the formatter's cleanup regex
(line 385). -/
def BRACKET_TAGS : List String :=
  ["Men", "Women", "Kids", "Unisex", "Pack of", "Set of", "Pcs", "Kg", "Ml",
   "G", "Quantity"]

/-- Ordered alternation after a literal `[`: an alternative followed by `]`
then `\s*`. -/
def bracketAltAt : List String → Chars → Option Chars
  | [], _ => none
  | alt :: alts, r =>
    match ciMatch alt.data r with
    | some (']' :: rest) => some (rest.dropWhile isSpaceCh)
    | _ => bracketAltAt alts r

/-- Fuelled worker for the `re.sub(r'\[(Men|Women|...)\]\s*', '', ...)` of
line 385; every match consumes at least the bracket, so a fuel of the input
length suffices. -/
def bracketTagSubF : Nat → Chars → Chars
  | 0, l => l
  | _, [] => []
  | fuel + 1, c :: t =>
    if c == '[' then
      match bracketAltAt BRACKET_TAGS t with
      | some rest => bracketTagSubF fuel rest
      | none => c :: bracketTagSubF fuel t
    else c :: bracketTagSubF fuel t

/-- The bracketed-tag cleanup `re.sub` of line 385. -/
def bracketTagSub (l : Chars) : Chars := bracketTagSubF l.length l

/-- The prefix-extraction loops of lines 391–401: the first tag found is
capitalized into the prefix list and its occurrences removed (with a strip);
then break. -/
def extractTag (tags : List String) (dt : Chars) : Option String × Chars :=
  match tags with
  | [] => (none, dt)
  | tag :: rest =>
    if wordSearch tag.data dt then
      (some (String.mk (pyCapitalize tag.data)), pyStrip (wordRemove tag.data none dt))
    else extractTag rest dt

/-- The display-title computation of lines 382–404. -/
def formatter_title (title : Chars) : Chars :=
  let dt := pyStrip (bracketTagSub title)
  let g := extractTag GENDER_TAGS dt
  let q := extractTag QUANTITY_TAGS g.2
  let prefixes := ([g.1, q.1].filterMap id).map String.data
  pyStrip (joinWith ' ' (prefixes ++ [pyStrip q.2]))

/-- Guard of the `Size - ` line (line 410). -/
def size_line_cond (pd : ProductInfo) : Bool :=
  pd.sizes != "N/A" && pd.sizes != "Not Found"

/-- Guard of the `Pin - ` line (line 416). -/
def pin_line_cond (pd : ProductInfo) (clean_link : String) : Bool :=
  containsSub "meesho.com".data clean_link.data && pd.pin != "N/A"

/-- The `formatted_lines` list built in lines 378–422. -/
def formatted_lines (pd : ProductInfo) (clean_link : String) : List String :=
  let l1 := String.mk (formatter_title pd.title.data) ++ " @" ++ pd.price ++ " rs"
  let base := [l1, pd.link]
  let base := if size_line_cond pd then base ++ ["\nSize - " ++ pd.sizes] else base
  let base :=
    if pin_line_cond pd clean_link then base ++ ["Pin - " ++ pd.pin] else base
  base ++ ["\n@reviewcheckk"]

/-- The reply of the success path: `"\n".join(formatted_lines)`
(line 424). -/
def format_deal (pd : ProductInfo) (clean_link : String) : String :=
  String.mk (joinWithSep "\n".data ((formatted_lines pd clean_link).map String.data))

/-- The fixed reply of the top-level `except` handler (line 428). -/
def FALLBACK_REPLY : String :=
  "❌ Oops! Something went wrong while preparing the deal information. Please try again or with a different link. 🤖"

/-- `scrape_and_format_deal` (lines 363–428): unshorten, strip, scrape,
format; one top-level catch converts any exception of the stages into the
fixed fallback reply. -/
def scrape_and_format_deal (net : String → Except Unit String)
    (page : Option PageData) (link : String) (caption : Option String) : String :=
  match unshorten_url net link with
  | .error _ => FALLBACK_REPLY
  | .ok unshortened =>
    match strip_affiliate_tags unshortened with
    | .error _ => FALLBACK_REPLY
    | .ok clean =>
      match scrape_product_info clean caption page with
      | .error _ => FALLBACK_REPLY
      | .ok pd => format_deal pd clean

/-! ## Helper lemmas -/

theorem data_mk (l : Chars) : (String.mk l).data = l := rfl

theorem mk_data (s : String) : String.mk s.data = s := rfl

theorem append_data (s t : String) : (s ++ t).data = s.data ++ t.data := rfl

theorem mk_append (a b : Chars) : String.mk a ++ String.mk b = String.mk (a ++ b) := rfl

theorem joinWithSep_concat (sep : Chars) :
    ∀ (xs : List Chars) (z : Chars), xs ≠ [] →
      joinWithSep sep (xs ++ [z]) = joinWithSep sep xs ++ sep ++ z := by
  intro xs
  induction xs with
  | nil => intro z h; exact absurd rfl h
  | cons x r ih =>
    intro z _
    cases r with
    | nil => simp [joinWithSep]
    | cons y t =>
      have h2 := ih z (by simp)
      simp only [List.cons_append, List.append_eq, joinWithSep] at h2 ⊢
      rw [h2]
      simp [List.append_assoc]

/-- Digits-only invariant of `\d{1,n}`. -/
theorem takeDigits_digits :
    ∀ n l, ∀ c ∈ (takeDigitsUpTo n l).1, c.isDigit = true := by
  intro n
  induction n with
  | zero => intro l c hc; simp [takeDigitsUpTo] at hc
  | succ n ih =>
    intro l c hc
    cases l with
    | nil => simp [takeDigitsUpTo] at hc
    | cons a r =>
      simp only [takeDigitsUpTo] at hc
      split at hc
      · rename_i ha
        simp only [List.mem_cons] at hc
        rcases hc with h | h
        · subst h; exact ha
        · exact ih r c h
      · simp at hc

/-- Digit-or-comma invariant of `(?:,\d{3})*`. -/
theorem commaGroups_chars :
    ∀ fuel l, ∀ c ∈ (commaGroupsF fuel l).1, c.isDigit = true ∨ c = ',' := by
  intro fuel
  induction fuel with
  | zero => intro l c hc; simp [commaGroupsF] at hc
  | succ fuel ih =>
    intro l c hc
    simp only [commaGroupsF] at hc
    split at hc
    · split at hc
      · rename_i a b d r hd
        simp only [List.mem_cons] at hc
        simp only [Bool.and_eq_true] at hd
        rcases hc with h | h | h | h | h
        · right; exact h
        · left; subst h; exact hd.1.1
        · left; subst h; exact hd.1.2
        · left; subst h; exact hd.2
        · exact ih r c h
      · simp at hc
    · simp at hc

/-- Digit-or-dot invariant of `(?:\.\d{2})?`. -/
theorem decimalPart_chars :
    ∀ l, ∀ c ∈ (decimalPart l).1, c.isDigit = true ∨ c = '.' := by
  intro l c hc
  unfold decimalPart at hc
  split at hc
  · split at hc
    · rename_i a b r hd
      simp only [Bool.and_eq_true] at hd
      simp only [List.mem_cons] at hc
      rcases hc with h | h | h | h
      · right; exact h
      · left; subst h; exact hd.1
      · left; subst h; exact hd.2
      · simp at h
    · simp at hc
  · simp at hc

/-- Character invariant of `PRICE_PATTERN`'s group 1. -/
theorem priceNum_chars :
    ∀ l g, priceNum l = some g → ∀ c ∈ g, c.isDigit = true ∨ c = ',' ∨ c = '.' := by
  intro l g hg c hc
  simp only [priceNum] at hg
  split at hg
  · exact absurd hg (by simp)
  · simp only [Option.some.injEq] at hg
    subst hg
    simp only [List.mem_append] at hc
    rcases hc with (h | h) | h
    · exact Or.inl (takeDigits_digits 3 l c h)
    · rcases commaGroups_chars _ _ c h with h2 | h2
      · exact Or.inl h2
      · exact Or.inr (Or.inl h2)
    · rcases decimalPart_chars _ c h with h2 | h2
      · exact Or.inl h2
      · exact Or.inr (Or.inr h2)

/-- Character invariant of a `priceSearch` result. -/
theorem priceSearch_chars :
    ∀ l g, priceSearch l = some g → ∀ c ∈ g, c.isDigit = true ∨ c = ',' ∨ c = '.' := by
  intro l
  induction l with
  | nil => intro g hg; simp [priceSearch] at hg
  | cons x t ih =>
    intro g hg
    simp only [priceSearch] at hg
    split at hg
    · rename_i g0 hm
      simp only [Option.some.injEq] at hg
      subst hg
      simp only [priceMatchAt] at hm
      split at hm
      · split at hm
        · exact absurd hm (by simp)
        · split at hm
          · split at hm
            · rename_i g1 ha
              simp only [Option.some.injEq] at hm
              subst hm
              simp only [afterCurrency] at ha
              exact priceNum_chars _ _ ha
            · simp only [afterCurrency] at hm
              exact priceNum_chars _ _ hm
          · simp only [afterCurrency] at hm
            exact priceNum_chars _ _ hm
      · exact absurd hm (by simp)
    · exact ih g hg

/-- Character invariant of the cleaned price of lines 242–249: digits and at
most a decimal point. -/
theorem scrape_price_chars :
    ∀ cands p, scrape_price cands = some p →
      ∀ c ∈ p.data, c.isDigit = true ∨ c = '.' := by
  intro cands
  induction cands with
  | nil => intro p hp; simp [scrape_price] at hp
  | cons x rest ih =>
    intro p hp c hc
    simp only [scrape_price] at hp
    split at hp
    · rename_i g hg
      simp only [Option.some.injEq] at hp
      subst hp
      simp only [data_mk, List.mem_filter] at hc
      rcases priceSearch_chars _ _ hg c hc.1 with h | h | h
      · exact Or.inl h
      · exact absurd h (by simpa using hc.2)
      · exact Or.inr h
    · exact ih p hp c hc

/-- Unpacking of a successful scrape: the record's fields (fetch-success
case). -/
theorem scrape_ok_fields :
    ∀ url caption pg pd, scrape_product_info url caption (some pg) = .ok pd →
      (pd.price = match scrape_price pg.price_candidates with
        | some p => p
        | none => "N/A") ∧
      (∃ sz, sizes_result (available_sizes pg.size_elements) = .ok sz ∧ pd.sizes = sz) ∧
      pd.pin = (if containsSub "meesho.com".data url.data then MEESHO_FALLBACK_PIN
        else "N/A") ∧
      pd.link = url := by
  intro url caption pg pd h
  simp only [scrape_product_info] at h
  split at h
  · exact absurd h (by simp)
  · rename_i sz hsz
    simp only [Except.ok.injEq] at h
    subst h
    exact ⟨rfl, ⟨sz, hsz, rfl⟩, rfl, rfl⟩

/-- Shape of the formatted lines: a title line, the link, optional lines,
then the fixed signature last. -/
theorem formatted_lines_shape :
    ∀ pd clean, ∃ l1 mid,
      formatted_lines pd clean = l1 :: pd.link :: (mid ++ ["\n@reviewcheckk"]) := by
  intro pd clean
  refine ⟨String.mk (formatter_title pd.title.data) ++ " @" ++ pd.price ++ " rs", ?_⟩
  by_cases hs : size_line_cond pd = true
  · by_cases hp : pin_line_cond pd clean = true
    · exact ⟨["\nSize - " ++ pd.sizes, "Pin - " ++ pd.pin],
        by simp [formatted_lines, hs, hp]⟩
    · exact ⟨["\nSize - " ++ pd.sizes], by simp [formatted_lines, hs, hp]⟩
  · by_cases hp : pin_line_cond pd clean = true
    · exact ⟨["Pin - " ++ pd.pin], by simp [formatted_lines, hs, hp]⟩
    · exact ⟨[], by simp [formatted_lines, hs, hp]⟩

/-- Every success-path reply ends with the attribution line. -/
theorem format_deal_suffix :
    ∀ pd clean, ∃ t : String, format_deal pd clean = t ++ "\n@reviewcheckk" := by
  intro pd clean
  obtain ⟨l1, mid, hl⟩ := formatted_lines_shape pd clean
  refine ⟨String.mk
      (joinWithSep "\n".data ((l1 :: pd.link :: mid).map String.data) ++ "\n".data), ?_⟩
  simp only [format_deal, hl]
  have hmap : (l1 :: pd.link :: (mid ++ ["\n@reviewcheckk"])).map String.data =
      (l1.data :: pd.link.data :: mid.map String.data) ++ ["\n@reviewcheckk".data] := by
    simp
  rw [hmap, joinWithSep_concat _ _ _ (by simp)]
  rw [show ("\n@reviewcheckk" : String) = String.mk "\n@reviewcheckk".data from rfl,
    mk_append]
  simp [List.append_assoc]

/-! ## Claim C1 -/

/-- Claim C1, as stated, is false: the regex group keeps a decimal
fraction, which survives the comma removal (`"Rs 1,299.99"` yields
`"1299.99"`, which is not a run of decimal digits), and when nothing
matches, the default price value is the sentinel `"N/A"`, which is not a
run of decimal digits either. -/
theorem c1_counterexample :
    scrape_price ["Rs 1,299.99"] = some "1299.99" ∧
    "1299.99".data.all Char.isDigit = false ∧
    scrape_price [] = none ∧
    "N/A".data.all Char.isDigit = false := by decide

/-- Claim C1 (amended): for every fetched page, the price field of the
scraped record either is the sentinel `"N/A"` (used when price extraction
finds nothing) or consists of decimal digits and at most a decimal
fraction introduced by `.`; in particular it never contains a currency
symbol, the literal `Rs`, or a thousands separator. -/
theorem c1_price_digits :
    ∀ url caption pg pd, scrape_product_info url caption (some pg) = .ok pd →
      pd.price = "N/A" ∨ ∀ c ∈ pd.price.data, c.isDigit = true ∨ c = '.' := by
  intro url caption pg pd h
  obtain ⟨hprice, _, _, _⟩ := scrape_ok_fields url caption pg pd h
  rw [hprice]
  cases hq : scrape_price pg.price_candidates with
  | none => exact Or.inl rfl
  | some p => exact Or.inr (scrape_price_chars _ _ hq)

/-- Witness for `c1_price_digits` at a concrete page. -/
theorem c1_price_digits_witness :
    (⟨"N/A", "599", "Not Found", "N/A", "https://shop.example/p"⟩ : ProductInfo).price =
        "N/A" ∨
      ∀ c ∈ (⟨"N/A", "599", "Not Found", "N/A",
          "https://shop.example/p"⟩ : ProductInfo).price.data,
        c.isDigit = true ∨ c = '.' :=
  c1_price_digits "https://shop.example/p" none
    ⟨none, none, none, ["₹599"], []⟩ _ (by decide)

/-! ## Claim C2 -/

/-- Claim C2, as stated, is false: when a stage raises (here the size sort
of line 274, on a detected `"Free Size"` label), the top-level catch
produces the fixed fallback reply, which does not end with the attribution
line `@reviewcheckk`. -/
theorem c2_counterexample :
    scrape_and_format_deal (fun _ => .error ())
        (some ⟨none, none, none, [], [("Free Size", [])]⟩) "https://x.com/a" none =
      FALLBACK_REPLY ∧
    List.isSuffixOf "\n@reviewcheckk".data FALLBACK_REPLY.data = false := by decide

/-- Claim C2 (amended): every reply of `scrape_and_format_deal` either is
the fixed fallback reply produced by the top-level catch (which does not
end with the attribution line) or ends with the fixed attribution line;
swallowed resolver or fetcher failures take the second form. -/
theorem c2_reply_signature :
    ∀ net page link caption,
      scrape_and_format_deal net page link caption = FALLBACK_REPLY ∨
      ∃ t, scrape_and_format_deal net page link caption = t ++ "\n@reviewcheckk" := by
  intro net page link caption
  rcases hu : unshorten_url net link with e | uns
  · exact Or.inl (by simp [scrape_and_format_deal, hu])
  · rcases hs : strip_affiliate_tags uns with e | clean
    · exact Or.inl (by simp [scrape_and_format_deal, hu, hs])
    · rcases hp : scrape_product_info clean caption page with e | pd
      · exact Or.inl (by simp [scrape_and_format_deal, hu, hs, hp])
      · refine Or.inr ?_
        obtain ⟨t, ht⟩ := format_deal_suffix pd clean
        exact ⟨t, by simp [scrape_and_format_deal, hu, hs, hp, ht]⟩

/-! ## Claim C5 -/

/-- Claim C5 names `linkCode` among the keys that are stripped, and the
constant table indeed lists it; but the code lowercases the query key
before testing membership in the mixed-case table, so a `linkCode`
parameter survives `strip_affiliate_tags` unchanged. -/
theorem c5_linkcode_not_stripped :
    strip_affiliate_tags "https://example.com/item?linkCode=xyz&id=1" =
      .ok "https://example.com/item?linkCode=xyz&id=1" ∧
    "linkCode" ∈ AFFILIATE_PARAMS := by decide

/-! ## Claim C6 -/

/-- Claim C6, as stated, is false: `urlparse` raises a `ValueError` for
an unbalanced square bracket in the authority, and (CPython 3.11.4+) for
a balanced bracketed host that is neither a valid IPv6 address nor a
`v`-initial IPvFuture literal; `unshorten_url` only catches `requests`
exceptions, so either error propagates to the caller instead of the input
being returned. -/
theorem c6_counterexample :
    unshorten_url (fun _ => .error ()) "https://[::1" = .error () ∧
    unshorten_url (fun _ => .error ()) "https://[foo]/p" = .error () := by decide

/-- Claim C6 (amended): for every URL whose ASCII authority passes
`urlsplit`'s checks — no unbalanced square bracket, and any balanced
bracketed host a valid IPv6 address or IPvFuture literal — `unshorten_url`
never raises; when the authority contains no member of the shortener set
it returns the input unchanged without consulting the network (the result
is independent of `net`); and for a shortener-hosted URL any network error
yields the original input. -/
theorem c6_resolver_behaviour :
    ∀ (net net2 : String → Except Unit String) (u : String),
      (∀ c ∈ (urlparseC u).netloc, c.toNat < 128) →
      netlocRaises (urlparseC u).netloc = false →
      unshorten_url net u ≠ .error () ∧
      ((SUPPORTED_SHORTENERS.any fun s => containsSub s.data (urlparseC u).netloc) = false →
        unshorten_url net u = .ok u ∧
        unshorten_url net u = unshorten_url net2 u) ∧
      (net u = .error () → unshorten_url net u = .ok u) := by
  intro net net2 u _hascii h
  have hraise : parseRaises u = false := h
  refine ⟨?_, ?_, ?_⟩
  · simp only [unshorten_url, hraise, Bool.false_eq_true, if_false]
    split
    · simp
    · split
      · simp
      · split <;> simp
  · intro hany
    simp only [unshorten_url, hraise, Bool.false_eq_true, if_false, hany]
    constructor <;> split <;> simp
  · intro hne
    simp only [unshorten_url, hraise, Bool.false_eq_true, if_false]
    split
    · rfl
    · split
      · rfl
      · rw [hne]

/-- Witness for `c6_resolver_behaviour` at a concrete URL whose authority
is a balanced, valid bracketed IPv6 host, with an erroring network. -/
theorem c6_resolver_witness :
    unshorten_url (fun _ => .error ()) "https://[::1]/p" ≠ .error () ∧
    ((SUPPORTED_SHORTENERS.any fun s =>
        containsSub s.data (urlparseC "https://[::1]/p").netloc) = false →
      unshorten_url (fun _ => .error ()) "https://[::1]/p" = .ok "https://[::1]/p" ∧
      unshorten_url (fun _ => .error ()) "https://[::1]/p" =
        unshorten_url (fun _ => .ok "z") "https://[::1]/p") ∧
    ((fun _ => (.error () : Except Unit String)) "https://[::1]/p" = .error () →
      unshorten_url (fun _ => .error ()) "https://[::1]/p" = .ok "https://[::1]/p") :=
  c6_resolver_behaviour (fun _ => .error ()) (fun _ => .ok "z")
    "https://[::1]/p" (by decide) (by decide)

/-! ## Claim C9 -/

/-- The pin field of every successful scrape. -/
theorem scrape_pin_eq :
    ∀ url caption page pd, scrape_product_info url caption page = .ok pd →
      pd.pin = if page.isSome && containsSub "meesho.com".data url.data then
        MEESHO_FALLBACK_PIN else "N/A" := by
  intro url caption page pd h
  cases page with
  | none =>
    simp only [scrape_product_info, Except.ok.injEq] at h
    subst h
    simp
  | some pg =>
    obtain ⟨_, _, hpin, _⟩ := scrape_ok_fields url caption pg pd h
    rw [hpin]
    simp

/-- The link field of every successful scrape is the input URL. -/
theorem scrape_link_eq :
    ∀ url caption page pd, scrape_product_info url caption page = .ok pd →
      pd.link = url := by
  intro url caption page pd h
  cases page with
  | none =>
    simp only [scrape_product_info, Except.ok.injEq] at h
    subst h
    rfl
  | some pg => exact (scrape_ok_fields url caption pg pd h).2.2.2

/-- Claim C9, as stated, is false on two counts: no 6-digit search of the
message or page text exists (a caption carrying `560001` still yields the
fixed default pin), and the trigger is a substring test on the whole clean
URL, not on its host (a non-meesho host with `meesho.com` in its query also
receives the pin). -/
theorem c9_counterexample :
    (scrape_product_info "https://www.meesho.com/p/x" (some "deliver to 560001")
        (some ⟨none, none, none, [], []⟩)).map (fun pd => pd.pin) = .ok "110001" ∧
    (scrape_product_info "https://other.com/a?q=meesho.com" none
        (some ⟨none, none, none, [], []⟩)).map (fun pd => pd.pin) = .ok "110001" := by
  decide

/-- Claim C9 (amended): after a successful fetch the pin attribute is
unconditionally the fixed default pincode when the clean URL contains
`meesho.com` anywhere, with no search of message or page text; otherwise
(including every fetch failure) it is the sentinel `"N/A"` and the
formatter's pin-line guard is off, so the line never appears in the
output. -/
theorem c9_pin_policy :
    ∀ url caption page pd, scrape_product_info url caption page = .ok pd →
      pd.pin = (if page.isSome && containsSub "meesho.com".data url.data then
        MEESHO_FALLBACK_PIN else "N/A") ∧
      (containsSub "meesho.com".data url.data = false →
        pin_line_cond pd url = false) := by
  intro url caption page pd h
  refine ⟨scrape_pin_eq url caption page pd h, fun hm => ?_⟩
  simp [pin_line_cond, hm]

/-- Witness for `c9_pin_policy` at a concrete meesho URL. -/
theorem c9_pin_policy_witness :
    (⟨"N/A", "N/A", "Not Found", "110001",
        "https://www.meesho.com/p/x"⟩ : ProductInfo).pin =
      (if (some (⟨none, none, none, [], []⟩ : PageData)).isSome &&
          containsSub "meesho.com".data "https://www.meesho.com/p/x".data then
        MEESHO_FALLBACK_PIN else "N/A") ∧
    (containsSub "meesho.com".data "https://www.meesho.com/p/x".data = false →
      pin_line_cond
        ⟨"N/A", "N/A", "Not Found", "110001", "https://www.meesho.com/p/x"⟩
        "https://www.meesho.com/p/x" = false) :=
  c9_pin_policy "https://www.meesho.com/p/x" none
    (some ⟨none, none, none, [], []⟩) _ (by decide)

/-! ## Claim C8 -/

/-- Leading character of a size line. -/
theorem head_size_line (s : String) : ("\nSize - " ++ s).data.head? = some '\n' := rfl

/-- Leading character of a pin line. -/
theorem head_pin_line (s : String) : ("Pin - " ++ s).data.head? = some 'P' := rfl

/-- Second character of a size line. -/
theorem second_size_line (s : String) :
    ("\nSize - " ++ s).data.tail.head? = some 'S' := rfl

/-- The title line always contains `@`. -/
theorem at_mem_title_line (pd : ProductInfo) :
    '@' ∈ (String.mk (formatter_title pd.title.data) ++ " @" ++ pd.price ++ " rs").data := by
  simp only [append_data, data_mk, List.mem_append]
  left; left; right
  decide

/-- Claim C8: in the formatted reply the `Size - ` line is present exactly
when the sizes attribute is not a sentinel (`"N/A"` / `"Not Found"`, the
code's encoding of an empty attribute), and the `Pin - ` line is present
exactly when the pin attribute is not the sentinel `"N/A"`; the two
hypotheses only rule out a clean URL that is itself the literal line
text. -/
theorem c8_line_inclusion :
    ∀ (clean : String) (caption : Option String) (page : Option PageData)
      (pd : ProductInfo),
      scrape_product_info clean caption page = .ok pd →
      clean ≠ "\nSize - " ++ pd.sizes →
      clean ≠ "Pin - " ++ pd.pin →
      (("\nSize - " ++ pd.sizes) ∈ formatted_lines pd clean ↔
        (pd.sizes ≠ "N/A" ∧ pd.sizes ≠ "Not Found")) ∧
      (("Pin - " ++ pd.pin) ∈ formatted_lines pd clean ↔ pd.pin ≠ "N/A") := by
  intro clean caption page pd hscrape h1 h2
  have hlink := scrape_link_eq clean caption page pd hscrape
  have hpin := scrape_pin_eq clean caption page pd hscrape
  have hpinv : pd.pin = "110001" ∨ pd.pin = "N/A" := by
    rw [hpin]
    split
    · exact Or.inl rfl
    · exact Or.inr rfl
  have hsc : size_line_cond pd = true ↔ (pd.sizes ≠ "N/A" ∧ pd.sizes ≠ "Not Found") := by
    simp [size_line_cond]
  have hscf : size_line_cond pd = false → pd.sizes = "N/A" ∨ pd.sizes = "Not Found" := by
    intro h
    by_contra hc
    push_neg at hc
    rw [hsc.mpr hc] at h
    cases h
  have hpcf : pin_line_cond pd clean = false → pd.pin = "N/A" := by
    intro h
    rcases hpinv with hp | hp
    · exfalso
      have hb : (pd.pin != "N/A") = true := by rw [hp]; decide
      simp only [pin_line_cond, hb, Bool.and_true] at h
      have hite := hpin.symm.trans hp
      rw [h, Bool.and_false] at hite
      simp only [Bool.false_eq_true, if_false] at hite
      exact absurd hite (by decide)
    · exact hp
  have hplc : pin_line_cond pd clean = true ↔ pd.pin ≠ "N/A" := by
    constructor
    · intro h
      simp only [pin_line_cond, Bool.and_eq_true, bne_iff_ne] at h
      exact h.2
    · intro h
      rcases hpinv with hp | hp
      · have hite := hpin.symm.trans hp
        by_cases hcond :
            (page.isSome && containsSub "meesho.com".data clean.data) = true
        · rw [Bool.and_eq_true] at hcond
          simp only [pin_line_cond, hcond.2, hp, Bool.true_and]
          decide
        · exfalso
          rw [if_neg hcond] at hite
          exact absurd hite (by decide)
      · exact absurd hp h
  -- membership of each candidate is equivalent to its guard
  have hmemsize : ("\nSize - " ++ pd.sizes) ∈ formatted_lines pd clean ↔
      size_line_cond pd = true := by
    by_cases hs : size_line_cond pd = true
    · refine ⟨fun _ => hs, fun _ => ?_⟩
      by_cases hp : pin_line_cond pd clean = true
      · simp [formatted_lines, hs, hp]
      · rw [Bool.not_eq_true] at hp
        simp [formatted_lines, hs, hp]
    · rw [Bool.not_eq_true] at hs
      have hnot : ¬ ("\nSize - " ++ pd.sizes) ∈ formatted_lines pd clean := by
        intro hmem
        rcases hscf hs with hss | hss <;>
        · by_cases hp : pin_line_cond pd clean = true
          · simp only [formatted_lines, hs, hp, Bool.false_eq_true, if_false, if_true,
              List.append_assoc, List.cons_append, List.nil_append, List.mem_cons,
              List.mem_singleton, List.not_mem_nil, or_false] at hmem
            rcases hmem with he | he | he | he
            · have hat := at_mem_title_line pd
              rw [← he, hss] at hat
              exact absurd hat (by decide)
            · rw [hlink] at he
              exact h1 he.symm
            · rcases hpinv with hpv | hpv <;>
              · rw [hss, hpv] at he
                exact absurd he (by decide)
            · rw [hss] at he
              exact absurd he (by decide)
          · rw [Bool.not_eq_true] at hp
            simp only [formatted_lines, hs, hp, Bool.false_eq_true, if_false,
              List.append_assoc, List.cons_append, List.nil_append, List.mem_cons,
              List.mem_singleton, List.not_mem_nil, or_false] at hmem
            rcases hmem with he | he | he
            · have hat := at_mem_title_line pd
              rw [← he, hss] at hat
              exact absurd hat (by decide)
            · rw [hlink] at he
              exact h1 he.symm
            · rw [hss] at he
              exact absurd he (by decide)
      exact ⟨fun hmem => absurd hmem hnot,
        fun hcond => by rw [hs] at hcond; exact Bool.noConfusion hcond⟩
  have hmempin : ("Pin - " ++ pd.pin) ∈ formatted_lines pd clean ↔
      pin_line_cond pd clean = true := by
    by_cases hp : pin_line_cond pd clean = true
    · refine ⟨fun _ => hp, fun _ => ?_⟩
      by_cases hs : size_line_cond pd = true
      · simp [formatted_lines, hs, hp]
      · rw [Bool.not_eq_true] at hs
        simp [formatted_lines, hs, hp]
    · rw [Bool.not_eq_true] at hp
      have hpNA := hpcf hp
      have hnot : ¬ ("Pin - " ++ pd.pin) ∈ formatted_lines pd clean := by
        intro hmem
        by_cases hs : size_line_cond pd = true
        · simp only [formatted_lines, hs, hp, Bool.false_eq_true, if_false, if_true,
            List.append_assoc, List.cons_append, List.nil_append, List.mem_cons,
            List.mem_singleton, List.not_mem_nil, or_false] at hmem
          rcases hmem with he | he | he | he
          · have hat := at_mem_title_line pd
            rw [← he, hpNA] at hat
            exact absurd hat (by decide)
          · rw [hlink] at he
            exact h2 he.symm
          · have hh : ("Pin - " ++ pd.pin).data.head? =
                ("\nSize - " ++ pd.sizes).data.head? := by rw [he]
            rw [head_pin_line, head_size_line] at hh
            exact absurd hh (by decide)
          · rw [hpNA] at he
            exact absurd he (by decide)
        · rw [Bool.not_eq_true] at hs
          simp only [formatted_lines, hs, hp, Bool.false_eq_true, if_false,
            List.append_assoc, List.cons_append, List.nil_append, List.mem_cons,
            List.mem_singleton, List.not_mem_nil, or_false] at hmem
          rcases hmem with he | he | he
          · have hat := at_mem_title_line pd
            rw [← he, hpNA] at hat
            exact absurd hat (by decide)
          · rw [hlink] at he
            exact h2 he.symm
          · rw [hpNA] at he
            exact absurd he (by decide)
      exact ⟨fun hmem => absurd hmem hnot,
        fun hcond => by rw [hp] at hcond; exact Bool.noConfusion hcond⟩
  exact ⟨hmemsize.trans hsc, hmempin.trans hplc⟩

/-- Witness for `c8_line_inclusion` at a concrete meesho scrape. -/
theorem c8_line_inclusion_witness :
    (("\nSize - " ++
        (⟨"N/A", "N/A", "Not Found", "110001",
          "https://www.meesho.com/x"⟩ : ProductInfo).sizes) ∈
      formatted_lines
        ⟨"N/A", "N/A", "Not Found", "110001", "https://www.meesho.com/x"⟩
        "https://www.meesho.com/x" ↔
      ((⟨"N/A", "N/A", "Not Found", "110001",
          "https://www.meesho.com/x"⟩ : ProductInfo).sizes ≠ "N/A" ∧
        (⟨"N/A", "N/A", "Not Found", "110001",
          "https://www.meesho.com/x"⟩ : ProductInfo).sizes ≠ "Not Found")) ∧
    (("Pin - " ++
        (⟨"N/A", "N/A", "Not Found", "110001",
          "https://www.meesho.com/x"⟩ : ProductInfo).pin) ∈
      formatted_lines
        ⟨"N/A", "N/A", "Not Found", "110001", "https://www.meesho.com/x"⟩
        "https://www.meesho.com/x" ↔
      (⟨"N/A", "N/A", "Not Found", "110001",
        "https://www.meesho.com/x"⟩ : ProductInfo).pin ≠ "N/A") :=
  c8_line_inclusion "https://www.meesho.com/x" none
    (some ⟨none, none, none, [], []⟩) _ (by decide) (by decide) (by decide)

/-! ## Claim C10 -/

/-- Words produced by the whitespace split are nonempty. -/
theorem pySplitWsAux_words_nonempty :
    ∀ l acc w, w ∈ pySplitWsAux acc l → w ≠ [] := by
  intro l
  induction l with
  | nil =>
    intro acc w hw
    simp only [pySplitWsAux] at hw
    split at hw
    · simp at hw
    · rename_i hne
      simp only [List.mem_singleton] at hw
      subst hw
      intro hc
      rw [List.reverse_eq_nil_iff] at hc
      subst hc
      simp at hne
  | cons c r ih =>
    intro acc w hw
    simp only [pySplitWsAux] at hw
    split at hw
    · split at hw
      · exact ih [] w hw
      · rename_i hne
        simp only [List.mem_cons] at hw
        rcases hw with h | h
        · subst h
          intro hc
          rw [List.reverse_eq_nil_iff] at hc
          subst hc
          simp at hne
        · exact ih [] w h
    · exact ih (c :: acc) w hw

/-- With a nonempty current word the split never returns nothing. -/
theorem pySplitWsAux_ne_nil_of_acc :
    ∀ l acc, acc ≠ [] → pySplitWsAux acc l ≠ [] := by
  intro l
  induction l with
  | nil =>
    intro acc h
    simp only [pySplitWsAux]
    split
    · rename_i he
      rw [List.isEmpty_iff] at he
      exact absurd he h
    · simp
  | cons c r ih =>
    intro acc h
    simp only [pySplitWsAux]
    split
    · split
      · rename_i he
        rw [List.isEmpty_iff] at he
        exact absurd he h
      · simp
    · exact ih (c :: acc) (by simp)

/-- A non-whitespace character guarantees at least one word. -/
theorem pySplitWsAux_ne_nil :
    ∀ l, (∃ ch ∈ l, isSpaceCh ch = false) → ∀ acc, pySplitWsAux acc l ≠ [] := by
  intro l
  induction l with
  | nil =>
    rintro ⟨ch, hch, _⟩
    simp at hch
  | cons c r ih =>
    rintro ⟨ch, hch, hsp⟩ acc
    simp only [pySplitWsAux]
    split
    · rename_i hc
      have hr : ∃ ch ∈ r, isSpaceCh ch = false := by
        rcases List.mem_cons.mp hch with h | h
        · subst h; rw [hc] at hsp; simp at hsp
        · exact ⟨ch, h, hsp⟩
      split
      · exact ih hr []
      · simp
    · exact pySplitWsAux_ne_nil_of_acc r (c :: acc) (by simp)

/-- A nonempty word list joins to a nonempty string. -/
theorem joinWith_ne_nil :
    ∀ (ws : List Chars), ws ≠ [] → (∀ w ∈ ws, w ≠ []) → joinWith ' ' ws ≠ [] := by
  intro ws h hall
  match ws with
  | [x] => simpa [joinWith] using hall x (by simp)
  | x :: y :: t =>
    simp only [joinWith]
    intro hc
    rcases List.append_eq_nil.mp hc with ⟨_, h2⟩
    simp at h2

/-- The caption tag loops never empty a nonempty title. -/
theorem captionPrefixTags_ne_nil :
    ∀ tags t, t ≠ [] → captionPrefixTags tags t ≠ [] := by
  intro tags
  induction tags with
  | nil =>
    intro t h
    simpa [captionPrefixTags] using h
  | cons tag rest ih =>
    intro t h
    simp only [captionPrefixTags]
    split
    · split
      · exact h
      · intro hc
        rcases List.append_eq_nil.mp hc with ⟨_, h2⟩
        simp at h2
    · exact ih t h

/-- A caption containing a non-whitespace character yields a nonempty
title. -/
theorem caption_title_ne_nil :
    ∀ c : Chars, (∃ ch ∈ c, isSpaceCh ch = false) → caption_title c ≠ [] := by
  intro c hc
  simp only [caption_title]
  apply captionPrefixTags_ne_nil
  apply captionPrefixTags_ne_nil
  apply joinWith_ne_nil
  · exact pySplitWsAux_ne_nil c hc []
  · exact fun w hw => pySplitWsAux_words_nonempty c [] w hw

/-! ## Claim C7 -/

/-- Deduplication only drops elements. -/
theorem dedupFirst_subset : ∀ l x, x ∈ dedupFirst l → x ∈ l := by
  intro l
  induction l with
  | nil => simp [dedupFirst]
  | cons a r ih =>
    intro x hx
    simp only [dedupFirst, List.mem_cons] at hx ⊢
    rcases hx with h | h
    · exact Or.inl h
    · exact Or.inr (ih x (List.mem_filter.mp h).1)

/-- Inserting preserves membership up to permutation. -/
theorem insertByKey_perm : ∀ (x : Chars × Nat) l, (insertByKey x l).Perm (x :: l) := by
  intro x l
  induction l with
  | nil => simp [insertByKey]
  | cons y r ih =>
    simp only [insertByKey]
    split
    · exact List.Perm.refl _
    · exact (ih.cons y).trans (List.Perm.swap x y r)

/-- The key sort permutes its input. -/
theorem sortByKey_perm : ∀ l, (sortByKey l).Perm l := by
  intro l
  induction l with
  | nil => simp [sortByKey]
  | cons x r ih =>
    simp only [sortByKey, List.foldr_cons]
    exact (insertByKey_perm x _).trans (ih.cons x)

/-- Insertion into a key-sorted list stays key-sorted. -/
theorem insertByKey_sorted :
    ∀ (x : Chars × Nat) l, l.Pairwise (fun p q => p.2 ≤ q.2) →
      (insertByKey x l).Pairwise (fun p q => p.2 ≤ q.2) := by
  intro x l
  induction l with
  | nil => intro _; simp [insertByKey]
  | cons y r ih =>
    intro hp
    rcases List.pairwise_cons.mp hp with ⟨hy, hr⟩
    simp only [insertByKey]
    split
    · rename_i hlt
      refine List.pairwise_cons.mpr ⟨?_, hp⟩
      intro z hz
      rcases List.mem_cons.mp hz with h | h
      · subst h; exact Nat.le_of_lt hlt
      · exact (Nat.le_of_lt hlt).trans (hy z h)
    · rename_i hge
      refine List.pairwise_cons.mpr ⟨?_, ih hr⟩
      intro z hz
      have hz2 := (insertByKey_perm x r).mem_iff.mp hz
      rcases List.mem_cons.mp hz2 with h | h
      · subst h; exact Nat.le_of_not_lt hge
      · exact hy z h

/-- The key sort sorts. -/
theorem sortByKey_sorted : ∀ l, (sortByKey l).Pairwise (fun p q => p.2 ≤ q.2) := by
  intro l
  induction l with
  | nil => simp [sortByKey]
  | cons x r ih =>
    simp only [sortByKey, List.foldr_cons]
    exact insertByKey_sorted x _ ih

/-- When every element's uppercase form is one of the six plain size
labels, keying succeeds, the keys are the canonical indices, and the keyed
list projects back to the input. -/
theorem sizeKeyed_of_canon :
    ∀ l : List Chars,
      (∀ x ∈ l, upperS x ∈ (["S", "M", "L", "XL", "XXL", "XXXL"].map String.data)) →
      ∃ kl, sizeKeyed l = .ok kl ∧ kl.map Prod.fst = l ∧
        ∀ p ∈ kl, p.2 = sizeIdx p.1 := by
  intro l
  induction l with
  | nil => exact fun _ => ⟨[], rfl, rfl, by simp⟩
  | cons x r ih =>
    intro h
    obtain ⟨kl, hkl, hmap, hsnd⟩ := ih (fun y hy => h y (List.mem_cons_of_mem x hy))
    have hx : sizeKey x = .ok (sizeIdx x) := by
      have hm := h x (List.mem_cons_self x r)
      simp only [List.map_cons, List.map_nil, List.mem_cons, List.not_mem_nil,
        or_false] at hm
      rcases hm with h1 | h1 | h1 | h1 | h1 | h1 <;>
        · simp only [sizeKey, sizeIdx, h1]
          decide
    refine ⟨(x, sizeIdx x) :: kl, ?_, ?_, ?_⟩
    · simp only [sizeKeyed, hx, hkl]
    · simp [hmap]
    · intro p hp
      rcases List.mem_cons.mp hp with h2 | h2
      · subst h2; rfl
      · exact hsnd p h2

/-- Claim C7, as stated, is false: the `"All"` collapse fires at
`len(size_labels_list) - 2 = 6` distinct texts — six plain sizes are fewer
than the full eight-label set, yet the result is `"All"`, not the
enumeration — and a detected label whose uppercase form is not itself a
list entry (`"Free Size"`) makes the sort key raise `ValueError` instead of
enumerating. -/
theorem c7_counterexample :
    sizes_result (["S", "M", "L", "XL", "XXL", "XXXL"].map String.data) = .ok "All" ∧
    (["S", "M", "L", "XL", "XXL", "XXXL"].map String.data).length <
      size_labels_list.length ∧
    "All" ≠ "S, M, L, XL, XXL, XXXL" ∧
    sizes_result ["Free Size".data] = .error () := by decide

/-- Claim C7 (amended): for a nonempty collection of detected size texts
whose uppercase forms are all among the six plain labels, the computation
does not raise; the result is `"All"` exactly when the number of distinct
texts is at least `len(size_labels_list) - 2` (that is, six), and otherwise
it enumerates the distinct texts sorted by the fixed canonical order (not
lexical order). -/
theorem c7_sizes_policy :
    ∀ avail : List Chars, avail ≠ [] →
      (∀ x ∈ avail, upperS x ∈ (["S", "M", "L", "XL", "XXL", "XXXL"].map String.data)) →
      ∃ kl, sizeKeyed (dedupFirst avail) = .ok kl ∧
        sizes_result avail =
          .ok (if sizeLabelsC.length - 2 ≤ (dedupFirst avail).length then "All"
            else String.mk (joinWithSep ", ".data ((sortByKey kl).map Prod.fst))) ∧
        ((sortByKey kl).map Prod.fst).Perm (dedupFirst avail) ∧
        ((sortByKey kl).map Prod.fst).Pairwise (fun a b => sizeIdx a ≤ sizeIdx b) := by
  intro avail hne hcanon
  have hcu : ∀ x ∈ dedupFirst avail,
      upperS x ∈ (["S", "M", "L", "XL", "XXL", "XXXL"].map String.data) :=
    fun x hx => hcanon x (dedupFirst_subset avail x hx)
  obtain ⟨kl, hkl, hmap, hsnd⟩ := sizeKeyed_of_canon (dedupFirst avail) hcu
  refine ⟨kl, hkl, ?_, ?_, ?_⟩
  · cases avail with
    | nil => exact absurd rfl hne
    | cons a r =>
      simp only [sizes_result, List.isEmpty_cons, Bool.false_eq_true, if_false, hkl]
      split
      · rfl
      · rfl
  · exact ((sortByKey_perm kl).map Prod.fst).trans (by rw [hmap])
  · have hs := sortByKey_sorted kl
    rw [List.pairwise_map]
    refine List.Pairwise.imp_of_mem ?_ hs
    intro p q hp hq hle
    have hmp := (sortByKey_perm kl).mem_iff.mp hp
    have hmq := (sortByKey_perm kl).mem_iff.mp hq
    rw [hsnd p hmp, hsnd q hmq] at hle
    exact hle

/-- Witness for `c7_sizes_policy` at a concrete pair of detected texts. -/
theorem c7_sizes_policy_witness :
    ∃ kl, sizeKeyed (dedupFirst ["m".data, "S".data]) = .ok kl ∧
      sizes_result ["m".data, "S".data] =
        .ok (if sizeLabelsC.length - 2 ≤ (dedupFirst ["m".data, "S".data]).length
          then "All"
          else String.mk (joinWithSep ", ".data ((sortByKey kl).map Prod.fst))) ∧
      ((sortByKey kl).map Prod.fst).Perm (dedupFirst ["m".data, "S".data]) ∧
      ((sortByKey kl).map Prod.fst).Pairwise (fun a b => sizeIdx a ≤ sizeIdx b) :=
  c7_sizes_policy ["m".data, "S".data] (by decide) (by decide)

/-- Claim C10, as stated, is false in two corners: a whitespace-only
caption collapses to an empty title (`" ".split()` joins to `""`), and for
an empty input URL the link attribute is empty; the pin claim itself holds
(a fetch failure leaves even a meesho URL with the sentinel pin). -/
theorem c10_counterexample :
    scrape_product_info "https://www.meesho.com/x" (some " ") none =
      .ok ⟨"", "N/A", "N/A", "N/A", "https://www.meesho.com/x"⟩ ∧
    scrape_product_info "" none none = .ok ⟨"N/A", "N/A", "N/A", "N/A", ""⟩ := by
  decide

/-- Claim C10 (amended): on fetch failure the scraper returns early with a
complete record — price, sizes and pin hold the sentinel `"N/A"` (so even a
meesho URL gets no pin before a successful fetch) and link equals the input
URL — and the title is nonempty whenever the caption, if supplied, contains
a non-whitespace character. -/
theorem c10_fetch_failure :
    ∀ (url : String) (caption : Option String),
      (∀ c, caption = some c → ∃ ch ∈ c.data, isSpaceCh ch = false) →
      ∃ t : String,
        scrape_product_info url caption none = .ok ⟨t, "N/A", "N/A", "N/A", url⟩ ∧
        t ≠ "" := by
  intro url caption hcap
  simp only [scrape_product_info]
  cases caption with
  | none => exact ⟨"N/A", rfl, by decide⟩
  | some c =>
    by_cases he : c.isEmpty = true
    · exact ⟨"N/A", by simp [he], by decide⟩
    · have hne := caption_title_ne_nil c.data (hcap c rfl)
      refine ⟨String.mk (caption_title c.data), by simp [he], ?_⟩
      intro hzero
      exact hne (by simpa using congrArg String.data hzero)

/-- Witness for `c10_fetch_failure` at a concrete caption. -/
theorem c10_fetch_failure_witness :
    ∃ t : String,
      scrape_product_info "https://a.com/x" (some "nice shoes") none =
        .ok ⟨t, "N/A", "N/A", "N/A", "https://a.com/x"⟩ ∧ t ≠ "" :=
  c10_fetch_failure "https://a.com/x" (some "nice shoes")
    (fun c hc => by
      injection hc with h
      subst h
      exact ⟨'n', by decide, by decide⟩)


/-! ### Toolkit for the stripper round-trip: `breakAt`, `splitAll`,
`joinWith`, and character-class facts. -/

theorem breakAt_cons (c a : Char) (as : Chars) :
    breakAt c (a :: as) =
      if a == c then some ([], as)
      else (breakAt c as).map fun p => (a :: p.1, p.2) := rfl

theorem breakAt_not_mem (c : Char) : ∀ l : Chars, c ∉ l → breakAt c l = none := by
  intro l
  induction l with
  | nil => intro _; rfl
  | cons a as ih =>
    intro h
    rw [breakAt_cons, if_neg, ih fun hm => h (List.mem_cons_of_mem a hm)]
    · rfl
    · simp only [beq_iff_eq]
      intro he
      exact h (he ▸ List.mem_cons_self a as)

theorem breakAt_left (c : Char) : ∀ a b : Chars, c ∉ a → breakAt c (a ++ c :: b) = some (a, b) := by
  intro a
  induction a with
  | nil =>
    intro b _
    simp [breakAt_cons]
  | cons x xs ih =>
    intro b h
    have hx : x ≠ c := fun he => h (he ▸ List.mem_cons_self x xs)
    rw [List.cons_append, breakAt_cons, if_neg (by simp [hx]),
      ih b fun hm => h (List.mem_cons_of_mem x hm)]
    rfl

theorem breakAt_eq (c : Char) :
    ∀ l a b, breakAt c l = some (a, b) → l = a ++ c :: b ∧ c ∉ a := by
  intro l
  induction l with
  | nil => intro a b h; exact absurd h (by simp [breakAt])
  | cons x xs ih =>
    intro a b h
    rw [breakAt_cons] at h
    by_cases hx : x == c
    · rw [if_pos hx] at h
      obtain ⟨rfl, rfl⟩ : ([] : Chars) = a ∧ xs = b := by
        constructor <;> [exact (congrArg Prod.fst (Option.some.inj h)); exact (congrArg Prod.snd (Option.some.inj h))]
      refine ⟨?_, by simp⟩
      simp only [List.nil_append, List.cons.injEq]
      exact ⟨(beq_iff_eq.mp hx), trivial⟩
    · rw [if_neg hx] at h
      rcases hb : breakAt c xs with _ | ⟨p, q⟩
      · rw [hb] at h; exact absurd h (by exact fun hh => Option.noConfusion hh)
      · rw [hb] at h
        have h2 : (x :: p, q) = (a, b) := Option.some.inj h
        obtain ⟨rfl, rfl⟩ : x :: p = a ∧ q = b := ⟨congrArg Prod.fst h2, congrArg Prod.snd h2⟩
        obtain ⟨hxs, hcp⟩ := ih p q hb
        refine ⟨by rw [hxs]; rfl, ?_⟩
        intro hm
        rcases List.mem_cons.mp hm with he | hm2
        · exact absurd he.symm (by simpa using hx)
        · exact hcp hm2

theorem breakAt_app_some (c : Char) (x y a b : Chars) (h : breakAt c x = some (a, b)) :
    breakAt c (x ++ y) = some (a, b ++ y) := by
  obtain ⟨hx, hca⟩ := breakAt_eq c x a b h
  rw [hx, List.append_assoc, List.cons_append]
  exact breakAt_left c a (b ++ y) hca

theorem breakAt_app_none (c : Char) (x y : Chars) (h : c ∉ x) :
    breakAt c (x ++ y) = (breakAt c y).map fun p => (x ++ p.1, p.2) := by
  induction x with
  | nil =>
    simp only [List.nil_append]
    rcases breakAt c y with _ | p <;> simp
  | cons a as ih =>
    have ha : a ≠ c := fun he => h (he ▸ List.mem_cons_self a as)
    rw [List.cons_append, breakAt_cons, if_neg (by simp [ha]),
      ih fun hm => h (List.mem_cons_of_mem a hm)]
    rcases breakAt c y with _ | p <;> simp

theorem splitAll_nosep (sep : Char) : ∀ l : Chars, sep ∉ l → splitAll sep l = [l] := by
  intro l
  induction l with
  | nil => intro _; rfl
  | cons c r ih =>
    intro h
    have hc : c ≠ sep := fun he => h (he ▸ List.mem_cons_self c r)
    simp only [splitAll, beq_iff_eq, if_neg hc, ih fun hm => h (List.mem_cons_of_mem c hm)]

theorem splitAll_sep_app (sep : Char) :
    ∀ x m : Chars, sep ∉ x → splitAll sep (x ++ sep :: m) = x :: splitAll sep m := by
  intro x
  induction x with
  | nil =>
    intro m _
    simp [splitAll]
  | cons c xs ih =>
    intro m h
    have hc : c ≠ sep := fun he => h (he ▸ List.mem_cons_self c xs)
    rw [List.cons_append]
    simp only [splitAll, beq_iff_eq, if_neg hc,
      ih m fun hm => h (List.mem_cons_of_mem c hm)]

theorem splitAll_joinWith (sep : Char) :
    ∀ ps : List Chars, ps ≠ [] → (∀ p ∈ ps, sep ∉ p) →
      splitAll sep (joinWith sep ps) = ps := by
  intro ps
  induction ps with
  | nil => intro h _; exact absurd rfl h
  | cons x t ih =>
    intro _ hall
    rcases t with _ | ⟨y, r⟩
    · exact splitAll_nosep sep x (hall x (List.mem_cons_self x []))
    · rw [joinWith, splitAll_sep_app sep x _ (hall x (List.mem_cons_self x _)),
        ih (by simp) fun p hp => hall p (List.mem_cons_of_mem x hp)]

theorem joinWith_mem (sep : Char) :
    ∀ (ps : List Chars) (c : Char), c ∈ joinWith sep ps →
      c = sep ∨ ∃ p ∈ ps, c ∈ p := by
  intro ps
  induction ps with
  | nil => intro c h; exact absurd h (List.not_mem_nil c)
  | cons x t ih =>
    intro c h
    rcases t with _ | ⟨y, r⟩
    · exact Or.inr ⟨x, List.mem_cons_self x [], h⟩
    · rw [joinWith] at h
      rcases List.mem_append.mp h with hx | hm
      · exact Or.inr ⟨x, List.mem_cons_self x _, hx⟩
      · rcases List.mem_cons.mp hm with he | hm2
        · exact Or.inl he
        · rcases ih c hm2 with hs | ⟨p, hp, hcp⟩
          · exact Or.inl hs
          · exact Or.inr ⟨p, List.mem_cons_of_mem x hp, hcp⟩

/-! ### Character-class facts for the quoter. -/

theorem char_valid_nat (c : Char) :
    c.toNat < 0xd800 ∨ (0xdfff < c.toNat ∧ c.toNat < 0x110000) := c.valid

theorem char_of_toNat (c d : Char) (h : c.toNat = d.toNat) : c = d := by
  have h1 := Char.ofNat_toNat c
  have h2 := Char.ofNat_toNat d
  rw [h] at h1
  rw [← h1]
  exact h2

theorem char_isUpper_nat (c : Char) :
    Char.isUpper c = true ↔ (65 ≤ c.toNat ∧ c.toNat ≤ 90) := by
  simp only [Char.isUpper, Bool.and_eq_true, decide_eq_true_eq, ge_iff_le,
    UInt32.le_def, BitVec.le_def]
  have e1 : ((65 : UInt32).toBitVec).toNat = 65 := rfl
  have e2 : ((90 : UInt32).toBitVec).toNat = 90 := rfl
  have ec : (c.val.toBitVec).toNat = c.toNat := rfl
  rw [e1, e2, ec]

theorem char_isLower_nat (c : Char) :
    Char.isLower c = true ↔ (97 ≤ c.toNat ∧ c.toNat ≤ 122) := by
  simp only [Char.isLower, Bool.and_eq_true, decide_eq_true_eq, ge_iff_le,
    UInt32.le_def, BitVec.le_def]
  have e1 : ((97 : UInt32).toBitVec).toNat = 97 := rfl
  have e2 : ((122 : UInt32).toBitVec).toNat = 122 := rfl
  have ec : (c.val.toBitVec).toNat = c.toNat := rfl
  rw [e1, e2, ec]

theorem char_isDigit_nat (c : Char) :
    Char.isDigit c = true ↔ (48 ≤ c.toNat ∧ c.toNat ≤ 57) := by
  simp only [Char.isDigit, Bool.and_eq_true, decide_eq_true_eq, ge_iff_le,
    UInt32.le_def, BitVec.le_def]
  have e1 : ((48 : UInt32).toBitVec).toNat = 48 := rfl
  have e2 : ((57 : UInt32).toBitVec).toNat = 57 := rfl
  have ec : (c.val.toBitVec).toNat = c.toNat := rfl
  rw [e1, e2, ec]

theorem char_isAlpha_nat (c : Char) :
    Char.isAlpha c = true ↔
      ((65 ≤ c.toNat ∧ c.toNat ≤ 90) ∨ (97 ≤ c.toNat ∧ c.toNat ≤ 122)) := by
  simp only [Char.isAlpha, Bool.or_eq_true, char_isUpper_nat, char_isLower_nat]

theorem safe_toNat (c : Char) (h : isSafeChar c = true) : c.toNat < 0x80 := by
  simp only [isSafeChar, Bool.or_eq_true, char_isAlpha_nat, char_isDigit_nat,
    beq_iff_eq] at h
  rcases h with (((((⟨h1, h2⟩ | ⟨h1, h2⟩) | ⟨h1, h2⟩) | rfl) | rfl) | rfl) | rfl <;>
    first
      | decide
      | omega

theorem safe_ascii (c : Char) (h : isSafeChar c = true) : isAsciiCh c = true := by
  have := safe_toNat c h
  simp only [isAsciiCh, decide_eq_true_eq]
  omega

theorem hexUp_safe : ∀ n, n < 16 → isSafeChar (hexUp n) = true := by decide

theorem hexVal_hexUp : ∀ n, n < 16 → hexVal? (hexUp n) = some n := by decide

theorem safe_ne (c : Char) (h : isSafeChar c = true) :
    c ≠ '+' ∧ c ≠ '%' ∧ c ≠ ' ' ∧ c ≠ '&' ∧ c ≠ '=' := by
  refine ⟨?_, ?_, ?_, ?_, ?_⟩ <;> (intro he; subst he; exact absurd h (by decide))

theorem utf8Bytes_lt (c : Char) : ∀ b ∈ utf8Bytes c, b < 256 := by
  have hv := char_valid_nat c
  intro b hb
  simp only [utf8Bytes] at hb
  by_cases h1 : c.toNat < 0x80
  · rw [if_pos h1] at hb
    simp only [List.mem_singleton] at hb
    omega
  · rw [if_neg h1] at hb
    by_cases h2 : c.toNat < 0x800
    · rw [if_pos h2] at hb
      simp only [List.mem_cons, List.not_mem_nil, or_false] at hb
      rcases hb with rfl | rfl <;> omega
    · rw [if_neg h2] at hb
      by_cases h3 : c.toNat < 0x10000
      · rw [if_pos h3] at hb
        simp only [List.mem_cons, List.not_mem_nil, or_false] at hb
        rcases hb with rfl | rfl | rfl <;> omega
      · rw [if_neg h3] at hb
        simp only [List.mem_cons, List.not_mem_nil, or_false] at hb
        rcases hb with rfl | rfl | rfl | rfl <;> omega

theorem utf8Bytes_ne_nil (c : Char) : utf8Bytes c ≠ [] := by
  simp only [utf8Bytes]
  by_cases h1 : c.toNat < 0x80
  · rw [if_pos h1]; exact (by simp)
  · rw [if_neg h1]
    by_cases h2 : c.toNat < 0x800
    · rw [if_pos h2]; exact (by simp)
    · rw [if_neg h2]
      by_cases h3 : c.toNat < 0x10000
      · rw [if_pos h3]; exact (by simp)
      · rw [if_neg h3]; exact (by simp)

theorem quotePlus_mem (s : Chars) (c : Char) (h : c ∈ quotePlus s) :
    isSafeChar c = true ∨ c = '+' ∨ c = '%' := by
  simp only [quotePlus] at h
  obtain ⟨a, _, hc⟩ := List.mem_flatMap.mp h
  by_cases h1 : isSafeChar a = true
  · rw [if_pos h1] at hc
    simp only [List.mem_singleton] at hc
    exact Or.inl (hc ▸ h1)
  · rw [if_neg h1] at hc
    by_cases h2 : (a == ' ') = true
    · rw [if_pos h2] at hc
      simp only [List.mem_singleton] at hc
      exact Or.inr (Or.inl hc)
    · rw [if_neg h2] at hc
      obtain ⟨b, hb, hc3⟩ := List.mem_flatMap.mp hc
      have hblt := utf8Bytes_lt a b hb
      simp only [List.mem_cons, List.not_mem_nil, or_false] at hc3
      rcases hc3 with rfl | rfl | rfl
      · exact Or.inr (Or.inr rfl)
      · exact Or.inl (hexUp_safe _ (by omega))
      · exact Or.inl (hexUp_safe _ (Nat.mod_lt _ (by omega)))

theorem quotePlus_okQuery (s : Chars) (c : Char) (h : c ∈ quotePlus s) :
    okQueryChar c = true := by
  rcases quotePlus_mem s c h with hs | rfl | rfl
  · simp [okQueryChar, hs]
  · simp [okQueryChar]
  · simp [okQueryChar]

theorem okQuery_ne (c : Char) (h : okQueryChar c = true) :
    c ≠ '#' ∧ c ≠ '?' ∧ c ≠ '\t' ∧ c ≠ '\r' ∧ c ≠ '\n' ∧ c ≠ '/' ∧ c ≠ ';' := by
  refine ⟨?_, ?_, ?_, ?_, ?_, ?_, ?_⟩ <;> (intro he; subst he; exact absurd h (by decide))

theorem quotePlus_ne_nil (s : Chars) (h : s ≠ []) : quotePlus s ≠ [] := by
  rcases s with _ | ⟨c, r⟩
  · exact absurd rfl h
  · simp only [quotePlus, List.flatMap_cons]
    intro hap
    rcases List.append_eq_nil.mp hap with ⟨he, _⟩
    by_cases h1 : isSafeChar c = true
    · rw [if_pos h1] at he; exact List.noConfusion he
    · rw [if_neg h1] at he
      by_cases h2 : (c == ' ') = true
      · rw [if_pos h2] at he; exact List.noConfusion he
      · rw [if_neg h2] at he
        rcases hb : utf8Bytes c with _ | ⟨b, bs⟩
        · exact utf8Bytes_ne_nil c hb
        · rw [hb] at he
          simp only [List.flatMap_cons] at he
          exact List.noConfusion (List.append_eq_nil.mp he).1


/-! ### The quoting round-trip: `unquote_plus` after `quote_plus` is the
identity. -/

theorem bexGo_none_cons (c : Char) (r : Chars) :
    bexGo none (c :: r) =
      if c == '%' then bexGo (some none) r else c.toNat :: bexGo none r := rfl

theorem bexGo_pct (b : Nat) (hb : b < 256) (r : Chars) :
    bexGo none ('%' :: hexUp (b / 16) :: hexUp (b % 16) :: r) = b :: bexGo none r := by
  have h1 : hexVal? (hexUp (b / 16)) = some (b / 16) := hexVal_hexUp _ (by omega)
  have h2 : hexVal? (hexUp (b % 16)) = some (b % 16) :=
    hexVal_hexUp _ (Nat.mod_lt _ (by omega))
  have e : 16 * (b / 16) + b % 16 = b := by omega
  simp only [bexGo, beq_self_eq_true, if_true, h1, h2]
  rw [e]

theorem bexGo_safe (c : Char) (hc : isSafeChar c = true) (r : Chars) :
    bexGo none (c :: r) = c.toNat :: bexGo none r := by
  obtain ⟨_, h2, _, _, _⟩ := safe_ne c hc
  rw [bexGo_none_cons, if_neg (by simpa using h2)]

theorem pct3_flat (bs : List Nat) (r : Chars) (h : ∀ b ∈ bs, b < 256) :
    bexGo none ((bs.flatMap fun b => ['%', hexUp (b / 16), hexUp (b % 16)]) ++ r) =
      bs ++ bexGo none r := by
  induction bs with
  | nil => simp
  | cons b bs ih =>
    simp only [List.flatMap_cons, List.append_assoc, List.cons_append]
    rw [bexGo_pct b (h b (List.mem_cons_self b bs)) _]
    simp only [List.nil_append]
    rw [ih fun x hx => h x (List.mem_cons_of_mem b hx)]

theorem bexGo_encSp (c : Char) (r : Chars) :
    bexGo none (encSp c ++ r) = utf8Bytes c ++ bexGo none r := by
  by_cases h1 : isSafeChar c = true
  · rw [encSp, if_pos h1]
    have hbytes : utf8Bytes c = [c.toNat] := by
      simp only [utf8Bytes]
      rw [if_pos (safe_toNat c h1)]
    rw [List.cons_append, List.nil_append, bexGo_safe c h1, hbytes]
    rfl
  · rw [encSp, if_neg h1]
    by_cases h2 : (c == ' ') = true
    · rw [if_pos h2]
      have hc : c = ' ' := beq_iff_eq.mp h2
      subst hc
      rw [List.cons_append, List.nil_append, bexGo_none_cons, if_neg (by decide)]
      rfl
    · rw [if_neg h2]
      exact pct3_flat (utf8Bytes c) r (utf8Bytes_lt c)

theorem byteExpand_encSp (s : Chars) : byteExpand (s.flatMap encSp) = utf8Str s := by
  induction s with
  | nil => rfl
  | cons c s ih =>
    simp only [List.flatMap_cons]
    show bexGo none (encSp c ++ s.flatMap encSp) = utf8Str (c :: s)
    rw [bexGo_encSp]
    show utf8Bytes c ++ byteExpand (s.flatMap encSp) = _
    rw [ih]
    simp [utf8Str]

theorem utf8DecGo_none_cons (b : Nat) (r : List Nat) :
    utf8DecGo none (b :: r) =
      match utf8Lead b with
      | .inl ch => ch :: utf8DecGo none r
      | .inr (some s) => utf8DecGo (some s) r
      | .inr none => replChar :: utf8DecGo none r := rfl

theorem utf8DecGo_last (acc b lo hi : Nat) (r : List Nat)
    (h1 : lo ≤ b) (h2 : b ≤ hi) :
    utf8DecGo (some (1, acc, lo, hi)) (b :: r) =
      Char.ofNat (acc * 64 + (b - 0x80)) :: utf8DecGo none r := by
  show (if lo ≤ b && b ≤ hi then
      if (1 : Nat) = 1 then Char.ofNat (acc * 64 + (b - 0x80)) :: utf8DecGo none r
      else utf8DecGo (some (1 - 1, acc * 64 + (b - 0x80), 0x80, 0xBF)) r
    else replChar ::
      (match utf8Lead b with
       | .inl ch => ch :: utf8DecGo none r
       | .inr (some s) => utf8DecGo (some s) r
       | .inr none => replChar :: utf8DecGo none r)) = _
  rw [if_pos (by simp only [Bool.and_eq_true, decide_eq_true_eq]; exact ⟨h1, h2⟩),
    if_pos rfl]

theorem utf8DecGo_step (need acc b lo hi : Nat) (r : List Nat)
    (h1 : lo ≤ b) (h2 : b ≤ hi) (hn : need ≠ 1) :
    utf8DecGo (some (need, acc, lo, hi)) (b :: r) =
      utf8DecGo (some (need - 1, acc * 64 + (b - 0x80), 0x80, 0xBF)) r := by
  show (if lo ≤ b && b ≤ hi then
      if need = 1 then Char.ofNat (acc * 64 + (b - 0x80)) :: utf8DecGo none r
      else utf8DecGo (some (need - 1, acc * 64 + (b - 0x80), 0x80, 0xBF)) r
    else replChar ::
      (match utf8Lead b with
       | .inl ch => ch :: utf8DecGo none r
       | .inr (some s) => utf8DecGo (some s) r
       | .inr none => replChar :: utf8DecGo none r)) = _
  rw [if_pos (by simp only [Bool.and_eq_true, decide_eq_true_eq]; exact ⟨h1, h2⟩),
    if_neg hn]

theorem utf8Lead_ascii (b : Nat) (h : b < 0x80) : utf8Lead b = .inl (Char.ofNat b) := by
  simp only [utf8Lead]
  rw [if_pos h]

theorem utf8Lead_two (b : Nat) (h1 : 0xC2 ≤ b) (h2 : b ≤ 0xDF) :
    utf8Lead b = .inr (some (1, b - 0xC0, 0x80, 0xBF)) := by
  simp only [utf8Lead]
  rw [if_neg (by omega),
    if_pos (by simp only [Bool.and_eq_true, decide_eq_true_eq]; exact ⟨h1, h2⟩)]

theorem utf8Lead_e0 : utf8Lead 0xE0 = .inr (some (2, 0, 0xA0, 0xBF)) := rfl

theorem utf8Lead_ed : utf8Lead 0xED = .inr (some (2, 0xD, 0x80, 0x9F)) := rfl

theorem utf8Lead_three (b : Nat) (h1 : 0xE1 ≤ b) (h2 : b ≤ 0xEF) (h3 : b ≠ 0xED) :
    utf8Lead b = .inr (some (2, b - 0xE0, 0x80, 0xBF)) := by
  simp only [utf8Lead]
  rw [if_neg (by omega),
    if_neg (by simp only [Bool.and_eq_true, decide_eq_true_eq]; omega),
    if_neg (by omega), if_neg h3,
    if_pos (by simp only [Bool.and_eq_true, decide_eq_true_eq]; exact ⟨h1, h2⟩)]

theorem utf8Lead_f0 : utf8Lead 0xF0 = .inr (some (3, 0, 0x90, 0xBF)) := rfl

theorem utf8Lead_f4 : utf8Lead 0xF4 = .inr (some (3, 4, 0x80, 0x8F)) := rfl

theorem utf8Lead_four (b : Nat) (h1 : 0xF1 ≤ b) (h2 : b ≤ 0xF3) :
    utf8Lead b = .inr (some (3, b - 0xF0, 0x80, 0xBF)) := by
  simp only [utf8Lead]
  rw [if_neg (by omega),
    if_neg (by simp only [Bool.and_eq_true, decide_eq_true_eq]; omega),
    if_neg (by omega), if_neg (by omega),
    if_neg (by simp only [Bool.and_eq_true, decide_eq_true_eq]; omega),
    if_neg (by omega), if_neg (by omega),
    if_pos (by simp only [Bool.and_eq_true, decide_eq_true_eq]; exact ⟨h1, h2⟩)]


theorem utf8DecGo_chunk (c : Char) (r : List Nat) :
    utf8DecGo none (utf8Bytes c ++ r) = c :: utf8DecGo none r := by
  have hv := char_valid_nat c
  by_cases h1 : c.toNat < 0x80
  · have hbytes : utf8Bytes c = [c.toNat] := by
      simp only [utf8Bytes]
      rw [if_pos h1]
    rw [hbytes, List.cons_append, List.nil_append, utf8DecGo_none_cons,
      utf8Lead_ascii _ h1, Char.ofNat_toNat]
  · by_cases h2 : c.toNat < 0x800
    · have hbytes : utf8Bytes c = [0xC0 + c.toNat / 64, 0x80 + c.toNat % 64] := by
        simp only [utf8Bytes]
        rw [if_neg h1, if_pos h2]
      rw [hbytes, List.cons_append, List.cons_append, List.nil_append,
        utf8DecGo_none_cons, utf8Lead_two _ (by omega) (by omega)]
      show utf8DecGo (some (1, 0xC0 + c.toNat / 64 - 0xC0, 0x80, 0xBF))
        ((0x80 + c.toNat % 64) :: r) = _
      rw [utf8DecGo_last _ _ _ _ r (by omega) (by omega)]
      have e : (0xC0 + c.toNat / 64 - 0xC0) * 64 + (0x80 + c.toNat % 64 - 0x80) =
          c.toNat := by omega
      rw [e, Char.ofNat_toNat]
    · by_cases h3 : c.toNat < 0x10000
      · have hbytes : utf8Bytes c =
            [0xE0 + c.toNat / 4096, 0x80 + c.toNat / 64 % 64, 0x80 + c.toNat % 64] := by
          simp only [utf8Bytes]
          rw [if_neg h1, if_neg h2, if_pos h3]
        have e : (c.toNat / 4096 * 64 + (0x80 + c.toNat / 64 % 64 - 0x80)) * 64 +
            (0x80 + c.toNat % 64 - 0x80) = c.toNat := by omega
        rw [hbytes, List.cons_append, List.cons_append, List.cons_append,
          List.nil_append, utf8DecGo_none_cons]
        by_cases hk0 : c.toNat / 4096 = 0
        · rw [show 0xE0 + c.toNat / 4096 = 0xE0 by omega, utf8Lead_e0]
          show utf8DecGo (some (2, 0, 0xA0, 0xBF)) _ = _
          rw [utf8DecGo_step 2 0 _ _ _ _ (by omega) (by omega) (by omega)]
          rw [utf8DecGo_last _ _ _ _ r (by omega) (by omega)]
          rw [show (0 : Nat) * 64 + (0x80 + c.toNat / 64 % 64 - 0x80) =
            c.toNat / 4096 * 64 + (0x80 + c.toNat / 64 % 64 - 0x80) by omega]
          rw [e, Char.ofNat_toNat]
        · by_cases hkd : c.toNat / 4096 = 0xD
          · have hsur : c.toNat < 0xD800 := by
              rcases hv with h | ⟨ha, hb⟩
              · exact h
              · omega
            rw [show 0xE0 + c.toNat / 4096 = 0xED by omega, utf8Lead_ed]
            show utf8DecGo (some (2, 0xD, 0x80, 0x9F)) _ = _
            rw [utf8DecGo_step 2 0xD _ _ _ _ (by omega) (by omega) (by omega)]
            rw [utf8DecGo_last _ _ _ _ r (by omega) (by omega)]
            rw [show (0xD : Nat) * 64 + (0x80 + c.toNat / 64 % 64 - 0x80) =
              c.toNat / 4096 * 64 + (0x80 + c.toNat / 64 % 64 - 0x80) by omega]
            rw [e, Char.ofNat_toNat]
          · rw [utf8Lead_three _ (by omega) (by omega) (by omega)]
            show utf8DecGo (some (2, 0xE0 + c.toNat / 4096 - 0xE0, 0x80, 0xBF)) _ = _
            rw [utf8DecGo_step 2 _ _ _ _ _ (by omega) (by omega) (by omega)]
            rw [utf8DecGo_last _ _ _ _ r (by omega) (by omega)]
            rw [show (0xE0 + c.toNat / 4096 - 0xE0 : Nat) * 64 +
                (0x80 + c.toNat / 64 % 64 - 0x80) =
              c.toNat / 4096 * 64 + (0x80 + c.toNat / 64 % 64 - 0x80) by omega]
            rw [e, Char.ofNat_toNat]
      · have h4 : c.toNat < 0x110000 := by
          rcases hv with h | ⟨ha, hb⟩
          · omega
          · exact hb
        have hbytes : utf8Bytes c =
            [0xF0 + c.toNat / 262144, 0x80 + c.toNat / 4096 % 64,
             0x80 + c.toNat / 64 % 64, 0x80 + c.toNat % 64] := by
          simp only [utf8Bytes]
          rw [if_neg h1, if_neg h2, if_neg h3]
        have e : ((c.toNat / 262144 * 64 + (0x80 + c.toNat / 4096 % 64 - 0x80)) * 64 +
            (0x80 + c.toNat / 64 % 64 - 0x80)) * 64 +
            (0x80 + c.toNat % 64 - 0x80) = c.toNat := by omega
        rw [hbytes, List.cons_append, List.cons_append, List.cons_append,
          List.cons_append, List.nil_append, utf8DecGo_none_cons]
        by_cases hk0 : c.toNat / 262144 = 0
        · rw [show 0xF0 + c.toNat / 262144 = 0xF0 by omega, utf8Lead_f0]
          show utf8DecGo (some (3, 0, 0x90, 0xBF)) _ = _
          rw [utf8DecGo_step 3 0 _ _ _ _ (by omega) (by omega) (by omega)]
          rw [utf8DecGo_step 2 _ _ _ _ _ (by omega) (by omega) (by omega)]
          rw [utf8DecGo_last _ _ _ _ r (by omega) (by omega)]
          rw [show ((0 : Nat) * 64 + (0x80 + c.toNat / 4096 % 64 - 0x80)) * 64 +
              (0x80 + c.toNat / 64 % 64 - 0x80) =
            (c.toNat / 262144 * 64 + (0x80 + c.toNat / 4096 % 64 - 0x80)) * 64 +
              (0x80 + c.toNat / 64 % 64 - 0x80) by omega]
          rw [e, Char.ofNat_toNat]
        · by_cases hk4 : c.toNat / 262144 = 4
          · rw [show 0xF0 + c.toNat / 262144 = 0xF4 by omega, utf8Lead_f4]
            show utf8DecGo (some (3, 4, 0x80, 0x8F)) _ = _
            rw [utf8DecGo_step 3 4 _ _ _ _ (by omega) (by omega) (by omega)]
            rw [utf8DecGo_step 2 _ _ _ _ _ (by omega) (by omega) (by omega)]
            rw [utf8DecGo_last _ _ _ _ r (by omega) (by omega)]
            rw [show ((4 : Nat) * 64 + (0x80 + c.toNat / 4096 % 64 - 0x80)) * 64 +
                (0x80 + c.toNat / 64 % 64 - 0x80) =
              (c.toNat / 262144 * 64 + (0x80 + c.toNat / 4096 % 64 - 0x80)) * 64 +
                (0x80 + c.toNat / 64 % 64 - 0x80) by omega]
            rw [e, Char.ofNat_toNat]
          · rw [utf8Lead_four _ (by omega) (by omega)]
            show utf8DecGo (some (3, 0xF0 + c.toNat / 262144 - 0xF0, 0x80, 0xBF)) _ = _
            rw [utf8DecGo_step 3 _ _ _ _ _ (by omega) (by omega) (by omega)]
            rw [utf8DecGo_step 2 _ _ _ _ _ (by omega) (by omega) (by omega)]
            rw [utf8DecGo_last _ _ _ _ r (by omega) (by omega)]
            rw [show ((0xF0 + c.toNat / 262144 - 0xF0 : Nat) * 64 +
                (0x80 + c.toNat / 4096 % 64 - 0x80)) * 64 +
                (0x80 + c.toNat / 64 % 64 - 0x80) =
              (c.toNat / 262144 * 64 + (0x80 + c.toNat / 4096 % 64 - 0x80)) * 64 +
                (0x80 + c.toNat / 64 % 64 - 0x80) by omega]
            rw [e, Char.ofNat_toNat]

theorem utf8Dec_utf8Str (s : Chars) : utf8Dec (utf8Str s) = s := by
  induction s with
  | nil => rfl
  | cons c s ih =>
    show utf8DecGo none (utf8Str (c :: s)) = _
    rw [show utf8Str (c :: s) = utf8Bytes c ++ utf8Str s by simp [utf8Str],
      utf8DecGo_chunk]
    exact congrArg (c :: ·) ih


theorem hexUp_ascii : ∀ n, n < 16 → isAsciiCh (hexUp n) = true := by decide

theorem encSp_ascii (c : Char) : ∀ x ∈ encSp c, isAsciiCh x = true := by
  intro x hx
  simp only [encSp] at hx
  by_cases h1 : isSafeChar c = true
  · rw [if_pos h1] at hx
    simp only [List.mem_singleton] at hx
    exact hx ▸ safe_ascii c h1
  · rw [if_neg h1] at hx
    by_cases h2 : (c == ' ') = true
    · rw [if_pos h2] at hx
      simp only [List.mem_singleton] at hx
      subst hx
      decide
    · rw [if_neg h2] at hx
      obtain ⟨b, hb, hx3⟩ := List.mem_flatMap.mp hx
      have hblt := utf8Bytes_lt c b hb
      simp only [List.mem_cons, List.not_mem_nil, or_false] at hx3
      rcases hx3 with rfl | rfl | rfl
      · decide
      · exact hexUp_ascii _ (by omega)
      · exact hexUp_ascii _ (Nat.mod_lt _ (by omega))

theorem unquoteAux_ascii :
    ∀ (l acc : Chars), (∀ c ∈ l, isAsciiCh c = true) →
      unquoteAux acc l = utf8Dec (byteExpand (acc.reverse ++ l)) := by
  intro l
  induction l with
  | nil =>
    intro acc _
    simp [unquoteAux]
  | cons c r ih =>
    intro acc h
    simp only [unquoteAux, if_pos (h c (List.mem_cons_self c r))]
    rw [ih (c :: acc) fun x hx => h x (List.mem_cons_of_mem c hx)]
    simp [List.reverse_cons, List.append_assoc]

theorem hexUp_plusSp : ∀ n, n < 16 →
    (if hexUp n == '+' then ' ' else hexUp n) = hexUp n := by decide

theorem pct3_map_plusSp (bs : List Nat) (h : ∀ b ∈ bs, b < 256) :
    (bs.flatMap fun b => ['%', hexUp (b / 16), hexUp (b % 16)]).map
      (fun x => if x == '+' then ' ' else x) =
      bs.flatMap fun b => ['%', hexUp (b / 16), hexUp (b % 16)] := by
  induction bs with
  | nil => rfl
  | cons b bs ih =>
    have hblt := h b (List.mem_cons_self b bs)
    simp only [List.flatMap_cons, List.map_append, List.map_cons, List.map_nil]
    rw [ih fun x hx => h x (List.mem_cons_of_mem b hx)]
    rw [show (if ('%' : Char) == '+' then ' ' else '%') = '%' by decide]
    rw [hexUp_plusSp _ (by omega), hexUp_plusSp _ (Nat.mod_lt _ (by omega))]

theorem encPlus_plusSp (c : Char) :
    (encPlus c).map (fun x => if x == '+' then ' ' else x) = encSp c := by
  simp only [encPlus, encSp]
  by_cases h1 : isSafeChar c = true
  · rw [if_pos h1, if_pos h1]
    obtain ⟨hplus, _, _, _, _⟩ := safe_ne c h1
    simp [beq_iff_eq, hplus]
  · rw [if_neg h1, if_neg h1]
    by_cases h2 : (c == ' ') = true
    · rw [if_pos h2, if_pos h2]
      rfl
    · rw [if_neg h2, if_neg h2]
      exact pct3_map_plusSp (utf8Bytes c) (utf8Bytes_lt c)

theorem map_plusSp_quotePlus (s : Chars) :
    (quotePlus s).map (fun x => if x == '+' then ' ' else x) = s.flatMap encSp := by
  rw [show quotePlus s = s.flatMap encPlus from rfl, List.map_flatMap]
  have he : (fun a => (encPlus a).map fun x => if x == '+' then ' ' else x) = encSp :=
    funext encPlus_plusSp
  rw [he]

theorem pct_head_mem (c : Char) (h1 : ¬isSafeChar c = true) (h2 : ¬(c == ' ') = true) :
    '%' ∈ encSp c := by
  simp only [encSp, if_neg h1, if_neg h2]
  rcases hb : utf8Bytes c with _ | ⟨b, bs⟩
  · exact absurd hb (utf8Bytes_ne_nil c)
  · exact List.mem_flatMap.mpr ⟨b, List.mem_cons_self b bs, List.mem_cons_self _ _⟩

theorem flatMap_encSp_self (s : Chars) (h : ∀ c ∈ s, isSafeChar c = true ∨ c = ' ') :
    s.flatMap encSp = s := by
  induction s with
  | nil => rfl
  | cons c r ih =>
    have hc : encSp c = [c] := by
      rcases h c (List.mem_cons_self c r) with h1 | rfl
      · simp only [encSp]
        rw [if_pos h1]
      · rfl
    simp only [List.flatMap_cons, hc, List.cons_append, List.nil_append]
    rw [ih fun x hx => h x (List.mem_cons_of_mem c hx)]

theorem unquotePlus_quotePlus (s : Chars) : unquotePlus (quotePlus s) = s := by
  rw [show unquotePlus (quotePlus s) =
    unquotePy ((quotePlus s).map fun x => if x == '+' then ' ' else x) from rfl]
  rw [map_plusSp_quotePlus]
  simp only [unquotePy]
  by_cases hp : (s.flatMap encSp).contains '%' = true
  · rw [if_pos hp]
    rw [show unquoteCore (s.flatMap encSp) = unquoteAux [] (s.flatMap encSp) from rfl]
    rw [unquoteAux_ascii _ [] fun x hx =>
      (List.mem_flatMap.mp hx).elim fun a ha => encSp_ascii a x ha.2]
    rw [List.reverse_nil, List.nil_append, byteExpand_encSp, utf8Dec_utf8Str]
  · rw [if_neg hp]
    apply flatMap_encSp_self
    intro c hc
    by_cases h1 : isSafeChar c = true
    · exact Or.inl h1
    · by_cases h2 : (c == ' ') = true
      · exact Or.inr (beq_iff_eq.mp h2)
      · exact absurd
          (List.elem_iff.mpr (List.mem_flatMap.mpr ⟨c, hc, pct_head_mem c h1 h2⟩)) hp


/-! ### `parse_qs` after `urlencode` is the identity on well-formed dicts. -/

theorem parse_qsl_eq (qs : Chars) : parse_qsl qs = (splitAll '&' qs).filterMap qsField := rfl

theorem quotePlus_not_amp (s : Chars) : '&' ∉ quotePlus s := by
  intro h
  rcases quotePlus_mem s _ h with hs | he | he
  · exact absurd hs (by decide)
  · exact absurd he (by decide)
  · exact absurd he (by decide)

theorem quotePlus_not_eq (s : Chars) : '=' ∉ quotePlus s := by
  intro h
  rcases quotePlus_mem s _ h with hs | he | he
  · exact absurd hs (by decide)
  · exact absurd he (by decide)
  · exact absurd he (by decide)

theorem qsField_enc (k v : Chars) (hv : v ≠ []) :
    qsField (quotePlus k ++ '=' :: quotePlus v) = some (k, v) := by
  have hne : (quotePlus k ++ '=' :: quotePlus v).isEmpty = false := by
    rcases hq : quotePlus k with _ | ⟨c, r⟩ <;> rfl
  rw [qsField, if_neg (by rw [hne]; exact Bool.false_ne_true)]
  rw [breakAt_left '=' _ _ (quotePlus_not_eq k)]
  have hvne : (quotePlus v).isEmpty = false := by
    rcases hq : quotePlus v with _ | ⟨c, r⟩
    · exact absurd hq (quotePlus_ne_nil v hv)
    · rfl
  show (if (quotePlus v).isEmpty = true then none
    else some (unquotePlus (quotePlus k), unquotePlus (quotePlus v))) = some (k, v)
  rw [if_neg (by rw [hvne]; exact Bool.false_ne_true)]
  rw [unquotePlus_quotePlus, unquotePlus_quotePlus]

theorem field_not_amp (k v : Chars) : '&' ∉ quotePlus k ++ '=' :: quotePlus v := by
  intro h
  rcases List.mem_append.mp h with h1 | h2
  · exact quotePlus_not_amp k h1
  · rcases List.mem_cons.mp h2 with he | h3
    · exact absurd he (by decide)
    · exact quotePlus_not_amp v h3

theorem parse_qsl_urlencode (d : List (Chars × List Chars))
    (hv : ∀ kv ∈ d, ∀ v ∈ kv.2, v ≠ []) :
    parse_qsl (urlencodeC d) = d.flatMap fun kv => kv.2.map fun v => (kv.1, v) := by
  rw [show urlencodeC d = joinWith '&' (d.flatMap fun kv => kv.2.map fun v =>
    quotePlus kv.1 ++ '=' :: quotePlus v) from rfl, parse_qsl_eq]
  rcases hf : d.flatMap (fun kv => kv.2.map fun v =>
      quotePlus kv.1 ++ '=' :: quotePlus v) with _ | ⟨f, fs⟩
  · have hall := List.flatMap_eq_nil_iff.mp hf
    have hrhs : (d.flatMap fun kv => kv.2.map fun v => (kv.1, v)) = [] := by
      rw [List.flatMap_eq_nil_iff]
      intro kv hkv
      rw [List.map_eq_nil_iff]
      exact List.map_eq_nil_iff.mp (hall kv hkv)
    rw [hrhs]
    rfl
  · rw [← hf]
    rw [splitAll_joinWith '&' _ (by rw [hf]; exact fun h => List.noConfusion h)
      (by
        intro p hp
        obtain ⟨kv, hkv, hp2⟩ := List.mem_flatMap.mp hp
        obtain ⟨v, hvv, rfl⟩ := List.mem_map.mp hp2
        exact field_not_amp kv.1 v)]
    rw [List.filterMap_flatMap]
    apply List.flatMap_congr
    intro kv hkv
    rw [List.filterMap_map]
    rw [List.filterMap_congr fun v hvv =>
      (show (qsField ∘ fun v => quotePlus kv.1 ++ '=' :: quotePlus v) v = some (kv.1, v) from
        qsField_enc kv.1 v (hv kv hkv v hvv))]
    exact List.filterMap_eq_map (fun v => (kv.1, v)) ▸ rfl

theorem addPair_not_mem (k : Chars) (v : Chars) :
    ∀ acc : List (Chars × List Chars), k ∉ acc.map Prod.fst →
      addPair k v acc = acc ++ [(k, [v])] := by
  intro acc
  induction acc with
  | nil => intro _; rfl
  | cons kv rest ih =>
    intro h
    have hne : kv.1 ≠ k := by
      intro he
      exact h (List.mem_map.mpr ⟨kv, List.mem_cons_self kv rest, he⟩)
    rcases kv with ⟨k2, vs⟩
    rw [addPair, if_neg hne, ih fun hm => h (List.mem_cons_of_mem _ hm)]
    rfl

theorem addPair_last (k v : Chars) (ws : List Chars) :
    ∀ pre : List (Chars × List Chars), k ∉ pre.map Prod.fst →
      addPair k v (pre ++ [(k, ws)]) = pre ++ [(k, ws ++ [v])] := by
  intro pre
  induction pre with
  | nil =>
    intro _
    simp only [List.nil_append]
    rw [addPair, if_pos rfl]
  | cons kv rest ih =>
    intro h
    have hne : kv.1 ≠ k := by
      intro he
      exact h (List.mem_map.mpr ⟨kv, List.mem_cons_self kv rest, he⟩)
    rcases kv with ⟨k2, vs⟩
    rw [List.cons_append, addPair, if_neg hne, ih fun hm => h (List.mem_cons_of_mem _ hm)]
    rfl

theorem foldl_addPair_key (k : Chars) :
    ∀ (vs : List Chars) (pre : List (Chars × List Chars)) (ws : List Chars),
      k ∉ pre.map Prod.fst →
      List.foldl (fun acc p => addPair p.1 p.2 acc) (pre ++ [(k, ws)])
        (vs.map fun v => (k, v)) = pre ++ [(k, ws ++ vs)] := by
  intro vs
  induction vs with
  | nil =>
    intro pre ws _
    simp
  | cons v vs ih =>
    intro pre ws h
    simp only [List.map_cons, List.foldl_cons]
    rw [addPair_last k v ws pre h, ih pre (ws ++ [v]) h, List.append_assoc]
    rfl

theorem foldl_addPair_flat :
    ∀ (d : List (Chars × List Chars)) (acc : List (Chars × List Chars)),
      (∀ x ∈ acc.map Prod.fst, x ∉ d.map Prod.fst) →
      (d.map Prod.fst).Nodup → (∀ kv ∈ d, kv.2 ≠ []) →
      List.foldl (fun acc p => addPair p.1 p.2 acc) acc
        (d.flatMap fun kv => kv.2.map fun v => (kv.1, v)) = acc ++ d := by
  intro d
  induction d with
  | nil =>
    intro acc _ _ _
    simp
  | cons kv rest ih =>
    intro acc hdisj hnd hvals
    rcases kv with ⟨k, vs⟩
    simp only [List.flatMap_cons, List.foldl_append]
    have hknotacc : k ∉ acc.map Prod.fst := by
      intro hm
      exact hdisj k hm (List.mem_map.mpr ⟨(k, vs), List.mem_cons_self _ _, rfl⟩)
    rcases hvs : vs with _ | ⟨v0, vr⟩
    · exact absurd hvs (hvals (k, vs) (List.mem_cons_self _ _))
    · have hstep : List.foldl (fun acc p => addPair p.1 p.2 acc) acc
          ((v0 :: vr).map fun v => (k, v)) = acc ++ [(k, v0 :: vr)] := by
        simp only [List.map_cons, List.foldl_cons]
        rw [addPair_not_mem k v0 acc hknotacc, foldl_addPair_key k vr acc [v0] hknotacc]
        rfl
      rw [hstep]
      have hknotrest : k ∉ rest.map Prod.fst := by
        simp only [List.map_cons, List.nodup_cons] at hnd
        exact hnd.1
      rw [ih (acc ++ [(k, v0 :: vr)])
        (by
          intro x hx hxr
          rw [List.map_append] at hx
          rcases List.mem_append.mp hx with h1 | h2
          · exact hdisj x h1 (List.mem_cons_of_mem _ hxr)
          · simp only [List.map_cons, List.map_nil, List.mem_singleton] at h2
            subst h2
            exact hknotrest hxr)
        (by simp only [List.map_cons, List.nodup_cons] at hnd; exact hnd.2)
        (fun kv2 hkv2 => hvals kv2 (List.mem_cons_of_mem _ hkv2))]
      simp

theorem parse_qsC_urlencode (d : List (Chars × List Chars))
    (hnd : (d.map Prod.fst).Nodup) (hvals : ∀ kv ∈ d, kv.2 ≠ [])
    (hv : ∀ kv ∈ d, ∀ v ∈ kv.2, v ≠ []) :
    parse_qsC (urlencodeC d) = d := by
  rw [show parse_qsC (urlencodeC d) = (parse_qsl (urlencodeC d)).foldl
    (fun acc p => addPair p.1 p.2 acc) [] from rfl]
  rw [parse_qsl_urlencode d hv]
  rw [foldl_addPair_flat d [] (by intro x hx; exact absurd hx (by simp)) hnd hvals]
  rfl


theorem bexFlush_ne_nil : ∀ st, st ≠ none → bexFlush st ≠ [] := by
  intro st h
  rcases st with _ | ⟨_ | a⟩
  · exact absurd rfl h
  · exact fun hh => List.noConfusion hh
  · exact fun hh => List.noConfusion hh

theorem bexGo_ne_nil : ∀ (l : Chars) (st), l ≠ [] ∨ st ≠ none → bexGo st l ≠ [] := by
  intro l
  induction l with
  | nil =>
    intro st h
    rcases st with _ | ⟨_ | a⟩
    · rcases h with h | h
      · exact absurd rfl h
      · exact absurd rfl h
    · exact fun hh => List.noConfusion hh
    · exact fun hh => List.noConfusion hh
  | cons c r ih =>
    intro st _
    rcases st with _ | ⟨_ | a⟩
    · rw [bexGo_none_cons]
      by_cases hc : (c == '%') = true
      · rw [if_pos hc]
        exact ih (some none) (Or.inr fun hh => Option.noConfusion hh)
      · rw [if_neg hc]
        exact fun hh => List.noConfusion hh
    · exact ih (some (some c)) (Or.inr fun hh => Option.noConfusion hh)
    · show (match hexVal? a, hexVal? c with
        | some x, some y => (16 * x + y) :: bexGo none r
        | _, _ =>
          0x25 ::
            (if a == '%' then bexGo (some (some c)) r
             else
               a.toNat ::
                 (if c == '%' then bexGo (some none) r else c.toNat :: bexGo none r))) ≠ []
      rcases hexVal? a with _ | x <;> rcases hexVal? c with _ | y <;>
        exact fun hh => List.noConfusion hh

theorem utf8DecGo_ne_nil : ∀ (bs : List Nat) st, bs ≠ [] ∨ st ≠ none →
    utf8DecGo st bs ≠ [] := by
  intro bs
  induction bs with
  | nil =>
    intro st h
    rcases st with _ | s
    · rcases h with h | h
      · exact absurd rfl h
      · exact absurd rfl h
    · exact fun hh => List.noConfusion hh
  | cons b r ih =>
    intro st _
    rcases st with _ | ⟨need, acc, lo, hi⟩
    · rw [utf8DecGo_none_cons]
      rcases utf8Lead b with ch | ⟨_ | s⟩
      · exact fun hh => List.noConfusion hh
      · exact fun hh => List.noConfusion hh
      · exact ih (some s) (Or.inr fun hh => Option.noConfusion hh)
    · show (if lo ≤ b && b ≤ hi then
          if need = 1 then Char.ofNat (acc * 64 + (b - 0x80)) :: utf8DecGo none r
          else utf8DecGo (some (need - 1, acc * 64 + (b - 0x80), 0x80, 0xBF)) r
        else replChar ::
          (match utf8Lead b with
           | .inl ch => ch :: utf8DecGo none r
           | .inr (some s) => utf8DecGo (some s) r
           | .inr none => replChar :: utf8DecGo none r)) ≠ []
      by_cases h1 : (lo ≤ b && b ≤ hi) = true
      · rw [if_pos h1]
        by_cases h2 : need = 1
        · rw [if_pos h2]
          exact fun hh => List.noConfusion hh
        · rw [if_neg h2]
          exact ih _ (Or.inr fun hh => Option.noConfusion hh)
      · rw [if_neg h1]
        exact fun hh => List.noConfusion hh

theorem utf8Dec_ne_nil (bs : List Nat) (h : bs ≠ []) : utf8Dec bs ≠ [] :=
  utf8DecGo_ne_nil bs none (Or.inl h)

theorem byteExpand_ne_nil (l : Chars) (h : l ≠ []) : byteExpand l ≠ [] :=
  bexGo_ne_nil l none (Or.inl h)

theorem unquoteAux_ne_nil : ∀ (l acc : Chars), acc ≠ [] ∨ l ≠ [] →
    unquoteAux acc l ≠ [] := by
  intro l
  induction l with
  | nil =>
    intro acc h
    rcases h with h | h
    · show utf8Dec (byteExpand acc.reverse) ≠ []
      exact utf8Dec_ne_nil _ (byteExpand_ne_nil _ (by simpa using h))
    · exact absurd rfl h
  | cons c r ih =>
    intro acc _
    simp only [unquoteAux]
    by_cases hc : isAsciiCh c = true
    · rw [if_pos hc]
      exact ih (c :: acc) (Or.inl fun hh => List.noConfusion hh)
    · rw [if_neg hc]
      intro hh
      rcases List.append_eq_nil.mp hh with ⟨_, h2⟩
      exact List.noConfusion h2

theorem unquotePy_ne_nil (v : Chars) (h : v ≠ []) : unquotePy v ≠ [] := by
  rw [unquotePy]
  by_cases hc : v.contains '%' = true
  · rw [if_pos hc]
    exact unquoteAux_ne_nil v [] (Or.inr h)
  · rw [if_neg hc]
    exact h

theorem unquotePlus_ne_nil (v : Chars) (h : v ≠ []) : unquotePlus v ≠ [] := by
  rw [unquotePlus]
  apply unquotePy_ne_nil
  simpa using h

theorem qsField_some (nv n v : Chars) (h : qsField nv = some (n, v)) : v ≠ [] := by
  rw [qsField] at h
  by_cases h1 : nv.isEmpty = true
  · rw [if_pos h1] at h
    exact absurd h (fun hh => Option.noConfusion hh)
  · rw [if_neg h1] at h
    rcases hb : breakAt '=' nv with _ | ⟨n0, v0⟩
    · rw [hb] at h
      exact absurd h (fun hh => Option.noConfusion hh)
    · rw [hb] at h
      have h3 : (if v0.isEmpty = true then none
          else some (unquotePlus n0, unquotePlus v0)) = some (n, v) := h
      by_cases h2 : v0.isEmpty = true
      · rw [if_pos h2] at h3
        exact absurd h3 (fun hh => Option.noConfusion hh)
      · rw [if_neg h2] at h3
        have h4 := Option.some.inj h3
        have hv : v = unquotePlus v0 := (congrArg Prod.snd h4).symm
        rw [hv]
        apply unquotePlus_ne_nil
        rcases v0 with _ | _
        · exact absurd rfl h2
        · exact fun hh => List.noConfusion hh

theorem parse_qsl_vals (qs : Chars) : ∀ p ∈ parse_qsl qs, p.2 ≠ [] := by
  intro p hp
  rw [parse_qsl_eq] at hp
  obtain ⟨nv, _, heq⟩ := List.mem_filterMap.mp hp
  exact qsField_some nv p.1 p.2 (by rw [heq])

theorem addPair_keys (k : Chars) (v : Chars) :
    ∀ acc : List (Chars × List Chars),
      (addPair k v acc).map Prod.fst =
        if k ∈ acc.map Prod.fst then acc.map Prod.fst else acc.map Prod.fst ++ [k] := by
  intro acc
  induction acc with
  | nil => rfl
  | cons kv rest ih =>
    rcases kv with ⟨k2, vs⟩
    rw [addPair]
    by_cases he : k2 = k
    · subst he
      rw [if_pos rfl, List.map_cons]
      rw [if_pos (by simp)]
      rfl
    · rw [if_neg he, List.map_cons, List.map_cons, ih]
      by_cases hm : k ∈ rest.map Prod.fst
      · rw [if_pos hm, if_pos (by simp [hm])]
      · rw [if_neg hm, if_neg (by
          simp only [List.mem_cons]
          push_neg
          exact ⟨fun hh => he hh.symm, hm⟩), List.cons_append]

theorem addPair_nodup (k : Chars) (v : Chars) (acc : List (Chars × List Chars))
    (h : (acc.map Prod.fst).Nodup) : ((addPair k v acc).map Prod.fst).Nodup := by
  rw [addPair_keys]
  by_cases hm : k ∈ acc.map Prod.fst
  · rw [if_pos hm]
    exact h
  · rw [if_neg hm]
    apply List.Nodup.append h (List.nodup_singleton k)
    intro a ha hb
    simp only [List.mem_singleton] at hb
    subst hb
    exact hm ha

theorem addPair_mem (k : Chars) (v : Chars) :
    ∀ (acc : List (Chars × List Chars)) (kv : Chars × List Chars),
      kv ∈ addPair k v acc →
      kv ∈ acc ∨ kv = (k, [v]) ∨ ∃ kv0 ∈ acc, kv = (kv0.1, kv0.2 ++ [v]) := by
  intro acc
  induction acc with
  | nil =>
    intro kv h
    simp only [addPair, List.mem_singleton] at h
    exact Or.inr (Or.inl h)
  | cons kv2 rest ih =>
    intro kv h
    rcases kv2 with ⟨k2, vs⟩
    rw [addPair] at h
    by_cases he : k2 = k
    · rw [if_pos he] at h
      rcases List.mem_cons.mp h with he2 | hm
      · exact Or.inr (Or.inr ⟨(k2, vs), List.mem_cons_self _ _, he2⟩)
      · exact Or.inl (List.mem_cons_of_mem _ hm)
    · rw [if_neg he] at h
      rcases List.mem_cons.mp h with he2 | hm
      · exact Or.inl (he2 ▸ List.mem_cons_self _ _)
      · rcases ih kv hm with h1 | h2 | ⟨kv0, hkv0, he3⟩
        · exact Or.inl (List.mem_cons_of_mem _ h1)
        · exact Or.inr (Or.inl h2)
        · exact Or.inr (Or.inr ⟨kv0, List.mem_cons_of_mem _ hkv0, he3⟩)

theorem addPair_vals (k : Chars) (v : Chars) (acc : List (Chars × List Chars))
    (hv : v ≠ []) (h : ∀ kv ∈ acc, ∀ x ∈ kv.2, x ≠ []) :
    ∀ kv ∈ addPair k v acc, ∀ x ∈ kv.2, x ≠ [] := by
  intro kv hkv x hx
  rcases addPair_mem k v acc kv hkv with h1 | h2 | ⟨kv0, hkv0, he⟩
  · exact h kv h1 x hx
  · subst h2
    simp only [List.mem_singleton] at hx
    exact hx ▸ hv
  · subst he
    simp only at hx
    rcases List.mem_append.mp hx with h3 | h4
    · exact h kv0 hkv0 x h3
    · simp only [List.mem_singleton] at h4
      exact h4 ▸ hv

theorem addPair_vne (k : Chars) (v : Chars) (acc : List (Chars × List Chars))
    (h : ∀ kv ∈ acc, kv.2 ≠ []) :
    ∀ kv ∈ addPair k v acc, kv.2 ≠ [] := by
  intro kv hkv
  rcases addPair_mem k v acc kv hkv with h1 | h2 | ⟨kv0, hkv0, he⟩
  · exact h kv h1
  · subst h2
    exact fun hh => List.noConfusion hh
  · subst he
    simp only
    intro hh
    rcases List.append_eq_nil.mp hh with ⟨_, h2⟩
    exact List.noConfusion h2

theorem foldl_addPair_props (pairs : List (Chars × Chars)) :
    ∀ acc : List (Chars × List Chars),
      (∀ p ∈ pairs, p.2 ≠ []) →
      (acc.map Prod.fst).Nodup →
      (∀ kv ∈ acc, kv.2 ≠ []) →
      (∀ kv ∈ acc, ∀ x ∈ kv.2, x ≠ []) →
      (((List.foldl (fun acc p => addPair p.1 p.2 acc) acc pairs).map Prod.fst).Nodup ∧
        (∀ kv ∈ List.foldl (fun acc p => addPair p.1 p.2 acc) acc pairs, kv.2 ≠ []) ∧
        (∀ kv ∈ List.foldl (fun acc p => addPair p.1 p.2 acc) acc pairs,
          ∀ x ∈ kv.2, x ≠ [])) := by
  induction pairs with
  | nil =>
    intro acc _ h1 h2 h3
    exact ⟨h1, h2, h3⟩
  | cons p rest ih =>
    intro acc hp h1 h2 h3
    simp only [List.foldl_cons]
    exact ih (addPair p.1 p.2 acc)
      (fun q hq => hp q (List.mem_cons_of_mem _ hq))
      (addPair_nodup p.1 p.2 acc h1)
      (addPair_vne p.1 p.2 acc h2)
      (addPair_vals p.1 p.2 acc (hp p (List.mem_cons_self _ _)) h3)

theorem parse_qsC_props (qs : Chars) :
    ((parse_qsC qs).map Prod.fst).Nodup ∧
      (∀ kv ∈ parse_qsC qs, kv.2 ≠ []) ∧
      (∀ kv ∈ parse_qsC qs, ∀ x ∈ kv.2, x ≠ []) := by
  exact foldl_addPair_props (parse_qsl qs) [] (parse_qsl_vals qs)
    List.nodup_nil (by intro kv h; exact absurd h (List.not_mem_nil kv))
    (by intro kv h; exact absurd h (List.not_mem_nil kv))

theorem filterAffiliate_props (d : List (Chars × List Chars))
    (h1 : (d.map Prod.fst).Nodup) (h2 : ∀ kv ∈ d, kv.2 ≠ [])
    (h3 : ∀ kv ∈ d, ∀ x ∈ kv.2, x ≠ []) :
    ((filterAffiliate d).map Prod.fst).Nodup ∧
      (∀ kv ∈ filterAffiliate d, kv.2 ≠ []) ∧
      (∀ kv ∈ filterAffiliate d, ∀ x ∈ kv.2, x ≠ []) := by
  refine ⟨?_, ?_, ?_⟩
  · exact List.Nodup.sublist (List.Sublist.map Prod.fst (List.filter_sublist d)) h1
  · intro kv hkv
    exact h2 kv (List.mem_of_mem_filter hkv)
  · intro kv hkv
    exact h3 kv (List.mem_of_mem_filter hkv)

theorem parse_qsC_cleanedQuery (q : Chars) :
    parse_qsC (cleanedQuery q) = filterAffiliate (parse_qsC q) := by
  obtain ⟨h1, h2, h3⟩ := parse_qsC_props q
  obtain ⟨g1, g2, g3⟩ := filterAffiliate_props _ h1 h2 h3
  exact parse_qsC_urlencode _ g1 g2 g3

theorem filterAffiliate_idem (d : List (Chars × List Chars)) :
    filterAffiliate (filterAffiliate d) = filterAffiliate d := by
  show (d.filter _).filter _ = d.filter _
  rw [List.filter_filter]
  simp only [Bool.and_self]

theorem cleanedQuery_idem (q : Chars) : cleanedQuery (cleanedQuery q) = cleanedQuery q := by
  show urlencodeC (filterAffiliate (parse_qsC (cleanedQuery q))) = _
  rw [parse_qsC_cleanedQuery, filterAffiliate_idem]
  rfl

theorem urlencodeC_ok (d : List (Chars × List Chars)) :
    ∀ c ∈ urlencodeC d, okQueryChar c = true := by
  intro c hc
  rcases joinWith_mem '&' _ c hc with rfl | ⟨p, hp, hcp⟩
  · decide
  · obtain ⟨kv, _, hp2⟩ := List.mem_flatMap.mp hp
    obtain ⟨v, _, rfl⟩ := List.mem_map.mp hp2
    rcases List.mem_append.mp hcp with h1 | h2
    · exact quotePlus_okQuery _ c h1
    · rcases List.mem_cons.mp h2 with rfl | h3
      · decide
      · exact quotePlus_okQuery _ c h3

theorem cleanedQuery_ok (q : Chars) : ∀ c ∈ cleanedQuery q, okQueryChar c = true :=
  urlencodeC_ok _


/-! ### Toolkit for `urlparse`/`urlunparse` stability. -/

theorem char_toNat_ofNat (n : Nat) (h : n.isValidChar) : (Char.ofNat n).toNat = n := by
  rw [Char.ofNat, dif_pos h]
  rfl

theorem char_eq_nat (c d : Char) : c = d ↔ c.toNat = d.toNat :=
  ⟨congrArg _, char_of_toNat c d⟩

theorem toLower_nat (c : Char) :
    (c.toLower).toNat =
      if 65 ≤ c.toNat ∧ c.toNat ≤ 90 then c.toNat + 32 else c.toNat := by
  show (if c.toNat ≥ 65 ∧ c.toNat ≤ 90 then Char.ofNat (c.toNat + 32) else c).toNat = _
  by_cases h : 65 ≤ c.toNat ∧ c.toNat ≤ 90
  · rw [if_pos h, if_pos h]
    exact char_toNat_ofNat _ (Or.inl (by have := h.2; omega))
  · rw [if_neg h, if_neg h]

theorem toLower_fix (c : Char) (h : ¬(65 ≤ c.toNat ∧ c.toNat ≤ 90)) : c.toLower = c :=
  char_of_toNat _ _ (by rw [toLower_nat, if_neg h])

theorem toLower_idem (c : Char) : c.toLower.toLower = c.toLower := by
  apply char_of_toNat
  have h1 := toLower_nat c
  by_cases h : 65 ≤ c.toNat ∧ c.toNat ≤ 90
  · rw [if_pos h] at h1
    rw [toLower_nat c.toLower, h1, if_neg (by omega)]
  · rw [if_neg h] at h1
    rw [toLower_nat c.toLower, h1, if_neg h]

theorem lowerS_idem (l : Chars) : lowerS (lowerS l) = lowerS l := by
  show (l.map Char.toLower).map Char.toLower = _
  rw [List.map_map]
  exact List.map_congr_left fun c _ => toLower_idem c

theorem toLower_alpha (c : Char) (h : c.isAlpha = true) : c.toLower.isAlpha = true := by
  rw [char_isAlpha_nat] at h ⊢
  rw [toLower_nat]
  by_cases hc : 65 ≤ c.toNat ∧ c.toNat ≤ 90
  · rw [if_pos hc]
    omega
  · rw [if_neg hc]
    omega

theorem toLower_schemeChar (c : Char) (h : isSchemeChar c = true) :
    isSchemeChar c.toLower = true := by
  by_cases hc : 65 ≤ c.toNat ∧ c.toNat ≤ 90
  · have ht : (c.toLower).toNat = c.toNat + 32 := by rw [toLower_nat, if_pos hc]
    simp only [isSchemeChar, Bool.or_eq_true]
    refine Or.inl (Or.inl (Or.inl (Or.inl ?_)))
    rw [char_isAlpha_nat, ht]
    omega
  · rw [toLower_fix c hc]
    exact h

theorem toLower_trn (c : Char) (h : (c == '\t' || c == '\r' || c == '\n') = false) :
    (c.toLower == '\t' || c.toLower == '\r' || c.toLower == '\n') = false := by
  by_cases hc : 65 ≤ c.toNat ∧ c.toNat ≤ 90
  · have ht : (c.toLower).toNat = c.toNat + 32 := by rw [toLower_nat, if_pos hc]
    simp only [Bool.or_eq_false_iff, beq_eq_false_iff_ne] at h ⊢
    refine ⟨⟨?_, ?_⟩, ?_⟩ <;>
      (intro he
       have h2 := congrArg Char.toNat he
       rw [ht] at h2
       simp only [show ('\t').toNat = 9 from rfl, show ('\r').toNat = 13 from rfl,
         show ('\n').toNat = 10 from rfl] at h2
       omega)
  · rw [toLower_fix c hc]
    exact h

theorem sanitize_id (l : Chars) (h1 : noTRN l = true) (h2 : headGt l = true) :
    sanitizeUrl l = l := by
  rcases l with _ | ⟨c, r⟩
  · rfl
  · have hcgt : 0x20 < c.toNat := by
      simpa [headGt] using h2
    show ((c :: r).dropWhile fun x => x.toNat ≤ 0x20).filter _ = c :: r
    rw [List.dropWhile_cons, if_neg (by simp only [decide_eq_true_eq]; omega)]
    rw [List.filter_eq_self]
    intro a ha
    have := (List.all_eq_true.mp h1) a ha
    simpa using this

theorem sanitize_noTRN (l : Chars) : noTRN (sanitizeUrl l) = true := by
  rw [noTRN, List.all_eq_true]
  intro c hc
  exact (List.mem_filter.mp hc).2

theorem sanitize_headGt (l : Chars) : headGt (sanitizeUrl l) = true := by
  show headGt ((l.dropWhile fun c => c.toNat ≤ 0x20).filter _) = true
  induction l with
  | nil => rfl
  | cons c r ih =>
    rw [List.dropWhile_cons]
    by_cases hc : c.toNat ≤ 0x20
    · rw [if_pos (by simpa using hc)]
      exact ih
    · rw [if_neg (by simpa using hc)]
      have hkeep : (!(c == '\t' || c == '\r' || c == '\n')) = true := by
        have e1 : ('\t').toNat = 9 := rfl
        simp only [Bool.not_eq_true', Bool.or_eq_false_iff, beq_eq_false_iff_ne]
        refine ⟨⟨?_, ?_⟩, ?_⟩ <;> (intro he; subst he; revert hc; decide)
      rw [List.filter_cons, if_pos hkeep]
      simp only [headGt, decide_eq_true_eq]
      omega

theorem breakAt_isSome (c : Char) : ∀ l : Chars, c ∈ l → breakAt c l ≠ none := by
  intro l
  induction l with
  | nil => intro h; exact absurd h (List.not_mem_nil c)
  | cons x xs ih =>
    intro h
    rw [breakAt_cons]
    by_cases hx : (x == c) = true
    · rw [if_pos hx]
      exact fun hh => Option.noConfusion hh
    · rw [if_neg hx]
      have hcx : c ∈ xs := by
        rcases List.mem_cons.mp h with he | hm
        · exact absurd (he ▸ beq_self_eq_true c) (by rw [he] at hx; exact fun hh => hx hh)
        · exact hm
      rcases hb : breakAt c xs with _ | p
      · exact absurd hb (ih hcx)
      · exact fun hh => Option.noConfusion hh

theorem contains_false (l : Chars) (c : Char) (h : c ∉ l) : l.contains c = false := by
  rcases hh : l.contains c with _ | _
  · rfl
  · exact absurd (List.elem_iff.mp hh) h

theorem takeWhile_app (p : Char → Bool) :
    ∀ a b : Chars, (∀ c ∈ a, p c = true) →
      (b = [] ∨ ∃ c r, b = c :: r ∧ p c = false) →
      (a ++ b).takeWhile p = a ∧ (a ++ b).dropWhile p = b := by
  intro a
  induction a with
  | nil =>
    intro b _ hb
    rcases hb with rfl | ⟨c, r, rfl, hc⟩
    · exact ⟨rfl, rfl⟩
    · rw [List.nil_append]
      exact ⟨by rw [List.takeWhile_cons, if_neg (by rw [hc]; exact Bool.false_ne_true)],
        by rw [List.dropWhile_cons, if_neg (by rw [hc]; exact Bool.false_ne_true)]⟩
  | cons x xs ih =>
    intro b ha hb
    have hx : p x = true := ha x (List.mem_cons_self x xs)
    obtain ⟨ht, hd⟩ := ih b (fun c hc => ha c (List.mem_cons_of_mem x hc)) hb
    rw [List.cons_append]
    constructor
    · rw [List.takeWhile_cons, if_pos hx, ht]
    · rw [List.dropWhile_cons, if_pos hx, hd]

theorem breakAtLast_left (c : Char) (a b : Chars) (h : c ∉ b) :
    breakAtLast c (a ++ c :: b) = some (a, b) := by
  rw [breakAtLast]
  have hrev : (a ++ c :: b).reverse = b.reverse ++ c :: a.reverse := by
    rw [List.reverse_append, List.reverse_cons, List.append_assoc]
    simp
  rw [hrev, breakAt_left c _ _ (by simpa using h)]
  simp

theorem breakAtLast_none (c : Char) (l : Chars) (h : c ∉ l) : breakAtLast c l = none := by
  rw [breakAtLast, breakAt_not_mem c _ (by simpa using h)]

theorem breakAtLast_eq (c : Char) (l a b : Chars) (h : breakAtLast c l = some (a, b)) :
    l = a ++ c :: b ∧ c ∉ b := by
  rw [breakAtLast] at h
  rcases hb : breakAt c l.reverse with _ | ⟨ra, rb⟩
  · rw [hb] at h
    exact absurd h (fun hh => Option.noConfusion hh)
  · rw [hb] at h
    have h2 := Option.some.inj h
    obtain ⟨hl, hc⟩ := breakAt_eq c l.reverse ra rb hb
    have ha : a = rb.reverse := (congrArg Prod.fst h2).symm
    have hbb : b = ra.reverse := (congrArg Prod.snd h2).symm
    subst ha
    subst hbb
    constructor
    · have hrl := congrArg List.reverse hl
      rw [List.reverse_reverse] at hrl
      rw [hrl, List.reverse_append, List.reverse_cons, List.append_assoc]
      simp
    · simpa using hc

theorem breakAtLast_isSome (c : Char) (l : Chars) (h : c ∈ l) :
    breakAtLast c l ≠ none := by
  rw [breakAtLast]
  rcases hb : breakAt c l.reverse with _ | p
  · exact absurd hb (breakAt_isSome c l.reverse (by simpa using h))
  · exact fun hh => Option.noConfusion hh




/-! ### Scheme detection and parameter splitting under reconstruction. -/

theorem breakAt_none_not_mem (c : Char) (l : Chars) (h : breakAt c l = none) : c ∉ l := by
  intro hm
  exact breakAt_isSome c l hm h

theorem splitSchemeC_zero (l : Chars) (h : (splitSchemeC l).1 = []) :
    splitSchemeC l = ([], l) := by
  rw [splitSchemeC] at h ⊢
  rcases hb : breakAt ':' l with _ | ⟨pre, post⟩
  · rfl
  · rw [hb] at h
    rcases pre with _ | ⟨c, cs⟩
    · rfl
    · show (if (c.isAlpha && (c :: cs).all isSchemeChar) = true
          then (lowerS (c :: cs), post) else (([] : Chars), l)) = ([], l)
      have h2 : ((if (c.isAlpha && (c :: cs).all isSchemeChar) = true
          then (lowerS (c :: cs), post) else (([] : Chars), l)) : Chars × Chars).1 = [] := h
      by_cases ht : (c.isAlpha && (c :: cs).all isSchemeChar) = true
      · rw [if_pos ht] at h2
        exact absurd h2 (fun hh => List.noConfusion hh)
      · rw [if_neg ht]

theorem splitSchemeC_head (c : Char) (r : Chars) (h1 : c ≠ ':') (h2 : ¬c.isAlpha = true) :
    splitSchemeC (c :: r) = ([], c :: r) := by
  rw [splitSchemeC]
  rcases hb : breakAt ':' (c :: r) with _ | ⟨pre, post⟩
  · rfl
  · obtain ⟨hl, hp⟩ := breakAt_eq ':' _ pre post hb
    rcases pre with _ | ⟨p0, ps⟩
    · rfl
    · have hcp : c = p0 := List.head_eq_of_cons_eq (by rw [hl]; rfl)
      subst hcp
      show (if (c.isAlpha && (c :: ps).all isSchemeChar) = true
          then (lowerS (c :: ps), post) else (([] : Chars), c :: r)) = ([], c :: r)
      rw [if_neg (by
        intro hc
        rw [Bool.and_eq_true] at hc
        exact h2 hc.1)]

theorem splitSchemeC_scheme (sch rest : Chars) (c0 : Char) (cs0 : Chars)
    (hsh : sch = c0 :: cs0) (halpha : c0.isAlpha = true)
    (hall : sch.all isSchemeChar = true) (hlow : lowerS sch = sch) :
    splitSchemeC (sch ++ ':' :: rest) = (sch, rest) := by
  have hnc : ':' ∉ sch := by
    intro hm
    have := (List.all_eq_true.mp hall) ':' hm
    exact absurd this (by decide)
  rw [splitSchemeC, breakAt_left ':' sch rest hnc]
  subst hsh
  show (if (c0.isAlpha && (c0 :: cs0).all isSchemeChar) = true
      then (lowerS (c0 :: cs0), rest) else (([] : Chars), c0 :: cs0 ++ ':' :: rest)) =
    (c0 :: cs0, rest)
  rw [if_pos (by rw [Bool.and_eq_true]; exact ⟨halpha, hall⟩)]
  rw [show lowerS (c0 :: cs0) = c0 :: cs0 from hlow]

theorem splitSchemeC_schemeFree (l : Chars) (h : (splitSchemeC l).1 = []) :
    schemeFreeB l = true := by
  rw [splitSchemeC] at h
  rw [schemeFreeB]
  rcases hb : breakAt ':' l with _ | ⟨pre, post⟩
  · rfl
  · rw [hb] at h
    rcases pre with _ | ⟨c, cs⟩
    · rfl
    · show (!(c.isAlpha && (c :: cs).all isSchemeChar)) = true
      have h2 : ((if (c.isAlpha && (c :: cs).all isSchemeChar) = true
          then (lowerS (c :: cs), post) else (([] : Chars), l)) : Chars × Chars).1 = [] := h
      by_cases ht : (c.isAlpha && (c :: cs).all isSchemeChar) = true
      · rw [if_pos ht] at h2
        exact absurd h2 (fun hh => List.noConfusion hh)
      · simp only [Bool.not_eq_true] at ht
        rw [ht]
        rfl

theorem schemeFree_cat (x y : Chars) (h : schemeFreeB (x ++ y) = true) :
    schemeFreeB x = true := by
  rw [schemeFreeB]
  rcases hbx : breakAt ':' x with _ | ⟨a, b⟩
  · rfl
  · have hb2 := breakAt_app_some ':' x y a b hbx
    rw [schemeFreeB, hb2] at h
    rcases a with _ | ⟨c, cs⟩
    · rfl
    · exact h

theorem schemeFree_app (x y : Chars) (h : schemeFreeB x = true)
    (hy : y = [] ∨ (∃ r, y = '?' :: r) ∨ (∃ r, y = '#' :: r)) :
    splitSchemeC (x ++ y) = ([], x ++ y) := by
  rw [splitSchemeC]
  rcases hbx : breakAt ':' x with _ | ⟨a, b⟩
  · have hnx : ':' ∉ x := breakAt_none_not_mem ':' x hbx
    have hxy : ∀ (q : Char) (rest2 : Chars), q ≠ ':' → isSchemeChar q = false →
        (match breakAt ':' (x ++ q :: rest2) with
          | none => (([] : Chars), x ++ q :: rest2)
          | some (pre, post) =>
            match pre with
            | [] => (([] : Chars), x ++ q :: rest2)
            | c :: _ =>
              if c.isAlpha && pre.all isSchemeChar then (lowerS pre, post)
              else (([] : Chars), x ++ q :: rest2)) = ([], x ++ q :: rest2) := by
      intro q rest2 hq1 hq2
      rw [breakAt_app_none ':' x _ hnx, breakAt_cons, if_neg (by simpa using hq1)]
      rcases hb2 : breakAt ':' rest2 with _ | ⟨p, o⟩
      · rfl
      · have hqmem : q ∈ x ++ q :: p := List.mem_append.mpr (Or.inr (List.mem_cons_self q p))
        have hallf : ((x ++ q :: p).all isSchemeChar) = false := by
          rcases hres : (x ++ q :: p).all isSchemeChar with _ | _
          · rfl
          · exact absurd ((List.all_eq_true.mp hres) q hqmem)
              (by rw [hq2]; exact Bool.false_ne_true)
        show (match (x ++ q :: p : Chars) with
          | [] => (([] : Chars), x ++ q :: rest2)
          | c :: _ =>
            if c.isAlpha && (x ++ q :: p).all isSchemeChar then (lowerS (x ++ q :: p), o)
            else (([] : Chars), x ++ q :: rest2)) = ([], x ++ q :: rest2)
        rcases hx2 : x ++ q :: p with _ | ⟨c2, cs2⟩
        · exact absurd hx2 (by simp)
        · show (if (c2.isAlpha && (c2 :: cs2).all isSchemeChar) = true
              then (lowerS (c2 :: cs2), o) else (([] : Chars), x ++ q :: rest2)) =
            ([], x ++ q :: rest2)
          rw [if_neg (by
            rw [← hx2, hallf, Bool.and_false]
            exact Bool.false_ne_true)]
    rcases hy with rfl | ⟨r, rfl⟩ | ⟨r, rfl⟩
    · rw [List.append_nil, breakAt_not_mem ':' x hnx]
    · exact hxy '?' r (by decide) (by decide)
    · exact hxy '#' r (by decide) (by decide)
  · have hb2 := breakAt_app_some ':' x y a b hbx
    rw [hb2]
    rw [schemeFreeB, hbx] at h
    rcases a with _ | ⟨c, cs⟩
    · rfl
    · show (if (c.isAlpha && (c :: cs).all isSchemeChar) = true
          then (lowerS (c :: cs), b ++ y) else (([] : Chars), x ++ y)) = ([], x ++ y)
      rw [if_neg (by
        intro hc
        have h3 : (!(c.isAlpha && (c :: cs).all isSchemeChar)) = true := h
        rw [hc] at h3
        exact absurd h3 (by decide))]



theorem lastSegOK_join (P ps : Chars) (h1 : lastSegOK P = true) (h2 : '/' ∉ ps) :
    splitParamsC (P ++ ';' :: ps) = (P, ps) := by
  rw [splitParamsC]
  rcases hbl : breakAtLast '/' P with _ | ⟨bf, af⟩
  · have hslp : '/' ∉ P := by
      intro hm
      exact breakAtLast_isSome '/' P hm hbl
    have hsemi : ';' ∉ P := by
      intro hm
      have h3 : (!P.contains ';') = true := by
        rw [lastSegOK, hbl] at h1
        exact h1
      have h4 : P.contains ';' = true := List.elem_iff.mpr hm
      rw [h4] at h3
      exact absurd h3 (by decide)
    rw [if_neg (by
      intro hcont
      have hm := List.elem_iff.mp hcont
      rcases List.mem_append.mp hm with hm1 | hm2
      · exact hslp hm1
      · rcases List.mem_cons.mp hm2 with he | hm3
        · exact absurd he (by decide)
        · exact h2 hm3)]
    rw [breakAt_left ';' P ps hsemi]
  · obtain ⟨hP, hslaf⟩ := breakAtLast_eq '/' P bf af hbl
    have hsemiaf : ';' ∉ af := by
      intro hm
      have h3 : (!af.contains ';') = true := by
        rw [lastSegOK, hbl] at h1
        exact h1
      have h4 : af.contains ';' = true := List.elem_iff.mpr hm
      rw [h4] at h3
      exact absurd h3 (by decide)
    have hdec : P ++ ';' :: ps = bf ++ '/' :: (af ++ ';' :: ps) := by
      rw [hP, List.append_assoc, List.cons_append]
    rw [if_pos (by
      apply List.elem_iff.mpr
      rw [hdec]
      exact List.mem_append.mpr (Or.inr (List.mem_cons_self _ _)))]
    rw [hdec, breakAtLast_left '/' bf (af ++ ';' :: ps) (by
      intro hm
      rcases List.mem_append.mp hm with hm1 | hm2
      · exact hslaf hm1
      · rcases List.mem_cons.mp hm2 with he | hm3
        · exact absurd he (by decide)
        · exact h2 hm3)]
    show (match breakAt ';' (af ++ ';' :: ps) with
      | some (a, b) => (bf ++ '/' :: a, b)
      | none => (bf ++ '/' :: (af ++ ';' :: ps), ([] : Chars))) = (P, ps)
    rw [breakAt_left ';' af ps hsemiaf]
    show (bf ++ '/' :: af, ps) = (P, ps)
    rw [← hP]

theorem lastSegOK_noop (P : Chars) (h1 : lastSegOK P = true) :
    splitParamsC P = (P, []) := by
  rw [splitParamsC]
  rcases hbl : breakAtLast '/' P with _ | ⟨bf, af⟩
  · have hsemi : ';' ∉ P := by
      intro hm
      have h3 : (!P.contains ';') = true := by
        rw [lastSegOK, hbl] at h1
        exact h1
      have h4 : P.contains ';' = true := List.elem_iff.mpr hm
      rw [h4] at h3
      exact absurd h3 (by decide)
    by_cases hc : P.contains '/' = true
    · rw [if_pos hc]
    · rw [if_neg hc, breakAt_not_mem ';' P hsemi]
  · have hsemiaf : ';' ∉ af := by
      intro hm
      have h3 : (!af.contains ';') = true := by
        rw [lastSegOK, hbl] at h1
        exact h1
      have h4 : af.contains ';' = true := List.elem_iff.mpr hm
      rw [h4] at h3
      exact absurd h3 (by decide)
    obtain ⟨hP, _⟩ := breakAtLast_eq '/' P bf af hbl
    rw [if_pos (by
      apply List.elem_iff.mpr
      rw [hP]
      exact List.mem_append.mpr (Or.inr (List.mem_cons_self _ _)))]
    show (match breakAt ';' af with
      | some (a, b) => (bf ++ '/' :: a, b)
      | none => (P, ([] : Chars))) = (P, [])
    rw [breakAt_not_mem ';' af hsemiaf]

theorem lastSegOK_slash (P : Chars) (h : lastSegOK P = true) :
    lastSegOK ('/' :: P) = true := by
  rcases hbl : breakAtLast '/' P with _ | ⟨bf, af⟩
  · have hslp : '/' ∉ P := fun hm => breakAtLast_isSome '/' P hm hbl
    rw [lastSegOK, show ('/' :: P : Chars) = [] ++ '/' :: P from rfl,
      breakAtLast_left '/' [] P hslp]
    show (!P.contains ';') = true
    rw [lastSegOK, hbl] at h
    exact h
  · obtain ⟨hP, hslaf⟩ := breakAtLast_eq '/' P bf af hbl
    rw [lastSegOK, show ('/' :: P : Chars) = ('/' :: bf) ++ '/' :: af by rw [hP]; rfl,
      breakAtLast_left '/' ('/' :: bf) af hslaf]
    show (!af.contains ';') = true
    rw [lastSegOK, hbl] at h
    exact h


/-! ### Characterizations used to derive the parse invariants. -/

theorem noTRN_mem (l : Chars) (h : noTRN l = true) (c : Char) (hc : c ∈ l) :
    (!(c == '\t' || c == '\r' || c == '\n')) = true := (List.all_eq_true.mp h) c hc

theorem noTRN_of (l : Chars)
    (h : ∀ c ∈ l, (!(c == '\t' || c == '\r' || c == '\n')) = true) : noTRN l = true :=
  List.all_eq_true.mpr h

theorem isPrefixL_two (c1 c2 : Char) (x : Chars) :
    isPrefixL [c1, c2] x = true ↔ ∃ y, x = c1 :: c2 :: y := by
  rcases x with _ | ⟨a, _ | ⟨b, r⟩⟩
  · simp [isPrefixL]
  · simp [isPrefixL]
  · simp only [isPrefixL, Bool.and_eq_true, beq_iff_eq]
    constructor
    · rintro ⟨rfl, rfl, _⟩
      exact ⟨r, rfl⟩
    · rintro ⟨y, hy⟩
      obtain ⟨rfl, rfl, rfl⟩ : a = c1 ∧ b = c2 ∧ r = y := by
        have h1 := List.head_eq_of_cons_eq hy
        have h2 := List.tail_eq_of_cons_eq hy
        have h3 := List.head_eq_of_cons_eq h2
        have h4 := List.tail_eq_of_cons_eq h2
        exact ⟨h1, h3, h4⟩
      exact ⟨rfl, rfl, trivial⟩

theorem dropWhile_head_false (p : Char → Bool) :
    ∀ (l : Chars) (c : Char) (r : Chars), l.dropWhile p = c :: r → p c = false := by
  intro l
  induction l with
  | nil =>
    intro c r h
    exact absurd h (by simp)
  | cons x xs ih =>
    intro c r h
    rw [List.dropWhile_cons] at h
    by_cases hx : p x = true
    · rw [if_pos hx] at h
      exact ih c r h
    · rw [if_neg hx] at h
      have hcx : c = x := List.head_eq_of_cons_eq h.symm
      rw [hcx]
      rcases hpx : p x with _ | _
      · rfl
      · exact absurd hpx hx

theorem lastSegOK_no_semi (P : Chars) (h : ';' ∉ P) : lastSegOK P = true := by
  rw [lastSegOK]
  rcases hbl : breakAtLast '/' P with _ | ⟨bf, af⟩
  · show (!P.contains ';') = true
    rw [contains_false P ';' h]
    rfl
  · obtain ⟨hP, _⟩ := breakAtLast_eq '/' P bf af hbl
    show (!af.contains ';') = true
    have haf : ';' ∉ af := by
      intro hm
      exact h (by
        rw [hP]
        exact List.mem_append.mpr (Or.inr (List.mem_cons_of_mem _ hm)))
    rw [contains_false af ';' haf]
    rfl

theorem paramBlob_pref (p : PyUrl) :
    isPrefixL "//".data (paramBlob p) = isPrefixL "//".data p.path := by
  rw [paramBlob]
  by_cases hp : p.params.isEmpty = true
  · rw [if_pos hp]
  · rw [if_neg hp]
    rcases hpa : p.path with _ | ⟨c1, _ | ⟨c2, r⟩⟩
    · show isPrefixL ['/', '/'] (';' :: p.params) = isPrefixL ['/', '/'] []
      simp [isPrefixL]
    · show isPrefixL ['/', '/'] (c1 :: ';' :: p.params) = isPrefixL ['/', '/'] [c1]
      simp [isPrefixL]
    · show isPrefixL ['/', '/'] (c1 :: c2 :: (r ++ ';' :: p.params)) =
        isPrefixL ['/', '/'] (c1 :: c2 :: r)
      simp [isPrefixL]

theorem splitSchemeC_spec (l : Chars) :
    splitSchemeC l = ([], l) ∨
    (∃ pre post c cs, l = pre ++ ':' :: post ∧ pre = c :: cs ∧ c.isAlpha = true ∧
      pre.all isSchemeChar = true ∧ splitSchemeC l = (lowerS pre, post)) := by
  rcases hb : breakAt ':' l with _ | ⟨pre, post⟩
  · left
    rw [splitSchemeC, hb]
  · obtain ⟨hl, hnp⟩ := breakAt_eq ':' l pre post hb
    rcases hpre : pre with _ | ⟨c, cs⟩
    · left
      rw [splitSchemeC, hb, hpre]
    · by_cases ht : (c.isAlpha && (c :: cs).all isSchemeChar) = true
      · right
        rw [Bool.and_eq_true] at ht
        refine ⟨c :: cs, post, c, cs, hpre ▸ hl, rfl, ht.1, ht.2, ?_⟩
        rw [splitSchemeC, hb, hpre]
        show (if (c.isAlpha && (c :: cs).all isSchemeChar) = true
            then (lowerS (c :: cs), post) else (([] : Chars), l)) = (lowerS (c :: cs), post)
        rw [if_pos (by rw [Bool.and_eq_true]; exact ⟨ht.1, ht.2⟩)]
      · left
        rw [splitSchemeC, hb, hpre]
        show (if (c.isAlpha && (c :: cs).all isSchemeChar) = true
            then (lowerS (c :: cs), post) else (([] : Chars), l)) = ([], l)
        rw [if_neg ht]


theorem urlparseCore_eq (l : Chars) :
    urlparseCore l = parseTail (splitSchemeC l).1 (splitSchemeC l).2 := by
  simp only [urlparseCore, parseTail, parseTail2]
  by_cases h : isPrefixL "//".data (splitSchemeC l).2 = true
  · rw [if_pos h, if_pos h]
  · rw [if_neg h, if_neg h]


theorem splitParamsC_eq_a (r4 bf af a2 b2 : Chars)
    (hc : r4.contains '/' = true)
    (hbl : breakAtLast '/' r4 = some (bf, af)) (hba : breakAt ';' af = some (a2, b2)) :
    splitParamsC r4 = (bf ++ '/' :: a2, b2) := by
  rw [splitParamsC, if_pos hc, hbl]
  show (match breakAt ';' af with
    | some (a, b) => (bf ++ '/' :: a, b)
    | none => (r4, ([] : Chars))) = (bf ++ '/' :: a2, b2)
  rw [hba]

theorem splitParamsC_eq_b (r4 bf af : Chars)
    (hc : r4.contains '/' = true)
    (hbl : breakAtLast '/' r4 = some (bf, af)) (hba : breakAt ';' af = none) :
    splitParamsC r4 = (r4, []) := by
  rw [splitParamsC, if_pos hc, hbl]
  show (match breakAt ';' af with
    | some (a, b) => (bf ++ '/' :: a, b)
    | none => (r4, ([] : Chars))) = (r4, [])
  rw [hba]

theorem splitParamsC_eq_c (r4 a2 b2 : Chars)
    (hc : ¬r4.contains '/' = true) (hba : breakAt ';' r4 = some (a2, b2)) :
    splitParamsC r4 = (a2, b2) := by
  rw [splitParamsC, if_neg hc, hba]

theorem splitParamsC_eq_d (r4 : Chars)
    (hc : ¬r4.contains '/' = true) (hba : breakAt ';' r4 = none) :
    splitParamsC r4 = (r4, []) := by
  rw [splitParamsC, if_neg hc, hba]

theorem splitParamsC_spec (r4 : Chars) :
    (r4 = (splitParamsC r4).1 ++ ';' :: (splitParamsC r4).2 ∨
      ((splitParamsC r4).2 = [] ∧ (splitParamsC r4).1 = r4)) ∧
    lastSegOK (splitParamsC r4).1 = true ∧ '/' ∉ (splitParamsC r4).2 := by
  by_cases hc : r4.contains '/' = true
  · rcases hbl : breakAtLast '/' r4 with _ | ⟨bf, af⟩
    · exact absurd hbl (breakAtLast_isSome '/' r4 (List.elem_iff.mp hc))
    · obtain ⟨hr4, hslaf⟩ := breakAtLast_eq '/' r4 bf af hbl
      rcases hba : breakAt ';' af with _ | ⟨a2, b2⟩
      · rw [splitParamsC_eq_b r4 bf af hc hbl hba]
        refine ⟨Or.inr ⟨rfl, rfl⟩, ?_, List.not_mem_nil '/'⟩
        rw [lastSegOK, hbl]
        show (!af.contains ';') = true
        rw [contains_false af ';' (breakAt_none_not_mem ';' af hba)]
        rfl
      · obtain ⟨haf, hsa⟩ := breakAt_eq ';' af a2 b2 hba
        rw [splitParamsC_eq_a r4 bf af a2 b2 hc hbl hba]
        have hsla2 : '/' ∉ a2 := by
          intro hm
          exact hslaf (by rw [haf]; exact List.mem_append.mpr (Or.inl hm))
        refine ⟨Or.inl ?_, ?_, ?_⟩
        · rw [hr4, haf, List.append_assoc, List.cons_append]
        · rw [lastSegOK, breakAtLast_left '/' bf a2 hsla2]
          show (!a2.contains ';') = true
          rw [contains_false a2 ';' hsa]
          rfl
        · intro hm
          exact hslaf (by rw [haf]; exact List.mem_append.mpr (Or.inr (List.mem_cons_of_mem _ hm)))
  · have hslr : '/' ∉ r4 := by
      intro hm
      exact hc (List.elem_iff.mpr hm)
    rcases hba : breakAt ';' r4 with _ | ⟨a2, b2⟩
    · rw [splitParamsC_eq_d r4 hc hba]
      exact ⟨Or.inr ⟨rfl, rfl⟩,
        lastSegOK_no_semi r4 (breakAt_none_not_mem ';' r4 hba), List.not_mem_nil '/'⟩
    · obtain ⟨hr4, hsa⟩ := breakAt_eq ';' r4 a2 b2 hba
      rw [splitParamsC_eq_c r4 a2 b2 hc hba]
      refine ⟨Or.inl hr4, lastSegOK_no_semi a2 hsa, ?_⟩
      intro hm
      exact hslr (by rw [hr4]; exact List.mem_append.mpr (Or.inr (List.mem_cons_of_mem _ hm)))

theorem schemeFreeB_slash (l : Chars) (h : l = [] ∨ ∃ r, l = '/' :: r) :
    schemeFreeB l = true := by
  rcases h with rfl | ⟨r, rfl⟩
  · rfl
  · rw [schemeFreeB]
    rcases hb : breakAt ':' ('/' :: r) with _ | ⟨pre, post⟩
    · rfl
    · obtain ⟨hl, _⟩ := breakAt_eq ':' _ pre post hb
      rcases pre with _ | ⟨c, cs⟩
      · rfl
      · have hcs : c = '/' := (List.head_eq_of_cons_eq hl).symm
        subst hcs
        show (!('/'.isAlpha && (('/' : Char) :: cs).all isSchemeChar)) = true
        rw [show ('/' : Char).isAlpha = false from rfl, Bool.false_and]
        rfl


theorem parse_facts_tail2 (scheme netloc rest2 l : Chars)
    (hshape : scheme = [] ∨ ∃ c cs, scheme = c :: cs ∧ c.isAlpha = true ∧
      scheme.all isSchemeChar = true ∧ lowerS scheme = scheme)
    (htrn_s : noTRN scheme = true)
    (hsub : ∀ c ∈ rest2, c ∈ l)
    (hT : noTRN l = true)
    (hnet_ok : ∀ c ∈ netloc, (!(c == '/' || c == '?' || c == '#')) = true)
    (hnet_trn : noTRN netloc = true)
    (hmix : (rest2 = [] ∨ ∃ c r, rest2 = c :: r ∧ (c == '/' || c == '?' || c == '#') = true) ∨
      (netloc = [] ∧ (scheme = [] → schemeFreeB rest2 = true ∧ headGt rest2 = true))) :
    ParseFacts (parseTail2 scheme netloc rest2) := by
  obtain ⟨r3, fr, hfr_eq, hfr_dec, hr3h⟩ :
      ∃ a b, (match breakAt '#' rest2 with | some p => p | none => (rest2, ([] : Chars))) =
        (a, b) ∧ (rest2 = a ++ '#' :: b ∨ (b = [] ∧ a = rest2)) ∧ '#' ∉ a := by
    rcases hb1 : breakAt '#' rest2 with _ | ⟨a, b⟩
    · exact ⟨rest2, [], rfl, Or.inr ⟨rfl, rfl⟩, breakAt_none_not_mem _ _ hb1⟩
    · obtain ⟨hd, hnm⟩ := breakAt_eq '#' rest2 a b hb1
      exact ⟨a, b, rfl, Or.inl hd, hnm⟩
  obtain ⟨r4, q, hq_eq, hq_dec, hr4q⟩ :
      ∃ a b, (match breakAt '?' r3 with | some p => p | none => (r3, ([] : Chars))) =
        (a, b) ∧ (r3 = a ++ '?' :: b ∨ (b = [] ∧ a = r3)) ∧ '?' ∉ a := by
    rcases hb2 : breakAt '?' r3 with _ | ⟨a, b⟩
    · exact ⟨r3, [], rfl, Or.inr ⟨rfl, rfl⟩, breakAt_none_not_mem _ _ hb2⟩
    · obtain ⟨hd, hnm⟩ := breakAt_eq '?' r3 a b hb2
      exact ⟨a, b, rfl, Or.inl hd, hnm⟩
  obtain ⟨path, params, hpp_eq, hpp_dec, hpp_nos, hpp_sch, hpp_seg⟩ :
      ∃ a b, (if scheme ∈ uses_paramsC && r4.contains ';' then splitParamsC r4
          else (r4, ([] : Chars))) = (a, b) ∧
        (r4 = a ++ ';' :: b ∨ (b = [] ∧ a = r4)) ∧ '/' ∉ b ∧
        (b ≠ [] → scheme ∈ uses_paramsC) ∧
        (scheme ∈ uses_paramsC → lastSegOK a = true) := by
    by_cases hpc : (scheme ∈ uses_paramsC && r4.contains ';') = true
    · obtain ⟨hdec, hseg, hnos⟩ := splitParamsC_spec r4
      have hmem : scheme ∈ uses_paramsC := by
        rw [Bool.and_eq_true, decide_eq_true_eq] at hpc
        exact hpc.1
      exact ⟨(splitParamsC r4).1, (splitParamsC r4).2, by rw [if_pos hpc], hdec, hnos,
        fun _ => hmem, fun _ => hseg⟩
    · refine ⟨r4, [], by rw [if_neg hpc], Or.inr ⟨rfl, rfl⟩, List.not_mem_nil _,
        fun hne => absurd rfl hne, ?_⟩
      intro hmem
      have hcf : r4.contains ';' = false := by
        rcases hcc : r4.contains ';' with _ | _
        · rfl
        · exact absurd (by rw [Bool.and_eq_true, decide_eq_true_eq]; exact ⟨hmem, hcc⟩) hpc
      exact lastSegOK_no_semi r4 fun hm => by
        have h5 : r4.contains ';' = true := List.elem_iff.mpr hm
        rw [h5] at hcf
        exact Bool.noConfusion hcf
  have hp2 : parseTail2 scheme netloc rest2 = ⟨scheme, netloc, path, params, q, fr⟩ := by
    simp only [parseTail2, hfr_eq, hq_eq, hpp_eq]
  rw [hp2]
  -- membership chains
  have hr3sub : ∀ c ∈ r3, c ∈ rest2 := by
    rcases hfr_dec with hd | ⟨_, rfl⟩
    · intro c hc
      rw [hd]
      exact List.mem_append.mpr (Or.inl hc)
    · exact fun c hc => hc
  have hr4sub : ∀ c ∈ r4, c ∈ r3 := by
    rcases hq_dec with hd | ⟨_, rfl⟩
    · intro c hc
      rw [hd]
      exact List.mem_append.mpr (Or.inl hc)
    · exact fun c hc => hc
  have hpathsub : ∀ c ∈ path, c ∈ r4 := by
    rcases hpp_dec with hd | ⟨_, rfl⟩
    · intro c hc
      rw [hd]
      exact List.mem_append.mpr (Or.inl hc)
    · exact fun c hc => hc
  have hparsub : ∀ c ∈ params, c ∈ r4 := by
    rcases hpp_dec with hd | ⟨he, _⟩
    · intro c hc
      rw [hd]
      exact List.mem_append.mpr (Or.inr (List.mem_cons_of_mem _ hc))
    · intro c hc
      rw [he] at hc
      exact absurd hc (List.not_mem_nil c)
  have hr4h : '#' ∉ r4 := fun hm => hr3h (hr4sub '#' hm)
  have hr4l : ∀ c ∈ r4, c ∈ l := fun c hc => hsub c (hr3sub c (hr4sub c hc))
  have hfrsub : ∀ c ∈ fr, c ∈ rest2 := by
    rcases hfr_dec with hd | ⟨rfl, _⟩
    · intro c hc
      rw [hd]
      exact List.mem_append.mpr (Or.inr (List.mem_cons_of_mem _ hc))
    · intro c hc
      exact absurd hc (List.not_mem_nil c)
  have hqsub : ∀ c ∈ q, c ∈ r3 := by
    rcases hq_dec with hd | ⟨rfl, _⟩
    · intro c hc
      rw [hd]
      exact List.mem_append.mpr (Or.inr (List.mem_cons_of_mem _ hc))
    · intro c hc
      exact absurd hc (List.not_mem_nil c)
  -- rest2 = r4 ++ Z
  obtain ⟨Z, hZ⟩ : ∃ Z, rest2 = r4 ++ Z := by
    rcases hq_dec with hd2 | ⟨_, rfl⟩
    · rcases hfr_dec with hd1 | ⟨_, rfl⟩
      · exact ⟨'?' :: q ++ '#' :: fr, by rw [hd1, hd2, List.append_assoc]⟩
      · exact ⟨'?' :: q, hd2⟩
    · rcases hfr_dec with hd1 | ⟨_, rfl⟩
      · exact ⟨'#' :: fr, hd1⟩
      · exact ⟨[], (List.append_nil r4).symm⟩
  -- the '/'-headed dichotomy for r4 under the authority-style branch
  have hDL : (rest2 = [] ∨ ∃ c r, rest2 = c :: r ∧ (c == '/' || c == '?' || c == '#') = true) →
      r4 = [] ∨ ∃ t, r4 = '/' :: t := by
    intro hL
    rcases hr4e : r4 with _ | ⟨c, t⟩
    · exact Or.inl rfl
    · right
      rw [hr4e] at hZ
      rcases hL with hre | ⟨c2, r2, hre, hc2⟩
      · rw [hre] at hZ
        exact absurd hZ.symm (by simp)
      · rw [hre] at hZ
        have hcc : c2 = c := List.head_eq_of_cons_eq hZ
        subst hcc
        simp only [Bool.or_eq_true, beq_iff_eq] at hc2
        rcases hc2 with (rfl | rfl) | rfl
        · exact ⟨t, rfl⟩
        · exact absurd (hr4e ▸ List.mem_cons_self _ _) hr4q
        · exact absurd (hr4e ▸ List.mem_cons_self _ _) hr4h
  -- path shape under the dichotomy
  have hPS : (r4 = [] ∨ ∃ t, r4 = '/' :: t) →
      (path = [] ∧ params = []) ∨ (∃ t, path = '/' :: t) := by
    intro hd
    rcases hd with hr4e | ⟨t, hr4e⟩
    · rcases hpp_dec with hdp | ⟨hp1, hp2e⟩
      · rw [hr4e] at hdp
        exact absurd hdp.symm (by simp)
      · exact Or.inl ⟨by rw [hp2e, hr4e], hp1⟩
    · rcases hpp_dec with hdp | ⟨hp1, hp2e⟩
      · rw [hr4e] at hdp
        rcases hpath : path with _ | ⟨pc, pt⟩
        · rw [hpath, List.nil_append] at hdp
          exact absurd (List.head_eq_of_cons_eq hdp) (by decide)
        · right
          rw [hpath, List.cons_append] at hdp
          have hpc2 : '/' = pc := List.head_eq_of_cons_eq hdp
          exact ⟨pt, by rw [← hpc2]⟩
      · right
        rw [hr4e] at hp2e
        exact ⟨t, hp2e⟩
  refine ⟨hshape, ?_, hnet_ok, ?_, ?_, ?_, ?_, hpp_nos, ?_, ?_, hpp_sch, hpp_seg, ?_, htrn_s,
    hnet_trn, ?_, ?_, ?_⟩
  · -- scheme_free
    intro hs0
    show schemeFreeB (if params.isEmpty then path else path ++ ';' :: params) = true
    rcases hmix with hL | ⟨_, hR⟩
    · rcases hPS (hDL hL) with ⟨hp1, hp2e⟩ | ⟨t, hpe⟩
      · apply schemeFreeB_slash
        rw [hp1, hp2e]
        exact Or.inl rfl
      · apply schemeFreeB_slash
        right
        by_cases he : params.isEmpty = true
        · rw [if_pos he, hpe]
          exact ⟨t, rfl⟩
        · rw [if_neg he, hpe]
          exact ⟨t ++ ';' :: params, rfl⟩
    · have hSF : schemeFreeB rest2 = true := (hR hs0).1
      have hSF4 : schemeFreeB r4 = true := by
        rw [hZ] at hSF
        exact schemeFree_cat r4 Z hSF
      by_cases he : params.isEmpty = true
      · rw [if_pos he]
        rcases hpp_dec with hdp | ⟨_, hp2e⟩
        · have hpe : params = [] := by
            rcases hparams : params with _ | _
            · rfl
            · rw [hparams] at he
              exact absurd he (by simp)
          rw [hpe] at hdp
          rw [hdp] at hSF4
          exact schemeFree_cat path [';'] hSF4
        · rw [hp2e]
          exact hSF4
      · rw [if_neg he]
        rcases hpp_dec with hdp | ⟨hp1, _⟩
        · rw [← hdp]
          exact hSF4
        · rw [hp1] at he
          exact absurd rfl he
  · -- path_no_q
    exact fun hm => hr4q (hpathsub '?' hm)
  · -- path_no_h
    exact fun hm => hr4h (hpathsub '#' hm)
  · -- params_no_q
    exact fun hm => hr4q (hparsub '?' hm)
  · -- params_no_h
    exact fun hm => hr4h (hparsub '#' hm)
  · -- netloc_path
    intro hnl
    have hL : rest2 = [] ∨ ∃ c r, rest2 = c :: r ∧ (c == '/' || c == '?' || c == '#') = true := by
      rcases hmix with hL | ⟨hn0, _⟩
      · exact hL
      · exact absurd hn0 hnl
    rcases hPS (hDL hL) with ⟨hp1, _⟩ | ⟨t, hpe⟩
    · exact Or.inl hp1
    · exact Or.inr ⟨t, hpe⟩
  · -- netloc_params
    intro hnl hpath0
    have hp0 : path = [] := hpath0
    have hL : rest2 = [] ∨ ∃ c r, rest2 = c :: r ∧ (c == '/' || c == '?' || c == '#') = true := by
      rcases hmix with hL | ⟨hn0, _⟩
      · exact hL
      · exact absurd hn0 hnl
    rcases hPS (hDL hL) with ⟨_, hp2e⟩ | ⟨t, hpe⟩
    · exact hp2e
    · rw [hp0] at hpe
      exact absurd hpe (by simp)
  · -- head_ok
    intro hs0 _
    rcases hmix with hL | ⟨_, hR⟩
    · rcases hPS (hDL hL) with ⟨hp1, _⟩ | ⟨t, hpe⟩
      · rw [hp1]
        rfl
      · rw [hpe]
        show decide (0x20 < ('/' : Char).toNat) = true
        decide
    · have hGr2 : headGt rest2 = true := (hR hs0).2
      rcases hpath : path with _ | ⟨pc, pt⟩
      · rfl
      · have hr4c : ∃ t2, r4 = pc :: t2 := by
          rcases hpp_dec with hdp | ⟨_, hp2e⟩
          · exact ⟨pt ++ ';' :: params, by rw [hdp, hpath]; rfl⟩
          · rw [hpath] at hp2e
            exact ⟨pt, hp2e.symm⟩
        obtain ⟨t2, hr4c⟩ := hr4c
        rw [hr4c] at hZ
        rw [hZ] at hGr2
        exact hGr2
  · -- trn_path
    exact noTRN_of path fun c hc => noTRN_mem l hT c (hr4l c (hpathsub c hc))
  · -- trn_params
    exact noTRN_of params fun c hc => noTRN_mem l hT c (hr4l c (hparsub c hc))
  · -- trn_frag
    exact noTRN_of fr fun c hc => noTRN_mem l hT c (hsub c (hfrsub c hc))


theorem parse_facts_tail (scheme rest1 l : Chars)
    (hshape : scheme = [] ∨ ∃ c cs, scheme = c :: cs ∧ c.isAlpha = true ∧
      scheme.all isSchemeChar = true ∧ lowerS scheme = scheme)
    (htrn_s : noTRN scheme = true)
    (hsub : ∀ c ∈ rest1, c ∈ l)
    (hT : noTRN l = true)
    (hschF : scheme = [] → schemeFreeB rest1 = true)
    (hhead : scheme = [] → headGt rest1 = true) :
    ParseFacts (parseTail scheme rest1) := by
  rw [parseTail]
  by_cases hnb : isPrefixL "//".data rest1 = true
  · rw [if_pos hnb]
    obtain ⟨y, hy⟩ := (isPrefixL_two '/' '/' rest1).mp hnb
    have hdrop : rest1.drop 2 = y := by rw [hy]; rfl
    rw [hdrop]
    apply parse_facts_tail2 scheme ((splitNetlocC y).1) ((splitNetlocC y).2) l hshape htrn_s
    · intro c hc
      apply hsub
      rw [hy]
      exact List.mem_cons_of_mem _ (List.mem_cons_of_mem _ ((List.dropWhile_sublist _).mem hc))
    · exact hT
    · intro c hc
      have h2 : c ∈ List.takeWhile (fun c => !(c == '/' || c == '?' || c == '#')) y := hc
      exact @List.mem_takeWhile_imp Char (fun c => !(c == '/' || c == '?' || c == '#')) y c h2
    · apply noTRN_of
      intro c hc
      apply noTRN_mem l hT
      apply hsub
      rw [hy]
      exact List.mem_cons_of_mem _ (List.mem_cons_of_mem _ ((List.takeWhile_sublist _).mem hc))
    · left
      rcases hr2 : y.dropWhile (fun c => !(c == '/' || c == '?' || c == '#')) with _ | ⟨c, r⟩
      · exact Or.inl hr2
      · right
        refine ⟨c, r, hr2, ?_⟩
        have hpc2 : (!(c == '/' || c == '?' || c == '#')) = false :=
          dropWhile_head_false _ y c r hr2
        rcases hb : (c == '/' || c == '?' || c == '#') with _ | _
        · rw [hb] at hpc2
          exact absurd hpc2 (by decide)
        · rfl
  · rw [if_neg hnb]
    apply parse_facts_tail2 scheme [] rest1 l hshape htrn_s hsub hT
    · intro c hc
      exact absurd hc (List.not_mem_nil c)
    · rfl
    · right
      exact ⟨rfl, fun hs0 => ⟨hschF hs0, hhead hs0⟩⟩

theorem parse_facts (l : Chars) (hT : noTRN l = true) (hG : headGt l = true) :
    ParseFacts (urlparseCore l) := by
  rw [urlparseCore_eq]
  rcases splitSchemeC_spec l with hs | ⟨pre, post, c0, cs0, hl, hpre, halpha, hall, hs⟩
  · rw [hs]
    apply parse_facts_tail [] l l (Or.inl rfl) rfl (fun c hc => hc) hT
    · intro _
      exact splitSchemeC_schemeFree l (by rw [hs])
    · intro _
      exact hG
  · rw [hs]
    apply parse_facts_tail (lowerS pre) post l
    · right
      refine ⟨c0.toLower, lowerS cs0, by rw [hpre]; rfl, toLower_alpha c0 halpha, ?_,
        lowerS_idem pre⟩
      show (pre.map Char.toLower).all isSchemeChar = true
      rw [List.all_map]
      rw [List.all_eq_true]
      intro c2 hc2
      exact toLower_schemeChar c2 ((List.all_eq_true.mp hall) c2 hc2)
    · apply noTRN_of
      intro c hc
      obtain ⟨c2, hc2, rfl⟩ := List.mem_map.mp hc
      have h1 := noTRN_mem l hT c2 (by rw [hl]; exact List.mem_append.mpr (Or.inl hc2))
      have h2 := toLower_trn c2 (by simpa using h1)
      simpa using h2
    · intro c hc
      rw [hl]
      exact List.mem_append.mpr (Or.inr (List.mem_cons_of_mem _ hc))
    · exact hT
    · intro hs0
      rw [hpre] at hs0
      exact absurd hs0 (by simp [lowerS])
    · intro hs0
      rw [hpre] at hs0
      exact absurd hs0 (by simp [lowerS])


/-! ### Reconstruction: shape of `urlunsplit` output and its re-parse. -/

theorem urlunsplitC_shape (scheme netloc B q f U1 : Chars)
    (hU1 : U1 = if (!netloc.isEmpty || (!scheme.isEmpty && scheme ∈ uses_netlocC &&
        !isPrefixL "//".data B)) = true then
        '/' :: '/' :: (netloc ++ (if (!B.isEmpty && !isPrefixL "/".data B) = true
          then '/' :: B else B))
      else B) :
    urlunsplitC scheme netloc B q f =
      (if scheme.isEmpty then U1 else scheme ++ ':' :: U1) ++
        ((if q.isEmpty then [] else '?' :: q) ++ (if f.isEmpty then [] else '#' :: f)) := by
  rw [urlunsplitC, ← hU1]
  by_cases hq : q.isEmpty = true
  · rw [if_pos hq, if_pos hq]
    by_cases hf : f.isEmpty = true
    · rw [if_pos hf, if_pos hf, List.nil_append, List.append_nil]
    · rw [if_neg hf, if_neg hf, List.nil_append]
  · rw [if_neg hq, if_neg hq]
    by_cases hf : f.isEmpty = true
    · rw [if_pos hf, if_pos hf, List.append_nil]
    · rw [if_neg hf, if_neg hf, List.append_assoc, List.cons_append]

theorem qp_shape (q f : Chars) :
    ((if q.isEmpty then [] else '?' :: q) ++ (if f.isEmpty then [] else '#' :: f)) = [] ∨
    (∃ r, ((if q.isEmpty then [] else '?' :: q) ++ (if f.isEmpty then [] else '#' :: f)) =
      '?' :: r) ∨
    (∃ r, ((if q.isEmpty then [] else '?' :: q) ++ (if f.isEmpty then [] else '#' :: f)) =
      '#' :: r) := by
  by_cases hq : q.isEmpty = true
  · rw [if_pos hq]
    by_cases hf : f.isEmpty = true
    · rw [if_pos hf]
      exact Or.inl rfl
    · rw [if_neg hf]
      exact Or.inr (Or.inr ⟨f, rfl⟩)
  · rw [if_neg hq]
    exact Or.inr (Or.inl ⟨q ++ (if f.isEmpty then [] else '#' :: f), rfl⟩)

theorem parseTail2_recon (scheme netloc2 B q f : Chars)
    (hBq : '?' ∉ B) (hBh : '#' ∉ B) (hqh : '#' ∉ q) :
    parseTail2 scheme netloc2
      (B ++ ((if q.isEmpty then [] else '?' :: q) ++ (if f.isEmpty then [] else '#' :: f))) =
      ⟨scheme, netloc2,
        (if scheme ∈ uses_paramsC && B.contains ';' then splitParamsC B else (B, [])).1,
        (if scheme ∈ uses_paramsC && B.contains ';' then splitParamsC B else (B, [])).2,
        q, f⟩ := by
  rcases f with _ | ⟨fc, fr0⟩ <;> rcases q with _ | ⟨qc, qr0⟩
  · show parseTail2 scheme netloc2 (B ++ (([] : Chars) ++ [])) = _
    rw [show B ++ (([] : Chars) ++ []) = B by simp]
    simp only [parseTail2, breakAt_not_mem '#' B hBh, breakAt_not_mem '?' B hBq]
  · show parseTail2 scheme netloc2 (B ++ ('?' :: (qc :: qr0) ++ [])) = _
    rw [List.append_nil]
    have hq3 : '#' ∉ B ++ '?' :: (qc :: qr0) := by
      intro hm
      rcases List.mem_append.mp hm with h1 | h2
      · exact hBh h1
      · rcases List.mem_cons.mp h2 with he | hm2
        · exact absurd he (by decide)
        · exact hqh hm2
    simp only [parseTail2, breakAt_not_mem '#' _ hq3, breakAt_left '?' B (qc :: qr0) hBq]
  · show parseTail2 scheme netloc2 (B ++ (([] : Chars) ++ '#' :: (fc :: fr0))) = _
    rw [List.nil_append]
    simp only [parseTail2, breakAt_left '#' B (fc :: fr0) hBh, breakAt_not_mem '?' B hBq]
  · show parseTail2 scheme netloc2
      (B ++ ('?' :: (qc :: qr0) ++ '#' :: (fc :: fr0))) = _
    rw [← List.append_assoc]
    have hq3 : '#' ∉ B ++ '?' :: (qc :: qr0) := by
      intro hm
      rcases List.mem_append.mp hm with h1 | h2
      · exact hBh h1
      · rcases List.mem_cons.mp h2 with he | hm2
        · exact absurd he (by decide)
        · exact hqh hm2
    simp only [parseTail2, breakAt_left '#' _ (fc :: fr0) hq3,
      breakAt_left '?' B (qc :: qr0) hBq]

theorem pp_resolve (scheme P2 params : Chars)
    (hseg : scheme ∈ uses_paramsC → lastSegOK P2 = true) (hnos : '/' ∉ params)
    (hps : params ≠ [] → scheme ∈ uses_paramsC) :
    (if scheme ∈ uses_paramsC &&
        (if params.isEmpty then P2 else P2 ++ ';' :: params).contains ';' then
      splitParamsC (if params.isEmpty then P2 else P2 ++ ';' :: params)
    else (if params.isEmpty then P2 else P2 ++ ';' :: params, [])) = (P2, params) := by
  by_cases hpe : params.isEmpty = true
  · have hp0 : params = [] := by
      rcases params with _ | _
      · rfl
      · exact absurd hpe (by simp)
    rw [if_pos hpe]
    by_cases hcond : (scheme ∈ uses_paramsC && P2.contains ';') = true
    · have hmem : scheme ∈ uses_paramsC := by
        rw [Bool.and_eq_true, decide_eq_true_eq] at hcond
        exact hcond.1
      rw [if_pos hcond, lastSegOK_noop P2 (hseg hmem), hp0]
    · rw [if_neg hcond, hp0]
  · have hpne : params ≠ [] := by
      rcases params with _ | _
      · exact absurd (rfl : List.isEmpty ([] : Chars) = true) hpe
      · exact fun hh => List.noConfusion hh
    rw [if_neg hpe]
    have hcond : (scheme ∈ uses_paramsC && (P2 ++ ';' :: params).contains ';') = true := by
      rw [Bool.and_eq_true, decide_eq_true_eq]
      exact ⟨hps hpne,
        List.elem_iff.mpr (List.mem_append.mpr (Or.inr (List.mem_cons_self _ _)))⟩
    rw [if_pos hcond, lastSegOK_join P2 params (hseg (hps hpne)) hnos]

theorem noTRN_append (a b : Chars) (ha : noTRN a = true) (hb : noTRN b = true) :
    noTRN (a ++ b) = true := by
  apply noTRN_of
  intro c hc
  rcases List.mem_append.mp hc with h1 | h2
  · exact noTRN_mem a ha c h1
  · exact noTRN_mem b hb c h2

theorem noTRN_cons (c : Char) (r : Chars)
    (hc : (!(c == '\t' || c == '\r' || c == '\n')) = true) (hr : noTRN r = true) :
    noTRN (c :: r) = true := by
  apply noTRN_of
  intro x hx
  rcases List.mem_cons.mp hx with rfl | hm
  · exact hc
  · exact noTRN_mem r hr x hm

theorem headGt_app (a b : Chars) (ha : headGt a = true) (hb : headGt b = true) :
    headGt (a ++ b) = true := by
  rcases a with _ | ⟨c, r⟩
  · exact hb
  · exact ha

theorem alpha_gt (c : Char) (h : c.isAlpha = true) : 0x20 < c.toNat := by
  rw [char_isAlpha_nat] at h
  omega

theorem okQuery_trn (c : Char) (h : okQueryChar c = true) :
    (!(c == '\t' || c == '\r' || c == '\n')) = true := by
  obtain ⟨_, _, h3, h4, h5, _, _⟩ := okQuery_ne c h
  simp only [Bool.not_eq_true', Bool.or_eq_false_iff, beq_eq_false_iff_ne]
  exact ⟨⟨h3, h4⟩, h5⟩

theorem okQuery_noTRN (q : Chars) (h : ∀ c ∈ q, okQueryChar c = true) : noTRN q = true :=
  noTRN_of q fun c hc => okQuery_trn c (h c hc)



/-! ### Per-case reconstruction of `urlunparse` output under re-parsing. -/

theorem blob_not_mem (path params : Chars) (c : Char) (h1 : c ∉ path) (h2 : c ∉ params)
    (h3 : c ≠ ';') : c ∉ (if params.isEmpty then path else path ++ ';' :: params) := by
  by_cases hpe : params.isEmpty = true
  · rw [if_pos hpe]
    exact h1
  · rw [if_neg hpe]
    intro hm
    rcases List.mem_append.mp hm with hm1 | hm2
    · exact h1 hm1
    · rcases List.mem_cons.mp hm2 with he | hm3
      · exact h3 he
      · exact h2 hm3

theorem blob_trn (path params : Chars) (h1 : noTRN path = true) (h2 : noTRN params = true) :
    noTRN (if params.isEmpty then path else path ++ ';' :: params) = true := by
  by_cases hpe : params.isEmpty = true
  · rw [if_pos hpe]
    exact h1
  · rw [if_neg hpe]
    exact noTRN_append _ _ h1 (noTRN_cons ';' params (by decide) h2)

theorem qp_trn (query frag : Chars) (hq : ∀ c ∈ query, okQueryChar c = true)
    (hft : noTRN frag = true) :
    noTRN ((if query.isEmpty then [] else '?' :: query) ++
      (if frag.isEmpty then [] else '#' :: frag)) = true := by
  apply noTRN_append
  · by_cases hqe : query.isEmpty = true
    · rw [if_pos hqe]
      rfl
    · rw [if_neg hqe]
      exact noTRN_cons '?' query (by decide) (okQuery_noTRN query hq)
  · by_cases hfe : frag.isEmpty = true
    · rw [if_pos hfe]
      rfl
    · rw [if_neg hfe]
      exact noTRN_cons '#' frag (by decide) hft

theorem qp_headGt (query frag : Chars) :
    headGt ((if query.isEmpty then [] else '?' :: query) ++
      (if frag.isEmpty then [] else '#' :: frag)) = true := by
  rcases qp_shape query frag with h0 | ⟨r, hr⟩ | ⟨r, hr⟩
  · rw [h0]
    rfl
  · rw [hr]
    rfl
  · rw [hr]
    rfl

theorem reconstruct_A (scheme netloc path params query frag : Chars)
    (hf : ParseFacts ⟨scheme, netloc, path, params, query, frag⟩)
    (hq : ∀ c ∈ query, okQueryChar c = true)
    (hn : netloc ≠ []) :
    sanitizeUrl (urlunparseC ⟨scheme, netloc, path, params, query, frag⟩) =
      urlunparseC ⟨scheme, netloc, path, params, query, frag⟩ ∧
    urlparseCore (urlunparseC ⟨scheme, netloc, path, params, query, frag⟩) =
      ⟨scheme, netloc, path, params, query, frag⟩ := by
  have hF1 : scheme = [] ∨ ∃ c cs, scheme = c :: cs ∧ c.isAlpha = true ∧
      scheme.all isSchemeChar = true ∧ lowerS scheme = scheme := hf.scheme_shape
  have hF3 : ∀ c ∈ netloc, (!(c == '/' || c == '?' || c == '#')) = true := hf.netloc_ok
  have hF4 : '?' ∉ path := hf.path_no_q
  have hF5 : '#' ∉ path := hf.path_no_h
  have hF6 : '?' ∉ params := hf.params_no_q
  have hF7 : '#' ∉ params := hf.params_no_h
  have hF8 : '/' ∉ params := hf.params_no_s
  have hF9 : netloc ≠ [] → path = [] ∨ ∃ r, path = '/' :: r := hf.netloc_path
  have hF10 : netloc ≠ [] → path = [] → params = [] := hf.netloc_params
  have hF11 : params ≠ [] → scheme ∈ uses_paramsC := hf.params_scheme
  have hF12 : scheme ∈ uses_paramsC → lastSegOK path = true := hf.params_seg
  have hF13 : noTRN scheme = true := hf.trn_scheme
  have hF14 : noTRN netloc = true := hf.trn_netloc
  have hF15 : noTRN path = true := hf.trn_path
  have hF16 : noTRN params = true := hf.trn_params
  have hF17 : noTRN frag = true := hf.trn_frag
  obtain ⟨BLOB, hBLOB⟩ : ∃ b, (if params.isEmpty then path else path ++ ';' :: params) = b :=
    ⟨_, rfl⟩
  obtain ⟨QP, hQP⟩ : ∃ z, ((if query.isEmpty then [] else '?' :: query) ++
      (if frag.isEmpty then [] else '#' :: frag)) = z := ⟨_, rfl⟩
  have hblob : BLOB = [] ∨ ∃ t, BLOB = '/' :: t := by
    rw [← hBLOB]
    rcases hF9 hn with hp0 | ⟨r, hpr⟩
    · have hpar0 : params = [] := hF10 hn hp0
      rw [hp0, hpar0]
      exact Or.inl (if_pos rfl)
    · right
      by_cases hpe : params.isEmpty = true
      · rw [if_pos hpe, hpr]
        exact ⟨r, rfl⟩
      · rw [if_neg hpe, hpr]
        exact ⟨r ++ ';' :: params, rfl⟩
  have hcond : (!netloc.isEmpty || (!scheme.isEmpty && scheme ∈ uses_netlocC &&
      !isPrefixL "//".data BLOB)) = true := by
    rcases netloc with _ | ⟨nc, nr⟩
    · exact absurd rfl hn
    · rfl
  have hinner : (if (!BLOB.isEmpty && !isPrefixL "/".data BLOB) = true then '/' :: BLOB
      else BLOB) = BLOB := by
    rcases hblob with hb0 | ⟨t, hbt⟩
    · rw [hb0]
      rfl
    · rw [hbt, if_neg]
      intro hc
      rw [Bool.and_eq_true] at hc
      have h2 := hc.2
      rw [show isPrefixL "/".data ('/' :: t) = true from rfl] at h2
      exact absurd h2 (by decide)
  have hU1 : ('/' :: '/' :: (netloc ++ BLOB) : Chars) =
      (if (!netloc.isEmpty || (!scheme.isEmpty && scheme ∈ uses_netlocC &&
          !isPrefixL "//".data BLOB)) = true then
        '/' :: '/' :: (netloc ++ (if (!BLOB.isEmpty && !isPrefixL "/".data BLOB) = true
          then '/' :: BLOB else BLOB))
      else BLOB) := by
    rw [if_pos hcond, hinner]
  have hv : urlunparseC ⟨scheme, netloc, path, params, query, frag⟩ =
      (if scheme.isEmpty then '/' :: '/' :: (netloc ++ BLOB)
        else scheme ++ ':' :: ('/' :: '/' :: (netloc ++ BLOB))) ++ QP := by
    rw [show urlunparseC ⟨scheme, netloc, path, params, query, frag⟩ =
      urlunsplitC scheme netloc (if params.isEmpty then path else path ++ ';' :: params)
        query frag from rfl, hBLOB, ← hQP]
    exact urlunsplitC_shape scheme netloc BLOB query frag _ hU1
  have hqh : '#' ∉ query := fun hm => (okQuery_ne '#' (hq '#' hm)).1 rfl
  have hBq : '?' ∉ BLOB := by
    rw [← hBLOB]
    exact blob_not_mem path params '?' hF4 hF6 (by decide)
  have hBh : '#' ∉ BLOB := by
    rw [← hBLOB]
    exact blob_not_mem path params '#' hF5 hF7 (by decide)
  have htail : (BLOB ++ QP) = [] ∨ ∃ c r, (BLOB ++ QP) = c :: r ∧
      (fun c => !(c == '/' || c == '?' || c == '#')) c = false := by
    rcases hblob with hb0 | ⟨t, hbt⟩
    · rw [hb0, List.nil_append]
      rcases qp_shape query frag with h0 | ⟨r, hr⟩ | ⟨r, hr⟩
      · rw [hQP] at h0
        exact Or.inl h0
      · rw [hQP] at hr
        exact Or.inr ⟨'?', r, hr, by decide⟩
      · rw [hQP] at hr
        exact Or.inr ⟨'#', r, hr, by decide⟩
    · rw [hbt]
      exact Or.inr ⟨'/', t ++ QP, rfl, by decide⟩
  have hsplitn : splitNetlocC (netloc ++ (BLOB ++ QP)) = (netloc, BLOB ++ QP) := by
    obtain ⟨h1, h2⟩ := takeWhile_app (fun c => !(c == '/' || c == '?' || c == '#'))
      netloc (BLOB ++ QP) hF3 htail
    rw [splitNetlocC, h1, h2]
  have hPT2 : parseTail2 scheme netloc (BLOB ++ QP) =
      ⟨scheme, netloc, path, params, query, frag⟩ := by
    rw [← hQP, parseTail2_recon scheme netloc BLOB query frag hBq hBh hqh, ← hBLOB,
      pp_resolve scheme path params hF12 hF8 hF11]
  have hparse : urlparseCore (urlunparseC ⟨scheme, netloc, path, params, query, frag⟩) =
      ⟨scheme, netloc, path, params, query, frag⟩ := by
    rw [hv]
    rcases hF1 with hs0 | ⟨c0, cs0, hsc, hal, hschall, hlow⟩
    · rw [hs0]
      rw [show ((if List.isEmpty ([] : Chars) = true then '/' :: '/' :: (netloc ++ BLOB)
        else [] ++ ':' :: ('/' :: '/' :: (netloc ++ BLOB))) : Chars) =
        '/' :: '/' :: (netloc ++ BLOB) from rfl]
      rw [show (('/' :: '/' :: (netloc ++ BLOB)) ++ QP : Chars) =
        '/' :: '/' :: (netloc ++ (BLOB ++ QP)) by simp [List.append_assoc]]
      rw [urlparseCore_eq, splitSchemeC_head '/' _ (by decide) (by decide)]
      show parseTail [] ('/' :: '/' :: (netloc ++ (BLOB ++ QP))) = _
      rw [parseTail, if_pos ((isPrefixL_two '/' '/' _).mpr ⟨netloc ++ (BLOB ++ QP), rfl⟩)]
      rw [show (('/' :: '/' :: (netloc ++ (BLOB ++ QP))).drop 2 : Chars) =
        netloc ++ (BLOB ++ QP) from rfl]
      rw [hsplitn]
      rw [hs0] at hPT2
      exact hPT2
    · have hse : scheme.isEmpty = false := by
        rw [hsc]
        rfl
      rw [if_neg (by rw [hse]; exact Bool.false_ne_true)]
      rw [show ((scheme ++ ':' :: ('/' :: '/' :: (netloc ++ BLOB))) ++ QP : Chars) =
        scheme ++ ':' :: ('/' :: '/' :: (netloc ++ (BLOB ++ QP))) by
          simp [List.append_assoc]]
      rw [urlparseCore_eq, splitSchemeC_scheme scheme _ c0 cs0 hsc hal hschall hlow]
      show parseTail scheme ('/' :: '/' :: (netloc ++ (BLOB ++ QP))) = _
      rw [parseTail, if_pos ((isPrefixL_two '/' '/' _).mpr ⟨netloc ++ (BLOB ++ QP), rfl⟩)]
      rw [show (('/' :: '/' :: (netloc ++ (BLOB ++ QP))).drop 2 : Chars) =
        netloc ++ (BLOB ++ QP) from rfl]
      rw [hsplitn]
      exact hPT2
  refine ⟨?_, hparse⟩
  have hBtrn : noTRN BLOB = true := by
    rw [← hBLOB]
    exact blob_trn path params hF15 hF16
  have hQtrn : noTRN QP = true := by
    rw [← hQP]
    exact qp_trn query frag hq hF17
  have hQgt : headGt QP = true := by
    rw [← hQP]
    exact qp_headGt query frag
  rw [hv]
  apply sanitize_id
  · apply noTRN_append _ _ _ hQtrn
    have hu1t : noTRN ('/' :: '/' :: (netloc ++ BLOB)) = true :=
      noTRN_cons '/' _ (by decide) (noTRN_cons '/' _ (by decide)
        (noTRN_append _ _ hF14 hBtrn))
    by_cases hse : scheme.isEmpty = true
    · rw [if_pos hse]
      exact hu1t
    · rw [if_neg hse]
      exact noTRN_append _ _ hF13 (noTRN_cons ':' _ (by decide) hu1t)
  · apply headGt_app _ _ _ hQgt
    by_cases hse : scheme.isEmpty = true
    · rw [if_pos hse]
      rfl
    · rw [if_neg hse]
      rcases hF1 with hs0 | ⟨c0, cs0, hsc, hal, _, _⟩
      · rw [hs0] at hse
        exact absurd rfl hse
      · rw [hsc, List.cons_append]
        show decide (0x20 < c0.toNat) = true
        rw [decide_eq_true_eq]
        exact alpha_gt c0 hal


theorem isPrefixL_one (c : Char) (x : Chars) :
    isPrefixL [c] x = true ↔ ∃ y, x = c :: y := by
  rcases x with _ | ⟨a, r⟩
  · constructor
    · intro h
      exact Bool.noConfusion h
    · rintro ⟨y, hy⟩
      exact absurd hy (by simp)
  · constructor
    · intro h
      have h3 : ((c == a) && isPrefixL [] r) = true := h
      rcases hca : c == a with _ | _
      · rw [hca, Bool.false_and] at h3
        exact absurd h3 (by decide)
      · exact ⟨r, by rw [← eq_of_beq hca]⟩
    · rintro ⟨y, hy⟩
      have h1 : a = c := List.head_eq_of_cons_eq hy
      show ((c == a) && isPrefixL [] r) = true
      rw [h1, beq_self_eq_true]
      rfl

theorem no_dslash_app (B QP : Chars) (hB : isPrefixL "//".data B = false)
    (hQP : QP = [] ∨ (∃ r, QP = '?' :: r) ∨ (∃ r, QP = '#' :: r)) :
    isPrefixL "//".data (B ++ QP) = false := by
  rcases B with _ | ⟨c1, B1⟩
  · rcases hQP with rfl | ⟨r, rfl⟩ | ⟨r, rfl⟩
    · rfl
    · rfl
    · rfl
  · rcases B1 with _ | ⟨c2, B2⟩
    · have h2 : isPrefixL "/".data QP = false := by
        rcases hQP with rfl | ⟨r, rfl⟩ | ⟨r, rfl⟩
        · rfl
        · rfl
        · rfl
      show (('/' == c1) && isPrefixL "/".data QP) = false
      rw [h2, Bool.and_false]
    · show (('/' == c1) && (('/' == c2) && isPrefixL [] (B2 ++ QP))) = false
      have hB2 : (('/' == c1) && (('/' == c2) && isPrefixL [] B2)) = false := hB
      rw [show isPrefixL [] (B2 ++ QP) = true from rfl]
      rw [show isPrefixL [] B2 = true from rfl] at hB2
      exact hB2

theorem blob_headGt (path params : Chars) (h : headGt path = true) :
    headGt (if params.isEmpty then path else path ++ ';' :: params) = true := by
  by_cases hpe : params.isEmpty = true
  · rw [if_pos hpe]
    exact h
  · rw [if_neg hpe]
    rcases path with _ | ⟨c, r⟩
    · rfl
    · exact h

theorem reconstruct_B (scheme netloc path params query frag : Chars)
    (hf : ParseFacts ⟨scheme, netloc, path, params, query, frag⟩)
    (hq : ∀ c ∈ query, okQueryChar c = true)
    (hn0 : netloc = [])
    (hns : scheme ≠ [])
    (hmem : scheme ∈ uses_netlocC)
    (hnp : isPrefixL "//".data path = false) :
    sanitizeUrl (urlunparseC ⟨scheme, netloc, path, params, query, frag⟩) =
      urlunparseC ⟨scheme, netloc, path, params, query, frag⟩ ∧
    ∃ P2, urlparseCore (urlunparseC ⟨scheme, netloc, path, params, query, frag⟩) =
        ⟨scheme, netloc, P2, params, query, frag⟩ ∧
      urlunparseC ⟨scheme, netloc, P2, params, query, frag⟩ =
        urlunparseC ⟨scheme, netloc, path, params, query, frag⟩ := by
  subst hn0
  have hF1 : scheme = [] ∨ ∃ c cs, scheme = c :: cs ∧ c.isAlpha = true ∧
      scheme.all isSchemeChar = true ∧ lowerS scheme = scheme := hf.scheme_shape
  have hF4 : '?' ∉ path := hf.path_no_q
  have hF5 : '#' ∉ path := hf.path_no_h
  have hF6 : '?' ∉ params := hf.params_no_q
  have hF7 : '#' ∉ params := hf.params_no_h
  have hF8 : '/' ∉ params := hf.params_no_s
  have hF11 : params ≠ [] → scheme ∈ uses_paramsC := hf.params_scheme
  have hF12 : scheme ∈ uses_paramsC → lastSegOK path = true := hf.params_seg
  have hF13 : noTRN scheme = true := hf.trn_scheme
  have hF15 : noTRN path = true := hf.trn_path
  have hF16 : noTRN params = true := hf.trn_params
  have hF17 : noTRN frag = true := hf.trn_frag
  obtain ⟨c0, cs0, hsc, hal, hschall, hlow⟩ : ∃ c cs, scheme = c :: cs ∧ c.isAlpha = true ∧
      scheme.all isSchemeChar = true ∧ lowerS scheme = scheme := by
    rcases hF1 with hs0 | hsh
    · exact absurd hs0 hns
    · exact hsh
  obtain ⟨BLOB, hBLOB⟩ : ∃ b, (if params.isEmpty then path else path ++ ';' :: params) = b :=
    ⟨_, rfl⟩
  obtain ⟨QP, hQP⟩ : ∃ z, ((if query.isEmpty then [] else '?' :: query) ++
      (if frag.isEmpty then [] else '#' :: frag)) = z := ⟨_, rfl⟩
  have hqh : '#' ∉ query := fun hm => (okQuery_ne '#' (hq '#' hm)).1 rfl
  have hBq : '?' ∉ BLOB := by
    rw [← hBLOB]
    exact blob_not_mem path params '?' hF4 hF6 (by decide)
  have hBh : '#' ∉ BLOB := by
    rw [← hBLOB]
    exact blob_not_mem path params '#' hF5 hF7 (by decide)
  have hBpref : isPrefixL "//".data BLOB = false := by
    rw [← hBLOB]
    have h2 : isPrefixL "//".data (if params.isEmpty then path else path ++ ';' :: params) =
        isPrefixL "//".data path := paramBlob_pref ⟨scheme, [], path, params, query, frag⟩
    rw [h2, hnp]
  have hBtrn : noTRN BLOB = true := by
    rw [← hBLOB]
    exact blob_trn path params hF15 hF16
  have hQtrn : noTRN QP = true := by
    rw [← hQP]
    exact qp_trn query frag hq hF17
  have hQgt : headGt QP = true := by
    rw [← hQP]
    exact qp_headGt query frag
  have hse : scheme.isEmpty = false := by
    rw [hsc]
    rfl
  have hcond : (!(([] : Chars).isEmpty) || (!scheme.isEmpty && scheme ∈ uses_netlocC &&
      !isPrefixL "//".data BLOB)) = true := by
    rw [hse, hBpref, decide_eq_true hmem]
    rfl
  have hkey : ∃ B2, (if (!BLOB.isEmpty && !isPrefixL "/".data BLOB) = true
        then '/' :: BLOB else BLOB) = B2 ∧
      (B2 = [] ∨ ∃ t, B2 = '/' :: t) ∧
      (B2 = BLOB ∨ (B2 = '/' :: BLOB ∧ isPrefixL "/".data BLOB = false)) := by
    by_cases hbe : BLOB.isEmpty = true
    · have hb0 : BLOB = [] := by
        rcases BLOB with _ | _
        · rfl
        · exact absurd hbe (by simp)
      refine ⟨BLOB, ?_, Or.inl hb0, Or.inl rfl⟩
      rw [hbe]
      rfl
    · by_cases hsl : isPrefixL "/".data BLOB = true
      · obtain ⟨t, ht⟩ := (isPrefixL_one '/' BLOB).mp hsl
        refine ⟨BLOB, ?_, Or.inr ⟨t, ht⟩, Or.inl rfl⟩
        rw [hsl, Bool.not_true, Bool.and_false]
        rfl
      · have hslf : isPrefixL "/".data BLOB = false := by
          rcases h2 : isPrefixL "/".data BLOB with _ | _
          · rfl
          · exact absurd h2 hsl
        have hbef : BLOB.isEmpty = false := by
          rcases h2 : BLOB.isEmpty with _ | _
          · rfl
          · exact absurd h2 hbe
        refine ⟨'/' :: BLOB, ?_, Or.inr ⟨BLOB, rfl⟩, Or.inr ⟨rfl, hslf⟩⟩
        rw [hbef, hslf]
        rfl
  obtain ⟨B2, hB2, hB2shape, hB2rel⟩ := hkey
  have hU1 : ('/' :: '/' :: B2 : Chars) =
      (if (!(([] : Chars).isEmpty) || (!scheme.isEmpty && scheme ∈ uses_netlocC &&
          !isPrefixL "//".data BLOB)) = true then
        '/' :: '/' :: (([] : Chars) ++ (if (!BLOB.isEmpty && !isPrefixL "/".data BLOB) = true
          then '/' :: BLOB else BLOB))
      else BLOB) := by
    rw [if_pos hcond, hB2, List.nil_append]
  have hv : urlunparseC ⟨scheme, [], path, params, query, frag⟩ =
      (if scheme.isEmpty then '/' :: '/' :: B2
        else scheme ++ ':' :: ('/' :: '/' :: B2)) ++ QP := by
    rw [show urlunparseC ⟨scheme, [], path, params, query, frag⟩ =
      urlunsplitC scheme [] (if params.isEmpty then path else path ++ ';' :: params)
        query frag from rfl, hBLOB, ← hQP]
    exact urlunsplitC_shape scheme [] BLOB query frag _ hU1
  have htail2 : (B2 ++ QP) = [] ∨ ∃ c r, (B2 ++ QP) = c :: r ∧
      (fun c => !(c == '/' || c == '?' || c == '#')) c = false := by
    rcases hB2shape with hb0 | ⟨t, hbt⟩
    · rw [hb0, List.nil_append]
      rcases qp_shape query frag with h0 | ⟨r, hr⟩ | ⟨r, hr⟩
      · rw [hQP] at h0
        exact Or.inl h0
      · rw [hQP] at hr
        exact Or.inr ⟨'?', r, hr, by decide⟩
      · rw [hQP] at hr
        exact Or.inr ⟨'#', r, hr, by decide⟩
    · rw [hbt]
      exact Or.inr ⟨'/', t ++ QP, rfl, by decide⟩
  have hsplitn : splitNetlocC (B2 ++ QP) = ([], B2 ++ QP) := by
    obtain ⟨h1, h2⟩ := takeWhile_app (fun c => !(c == '/' || c == '?' || c == '#'))
      [] (B2 ++ QP) (fun c hc => absurd hc (List.not_mem_nil c)) htail2
    have h3 : (B2 ++ QP).takeWhile (fun c => !(c == '/' || c == '?' || c == '#')) = [] := h1
    have h4 : (B2 ++ QP).dropWhile (fun c => !(c == '/' || c == '?' || c == '#')) =
      B2 ++ QP := h2
    rw [splitNetlocC, h3, h4]
  have hparse : urlparseCore (urlunparseC ⟨scheme, [], path, params, query, frag⟩) =
      parseTail2 scheme [] (B2 ++ QP) := by
    rw [hv, if_neg (by rw [hse]; exact Bool.false_ne_true)]
    rw [show ((scheme ++ ':' :: ('/' :: '/' :: B2)) ++ QP : Chars) =
      scheme ++ ':' :: ('/' :: '/' :: (B2 ++ QP)) by simp [List.append_assoc]]
    rw [urlparseCore_eq, splitSchemeC_scheme scheme _ c0 cs0 hsc hal hschall hlow]
    show parseTail scheme ('/' :: '/' :: (B2 ++ QP)) = _
    rw [parseTail, if_pos ((isPrefixL_two '/' '/' _).mpr ⟨B2 ++ QP, rfl⟩)]
    rw [show (('/' :: '/' :: (B2 ++ QP)).drop 2 : Chars) = B2 ++ QP from rfl]
    rw [hsplitn]
  rcases hB2rel with hB2eq | ⟨hB2eq, hslf⟩
  · subst hB2eq
    have hPT2 : parseTail2 scheme [] (B2 ++ QP) =
        ⟨scheme, [], path, params, query, frag⟩ := by
      rw [← hQP, parseTail2_recon scheme [] B2 query frag hBq hBh hqh, ← hBLOB,
        pp_resolve scheme path params hF12 hF8 hF11]
    refine ⟨?_, path, by rw [hparse, hPT2], rfl⟩
    rw [hv]
    apply sanitize_id
    · apply noTRN_append _ _ _ hQtrn
      rw [if_neg (by rw [hse]; exact Bool.false_ne_true)]
      exact noTRN_append _ _ hF13 (noTRN_cons ':' _ (by decide)
        (noTRN_cons '/' _ (by decide) (noTRN_cons '/' _ (by decide) hBtrn)))
    · apply headGt_app _ _ _ hQgt
      rw [if_neg (by rw [hse]; exact Bool.false_ne_true)]
      rw [hsc, List.cons_append]
      show decide (0x20 < c0.toNat) = true
      rw [decide_eq_true_eq]
      exact alpha_gt c0 hal
  · subst hB2eq
    have hcast : ('/' :: (if params.isEmpty then path else path ++ ';' :: params) : Chars) =
        (if params.isEmpty then '/' :: path else ('/' :: path) ++ ';' :: params) := by
      by_cases hpe : params.isEmpty = true
      · rw [if_pos hpe, if_pos hpe]
      · rw [if_neg hpe, if_neg hpe]
        rfl
    have hBq2 : '?' ∉ ('/' :: BLOB : Chars) := by
      intro hm
      rcases List.mem_cons.mp hm with he | hm2
      · exact absurd he (by decide)
      · exact hBq hm2
    have hBh2 : '#' ∉ ('/' :: BLOB : Chars) := by
      intro hm
      rcases List.mem_cons.mp hm with he | hm2
      · exact absurd he (by decide)
      · exact hBh hm2
    have hPT2 : parseTail2 scheme [] (('/' :: BLOB) ++ QP) =
        ⟨scheme, [], '/' :: path, params, query, frag⟩ := by
      rw [← hQP, parseTail2_recon scheme [] ('/' :: BLOB) query frag hBq2 hBh2 hqh]
      rw [show ('/' :: BLOB : Chars) =
        (if params.isEmpty then '/' :: path else ('/' :: path) ++ ';' :: params) by
          rw [← hcast, hBLOB]]
      rw [pp_resolve scheme ('/' :: path) params
        (fun hm => lastSegOK_slash path (hF12 hm)) hF8 hF11]
    refine ⟨?_, '/' :: path, by rw [hparse, hPT2], ?_⟩
    · rw [hv]
      apply sanitize_id
      · apply noTRN_append _ _ _ hQtrn
        rw [if_neg (by rw [hse]; exact Bool.false_ne_true)]
        exact noTRN_append _ _ hF13 (noTRN_cons ':' _ (by decide)
          (noTRN_cons '/' _ (by decide) (noTRN_cons '/' _ (by decide)
            (noTRN_cons '/' _ (by decide) hBtrn))))
      · apply headGt_app _ _ _ hQgt
        rw [if_neg (by rw [hse]; exact Bool.false_ne_true)]
        rw [hsc, List.cons_append]
        show decide (0x20 < c0.toNat) = true
        rw [decide_eq_true_eq]
        exact alpha_gt c0 hal
    · have hBLOB2 : (if params.isEmpty then '/' :: path
          else ('/' :: path) ++ ';' :: params) = ('/' :: BLOB : Chars) := by
        rw [← hcast, hBLOB]
      have hcond2 : (!(([] : Chars).isEmpty) || (!scheme.isEmpty && scheme ∈ uses_netlocC &&
          !isPrefixL "//".data ('/' :: BLOB))) = true := by
        rw [hse, decide_eq_true hmem,
          show isPrefixL "//".data ('/' :: BLOB) = isPrefixL "/".data BLOB from rfl, hslf]
        rfl
      have hinner2 : (if (!(('/' :: BLOB : Chars)).isEmpty &&
          !isPrefixL "/".data ('/' :: BLOB)) = true then '/' :: '/' :: BLOB
          else '/' :: BLOB) = '/' :: BLOB := by
        rw [show isPrefixL "/".data ('/' :: BLOB) = true from rfl, Bool.not_true,
          Bool.and_false]
        rfl
      have hU1b : ('/' :: '/' :: ('/' :: BLOB) : Chars) =
          (if (!(([] : Chars).isEmpty) || (!scheme.isEmpty && scheme ∈ uses_netlocC &&
              !isPrefixL "//".data ('/' :: BLOB))) = true then
            '/' :: '/' :: (([] : Chars) ++
              (if (!(('/' :: BLOB : Chars)).isEmpty &&
                  !isPrefixL "/".data ('/' :: BLOB)) = true
                then '/' :: ('/' :: BLOB) else '/' :: BLOB))
          else '/' :: BLOB) := by
        rw [if_pos hcond2, List.nil_append, hinner2]
      have hv2 : urlunparseC ⟨scheme, [], '/' :: path, params, query, frag⟩ =
          (if scheme.isEmpty then '/' :: '/' :: ('/' :: BLOB)
            else scheme ++ ':' :: ('/' :: '/' :: ('/' :: BLOB))) ++ QP := by
        rw [show urlunparseC ⟨scheme, [], '/' :: path, params, query, frag⟩ =
          urlunsplitC scheme []
            (if params.isEmpty then '/' :: path else ('/' :: path) ++ ';' :: params)
            query frag from rfl, hBLOB2, ← hQP]
        exact urlunsplitC_shape scheme [] ('/' :: BLOB) query frag _ hU1b
      rw [hv2, hv]

theorem reconstruct_CD (scheme netloc path params query frag : Chars)
    (hf : ParseFacts ⟨scheme, netloc, path, params, query, frag⟩)
    (hq : ∀ c ∈ query, okQueryChar c = true)
    (hn0 : netloc = [])
    (hnm : scheme = [] ∨ ¬ scheme ∈ uses_netlocC)
    (hnp : isPrefixL "//".data path = false) :
    sanitizeUrl (urlunparseC ⟨scheme, netloc, path, params, query, frag⟩) =
      urlunparseC ⟨scheme, netloc, path, params, query, frag⟩ ∧
    ∃ P2, urlparseCore (urlunparseC ⟨scheme, netloc, path, params, query, frag⟩) =
        ⟨scheme, netloc, P2, params, query, frag⟩ ∧
      urlunparseC ⟨scheme, netloc, P2, params, query, frag⟩ =
        urlunparseC ⟨scheme, netloc, path, params, query, frag⟩ := by
  subst hn0
  have hF1 : scheme = [] ∨ ∃ c cs, scheme = c :: cs ∧ c.isAlpha = true ∧
      scheme.all isSchemeChar = true ∧ lowerS scheme = scheme := hf.scheme_shape
  have hF2 : scheme = [] → schemeFreeB (if params.isEmpty then path
      else path ++ ';' :: params) = true := hf.scheme_free
  have hF4 : '?' ∉ path := hf.path_no_q
  have hF5 : '#' ∉ path := hf.path_no_h
  have hF6 : '?' ∉ params := hf.params_no_q
  have hF7 : '#' ∉ params := hf.params_no_h
  have hF8 : '/' ∉ params := hf.params_no_s
  have hF11 : params ≠ [] → scheme ∈ uses_paramsC := hf.params_scheme
  have hF12 : scheme ∈ uses_paramsC → lastSegOK path = true := hf.params_seg
  have hF13 : noTRN scheme = true := hf.trn_scheme
  have hF15 : noTRN path = true := hf.trn_path
  have hF16 : noTRN params = true := hf.trn_params
  have hF17 : noTRN frag = true := hf.trn_frag
  have hF18 : scheme = [] → headGt path = true := fun hs0 => hf.head_ok hs0 rfl
  obtain ⟨BLOB, hBLOB⟩ : ∃ b, (if params.isEmpty then path else path ++ ';' :: params) = b :=
    ⟨_, rfl⟩
  obtain ⟨QP, hQP⟩ : ∃ z, ((if query.isEmpty then [] else '?' :: query) ++
      (if frag.isEmpty then [] else '#' :: frag)) = z := ⟨_, rfl⟩
  have hqh : '#' ∉ query := fun hm => (okQuery_ne '#' (hq '#' hm)).1 rfl
  have hBq : '?' ∉ BLOB := by
    rw [← hBLOB]
    exact blob_not_mem path params '?' hF4 hF6 (by decide)
  have hBh : '#' ∉ BLOB := by
    rw [← hBLOB]
    exact blob_not_mem path params '#' hF5 hF7 (by decide)
  have hBpref : isPrefixL "//".data BLOB = false := by
    rw [← hBLOB]
    have h2 : isPrefixL "//".data (if params.isEmpty then path else path ++ ';' :: params) =
        isPrefixL "//".data path := paramBlob_pref ⟨scheme, [], path, params, query, frag⟩
    rw [h2, hnp]
  have hBtrn : noTRN BLOB = true := by
    rw [← hBLOB]
    exact blob_trn path params hF15 hF16
  have hQtrn : noTRN QP = true := by
    rw [← hQP]
    exact qp_trn query frag hq hF17
  have hQgt : headGt QP = true := by
    rw [← hQP]
    exact qp_headGt query frag
  have hQPshape : QP = [] ∨ (∃ r, QP = '?' :: r) ∨ (∃ r, QP = '#' :: r) := by
    rcases qp_shape query frag with h0 | ⟨r, hr⟩ | ⟨r, hr⟩
    · rw [hQP] at h0
      exact Or.inl h0
    · rw [hQP] at hr
      exact Or.inr (Or.inl ⟨r, hr⟩)
    · rw [hQP] at hr
      exact Or.inr (Or.inr ⟨r, hr⟩)
  have hcondf : (!(([] : Chars).isEmpty) || (!scheme.isEmpty && scheme ∈ uses_netlocC &&
      !isPrefixL "//".data BLOB)) = false := by
    rcases hnm with hs0 | hnmem
    · rw [hs0]
      rfl
    · rw [decide_eq_false hnmem, Bool.and_false, Bool.false_and]
      rfl
  have hU1 : BLOB =
      (if (!(([] : Chars).isEmpty) || (!scheme.isEmpty && scheme ∈ uses_netlocC &&
          !isPrefixL "//".data BLOB)) = true then
        '/' :: '/' :: (([] : Chars) ++ (if (!BLOB.isEmpty && !isPrefixL "/".data BLOB) = true
          then '/' :: BLOB else BLOB))
      else BLOB) := by
    rw [if_neg (by rw [hcondf]; exact Bool.false_ne_true)]
  have hv : urlunparseC ⟨scheme, [], path, params, query, frag⟩ =
      (if scheme.isEmpty then BLOB else scheme ++ ':' :: BLOB) ++ QP := by
    rw [show urlunparseC ⟨scheme, [], path, params, query, frag⟩ =
      urlunsplitC scheme [] (if params.isEmpty then path else path ++ ';' :: params)
        query frag from rfl, hBLOB, ← hQP]
    exact urlunsplitC_shape scheme [] BLOB query frag _ hU1
  have hdd : isPrefixL "//".data (BLOB ++ QP) = false :=
    no_dslash_app BLOB QP hBpref hQPshape
  have hPT2 : parseTail2 scheme [] (BLOB ++ QP) =
      ⟨scheme, [], path, params, query, frag⟩ := by
    rw [← hQP, parseTail2_recon scheme [] BLOB query frag hBq hBh hqh, ← hBLOB,
      pp_resolve scheme path params hF12 hF8 hF11]
  have hparse : urlparseCore (urlunparseC ⟨scheme, [], path, params, query, frag⟩) =
      ⟨scheme, [], path, params, query, frag⟩ := by
    rw [hv]
    rcases hF1 with hs0 | ⟨c0, cs0, hsc, hal, hschall, hlow⟩
    · rw [hs0]
      rw [show ((if List.isEmpty ([] : Chars) = true then BLOB
        else [] ++ ':' :: BLOB) : Chars) = BLOB from rfl]
      rw [urlparseCore_eq]
      have hsf : splitSchemeC (BLOB ++ QP) = ([], BLOB ++ QP) := by
        apply schemeFree_app
        · rw [← hBLOB]
          exact hF2 hs0
        · exact hQPshape
      rw [hsf]
      show parseTail [] (BLOB ++ QP) = _
      rw [parseTail, if_neg (by rw [hdd]; exact Bool.false_ne_true)]
      rw [hs0] at hPT2
      exact hPT2
    · have hse : scheme.isEmpty = false := by
        rw [hsc]
        rfl
      rw [if_neg (by rw [hse]; exact Bool.false_ne_true)]
      rw [show ((scheme ++ ':' :: BLOB) ++ QP : Chars) = scheme ++ ':' :: (BLOB ++ QP) by
        simp [List.append_assoc]]
      rw [urlparseCore_eq, splitSchemeC_scheme scheme _ c0 cs0 hsc hal hschall hlow]
      show parseTail scheme (BLOB ++ QP) = _
      rw [parseTail, if_neg (by rw [hdd]; exact Bool.false_ne_true)]
      exact hPT2
  refine ⟨?_, path, hparse, rfl⟩
  rw [hv]
  apply sanitize_id
  · apply noTRN_append _ _ _ hQtrn
    by_cases hse : scheme.isEmpty = true
    · rw [if_pos hse]
      exact hBtrn
    · rw [if_neg hse]
      exact noTRN_append _ _ hF13 (noTRN_cons ':' _ (by decide) hBtrn)
  · apply headGt_app _ _ _ hQgt
    by_cases hse : scheme.isEmpty = true
    · rw [if_pos hse]
      have hs0 : scheme = [] := by
        rcases scheme with _ | _
        · rfl
        · exact absurd hse (by simp)
      rw [← hBLOB]
      exact blob_headGt path params (hF18 hs0)
    · rw [if_neg hse]
      rcases hF1 with hs0 | ⟨c0, cs0, hsc, hal, _, _⟩
      · rw [hs0] at hse
        exact absurd rfl hse
      · rw [hsc, List.cons_append]
        show decide (0x20 < c0.toNat) = true
        rw [decide_eq_true_eq]
        exact alpha_gt c0 hal

theorem reconstruct_fixed (scheme netloc path params query frag : Chars)
    (hf : ParseFacts ⟨scheme, netloc, path, params, query, frag⟩)
    (hq : ∀ c ∈ query, okQueryChar c = true)
    (hH : netloc ≠ [] ∨ isPrefixL "//".data path = false) :
    sanitizeUrl (urlunparseC ⟨scheme, netloc, path, params, query, frag⟩) =
      urlunparseC ⟨scheme, netloc, path, params, query, frag⟩ ∧
    ∃ P2, urlparseCore (urlunparseC ⟨scheme, netloc, path, params, query, frag⟩) =
        ⟨scheme, netloc, P2, params, query, frag⟩ ∧
      urlunparseC ⟨scheme, netloc, P2, params, query, frag⟩ =
        urlunparseC ⟨scheme, netloc, path, params, query, frag⟩ := by
  rcases netloc with _ | ⟨nc, nr⟩
  · have hnp : isPrefixL "//".data path = false := by
      rcases hH with hne | hnp
      · exact absurd rfl hne
      · exact hnp
    by_cases hs0 : scheme = []
    · exact reconstruct_CD scheme [] path params query frag hf hq rfl (Or.inl hs0) hnp
    · by_cases hmem : scheme ∈ uses_netlocC
      · exact reconstruct_B scheme [] path params query frag hf hq rfl hs0 hmem hnp
      · exact reconstruct_CD scheme [] path params query frag hf hq rfl (Or.inr hmem) hnp
  · obtain ⟨hsan, hparse⟩ := reconstruct_A scheme (nc :: nr) path params query frag hf hq
      (fun h => List.noConfusion h)
    exact ⟨hsan, path, hparse, rfl⟩


/-! ## Claims C3 and C4: stability of the stripper's reconstruction. -/

theorem strip_stable (u v : String) (h : strip_affiliate_tags u = .ok v)
    (hH : (urlparseC u).netloc ≠ [] ∨ isPrefixL "//".data (urlparseC u).path = false) :
    strip_affiliate_tags v = .ok v := by
  by_cases hr : parseRaises u = true
  · rw [strip_affiliate_tags, if_pos hr] at h
    exact Except.noConfusion h
  · have hstep : strip_affiliate_tags u = .ok (String.mk (urlunparseC
        { urlparseC u with query := cleanedQuery (urlparseC u).query })) := by
      rw [strip_affiliate_tags, if_neg hr]
    have hveq : String.mk (urlunparseC { urlparseC u with
        query := cleanedQuery (urlparseC u).query }) = v :=
      Except.ok.inj (hstep.symm.trans h)
    obtain ⟨P, hP⟩ : ∃ p, urlparseC u = p := ⟨_, rfl⟩
    obtain ⟨sch, nl, pa, par, q0, fr⟩ := P
    have hpf : ParseFacts ⟨sch, nl, pa, par, q0, fr⟩ := by
      rw [← hP]
      exact parse_facts (sanitizeUrl u.data) (sanitize_noTRN u.data) (sanitize_headGt u.data)
    have hpf2 : ParseFacts ⟨sch, nl, pa, par, cleanedQuery q0, fr⟩ :=
      ⟨hpf.scheme_shape, hpf.scheme_free, hpf.netloc_ok, hpf.path_no_q, hpf.path_no_h,
       hpf.params_no_q, hpf.params_no_h, hpf.params_no_s, hpf.netloc_path,
       hpf.netloc_params, hpf.params_scheme, hpf.params_seg, hpf.head_ok,
       hpf.trn_scheme, hpf.trn_netloc, hpf.trn_path, hpf.trn_params, hpf.trn_frag⟩
    have hH2 : nl ≠ [] ∨ isPrefixL "//".data pa = false := by
      rcases hH with h1 | h2
      · rw [hP] at h1
        exact Or.inl h1
      · rw [hP] at h2
        exact Or.inr h2
    obtain ⟨hsan, P2, hparse2, hunp2⟩ := reconstruct_fixed sch nl pa par (cleanedQuery q0)
      fr hpf2 (cleanedQuery_ok q0) hH2
    have hvW : String.mk (urlunparseC ⟨sch, nl, pa, par, cleanedQuery q0, fr⟩) = v := by
      rw [← hveq, hP]
    have hparsev : urlparseC v = ⟨sch, nl, P2, par, cleanedQuery q0, fr⟩ := by
      rw [← hvW]
      show urlparseCore
        (sanitizeUrl (urlunparseC ⟨sch, nl, pa, par, cleanedQuery q0, fr⟩)) = _
      rw [hsan]
      exact hparse2
    have hrf : parseRaises u = false := by
      rcases h2 : parseRaises u with _ | _
      · rfl
      · exact absurd h2 hr
    have hrv : parseRaises v = false := by
      have h1 : parseRaises v = netlocRaises (urlparseC v).netloc := rfl
      rw [h1, hparsev]
      have h2 : parseRaises u = netlocRaises (urlparseC u).netloc := rfl
      rw [h2, hP] at hrf
      exact hrf
    rw [strip_affiliate_tags, if_neg (by rw [hrv]; exact Bool.false_ne_true)]
    show Except.ok (String.mk (urlunparseC { urlparseC v with
        query := cleanedQuery (urlparseC v).query })) = Except.ok v
    rw [hparsev]
    show Except.ok (String.mk (urlunparseC
        ⟨sch, nl, P2, par, cleanedQuery (cleanedQuery q0), fr⟩)) = Except.ok v
    rw [cleanedQuery_idem, hunp2, hvW]

/-- Claim C3, as stated, is false: on an empty-authority URL whose path
begins with `//`, `urlunparse` does not restore the authority marker, so a
second application of `strip_affiliate_tags` collapses slashes again and
returns a different string. -/
theorem c3_counterexample :
    strip_affiliate_tags "http://////x?tag=1" = .ok "http:////x" ∧
    strip_affiliate_tags "http:////x" = .ok "http://x" ∧
    ("http://x" : String) ≠ "http:////x" := by decide

/-- Claim C3 (amended): `strip_affiliate_tags` is idempotent on every URL
whose parse has a nonempty authority or a path that does not begin with
`//`: when the first application returns `v`, applying the function to `v`
returns `v` unchanged. -/
theorem c3_strip_idempotent (u v : String) (h : strip_affiliate_tags u = .ok v)
    (hH : (urlparseC u).netloc ≠ [] ∨ isPrefixL "//".data (urlparseC u).path = false) :
    strip_affiliate_tags v = .ok v := strip_stable u v h hH

/-- Witness: `c3_strip_idempotent` at a concrete URL. -/
theorem c3_strip_idempotent_witness :
    strip_affiliate_tags "https://x.com/p?tag=1&id=2" = .ok "https://x.com/p?id=2" ∧
    (urlparseC "https://x.com/p?tag=1&id=2").netloc ≠ [] ∧
    strip_affiliate_tags "https://x.com/p?id=2" = .ok "https://x.com/p?id=2" :=
  ⟨by decide, by decide,
    c3_strip_idempotent "https://x.com/p?tag=1&id=2" "https://x.com/p?id=2"
      (by decide) (Or.inl (by decide))⟩

/-- Claim C4, as stated, is false: even with no affiliate key present the
output is not byte-identical to the input — the scheme is lowercased, a
non-affiliate value's percent-encoding is rewritten (`a%20c` becomes
`a+c`), and a non-affiliate key whose value is empty is dropped by
`urlencode`. -/
theorem c4_counterexample :
    strip_affiliate_tags "HTTP://x.com/p?b=a%20c&foo=&b=2" =
      .ok "http://x.com/p?b=a+c&b=2" ∧
    filterAffiliate (parse_qsC (urlparseC "HTTP://x.com/p?b=a%20c&foo=&b=2").query) =
      parse_qsC (urlparseC "HTTP://x.com/p?b=a%20c&foo=&b=2").query ∧
    ("http://x.com/p?b=a+c&b=2" : String) ≠ "HTTP://x.com/p?b=a%20c&foo=&b=2" := by decide

/-- Claim C4 (amended): for a URL whose parse has a nonempty authority,
`strip_affiliate_tags` preserves the parsed scheme, authority, path,
parameters and fragment exactly, and the parsed query multidict of the
output is the input's with the affiliate-keyed entries removed — the
remaining keys keep their spelling, decoded value bytes, relative order
and multiplicity.  (The query is re-encoded byte-wise, so the output
string itself need not equal the input.) -/
theorem c4_strip_components (u v : String) (h : strip_affiliate_tags u = .ok v)
    (hn : (urlparseC u).netloc ≠ []) :
    (urlparseC v).scheme = (urlparseC u).scheme ∧
    (urlparseC v).netloc = (urlparseC u).netloc ∧
    (urlparseC v).path = (urlparseC u).path ∧
    (urlparseC v).params = (urlparseC u).params ∧
    (urlparseC v).fragment = (urlparseC u).fragment ∧
    parse_qsC (urlparseC v).query = filterAffiliate (parse_qsC (urlparseC u).query) := by
  by_cases hr : parseRaises u = true
  · rw [strip_affiliate_tags, if_pos hr] at h
    exact Except.noConfusion h
  · have hstep : strip_affiliate_tags u = .ok (String.mk (urlunparseC
        { urlparseC u with query := cleanedQuery (urlparseC u).query })) := by
      rw [strip_affiliate_tags, if_neg hr]
    have hveq : String.mk (urlunparseC { urlparseC u with
        query := cleanedQuery (urlparseC u).query }) = v :=
      Except.ok.inj (hstep.symm.trans h)
    obtain ⟨P, hP⟩ : ∃ p, urlparseC u = p := ⟨_, rfl⟩
    obtain ⟨sch, nl, pa, par, q0, fr⟩ := P
    have hpf : ParseFacts ⟨sch, nl, pa, par, q0, fr⟩ := by
      rw [← hP]
      exact parse_facts (sanitizeUrl u.data) (sanitize_noTRN u.data) (sanitize_headGt u.data)
    have hpf2 : ParseFacts ⟨sch, nl, pa, par, cleanedQuery q0, fr⟩ :=
      ⟨hpf.scheme_shape, hpf.scheme_free, hpf.netloc_ok, hpf.path_no_q, hpf.path_no_h,
       hpf.params_no_q, hpf.params_no_h, hpf.params_no_s, hpf.netloc_path,
       hpf.netloc_params, hpf.params_scheme, hpf.params_seg, hpf.head_ok,
       hpf.trn_scheme, hpf.trn_netloc, hpf.trn_path, hpf.trn_params, hpf.trn_frag⟩
    have hnl : nl ≠ [] := by
      rw [hP] at hn
      exact hn
    obtain ⟨hsan, hparse2⟩ := reconstruct_A sch nl pa par (cleanedQuery q0) fr
      hpf2 (cleanedQuery_ok q0) hnl
    have hvW : String.mk (urlunparseC ⟨sch, nl, pa, par, cleanedQuery q0, fr⟩) = v := by
      rw [← hveq, hP]
    have hparsev : urlparseC v = ⟨sch, nl, pa, par, cleanedQuery q0, fr⟩ := by
      rw [← hvW]
      show urlparseCore
        (sanitizeUrl (urlunparseC ⟨sch, nl, pa, par, cleanedQuery q0, fr⟩)) = _
      rw [hsan]
      exact hparse2
    rw [hparsev, hP]
    exact ⟨rfl, rfl, rfl, rfl, rfl, parse_qsC_cleanedQuery q0⟩

/-- Witness: `c4_strip_components` at a concrete URL with path parameters,
a tracking key and a fragment. -/
theorem c4_strip_components_witness :
    strip_affiliate_tags "https://shop.example.com/item;v=2?utm_source=fb&q=shoes#frag" =
      .ok "https://shop.example.com/item;v=2?q=shoes#frag" ∧
    (urlparseC "https://shop.example.com/item;v=2?utm_source=fb&q=shoes#frag").netloc ≠ [] ∧
    parse_qsC (urlparseC "https://shop.example.com/item;v=2?q=shoes#frag").query =
      filterAffiliate (parse_qsC
        (urlparseC "https://shop.example.com/item;v=2?utm_source=fb&q=shoes#frag").query) :=
  ⟨by decide, by decide,
    (c4_strip_components "https://shop.example.com/item;v=2?utm_source=fb&q=shoes#frag"
      "https://shop.example.com/item;v=2?q=shoes#frag" (by decide) (by decide)).2.2.2.2.2⟩

end DealBot
